import Mathlib

/-!
# Analiza-Danych-Raka: the deletion store and the KNN restoration

A shallow embedding of `src/store/index.js` (the Pinia store `dataStore`),
`src/composables/dataDeleting.js` and `src/composables/dataRestore.js`.

Modelling conventions
* A JavaScript value is a `Value`; finite numbers are rationals (exact
  arithmetic, no rounding, no infinities), `NaN` is a separate constructor.
* A record is a `Row`: the list of its own keys with their values, in
  insertion order (keys are ordinary names, not array indices).
* Randomness (`_.sample`) and the clock (`new Date()`) are read from an
  `Oracle`; the string built-ins of the host (`Number`, `parseFloat`,
  `parseInt`, `String`, `Math.sqrt`) are read from a `Host`.
* A `TypeError` thrown by the source is the result `none`.
-/

set_option autoImplicit false

namespace AnalizaDanych

/-! ## Values and records -/

/-- A JavaScript value as it occurs in a table row. -/
inductive Value where
  | undefined
  | null
  | bool (b : Bool)
  | num (q : ℚ)
  | nan
  | str (s : String)
  | arr (l : List String)
  deriving DecidableEq

/-- A record: own enumerable keys with their values, in insertion order. -/
abbrev Row := List (String × Value)

/-- Property read `row[k]`; a missing key reads as `undefined`. -/
def getKey : Row → String → Value
  | [], _ => Value.undefined
  | (k, v) :: r, x => if k = x then v else getKey r x

/-- Property write `row[k] = v`: an existing key keeps its position, a new key
is appended. -/
def setKey : Row → String → Value → Row
  | [], x, v => [(x, v)]
  | (k, w) :: r, x, v => if k = x then (x, v) :: r else (k, w) :: setKey r x v

/-- The result of `Object.keys(row)`. -/
def keys (r : Row) : List String := r.map Prod.fst

/-- Strict equality `a === b` (`NaN` is not equal to itself; arrays are
compared by content, they never occur as identifiers). -/
def strictEq (a b : Value) : Bool := decide (a = b) && decide (a ≠ Value.nan)

/-- The comparison of `Array.prototype.includes` (SameValueZero). -/
def sameValueZero (a b : Value) : Bool := decide (a = b)

/-- The result of `ids.includes(v)`. -/
def includes (ids : List Value) (v : Value) : Bool := ids.any (fun x => sameValueZero x v)

/-- JavaScript truthiness. -/
def truthy : Value → Bool
  | Value.undefined => false
  | Value.null => false
  | Value.bool b => b
  | Value.num q => decide (q ≠ 0)
  | Value.nan => false
  | Value.str s => decide (s ≠ "")
  | Value.arr _ => true

/-- The result of `arr.findIndex(p)`; `none` stands for `-1`. -/
def findIndex {α : Type} (p : α → Bool) : List α → Option Nat
  | [] => none
  | a :: l => if p a then some 0 else (findIndex p l).map (· + 1)

/-- The keys that are never counted as features by the store. -/
def excludedKeys : List String :=
  ["id", "decision", "status", "deletedAt", "fullRowDeleted", "deletedAttributes"]

/-- The eligible feature names of a row:
`Object.keys(row).filter(key => !excluded.includes(key))`. -/
def eligibleAttributes (row : Row) : List String :=
  (keys row).filter (fun key => !(excludedKeys.contains key))

/-! ## Outside world -/

/-- What the store reads from outside: the clock and the random sampler.
`now n` is the timestamp read while `n` records are in the deleted partition,
`sampleRows l n` and `sampleAttributes i l n` are the outcomes of
`sample(l, n)` for the row indices and for the attributes of the row at
position `i`. -/
structure Oracle where
  now : Nat → String
  sampleRows : List Nat → Nat → List Nat
  sampleAttributes : Nat → List String → Nat → List String

/-- The contract of underscore's `sample(l, n)` for `0 ≤ n ≤ l.length`: `n`
elements taken from distinct positions of `l`, in any order. -/
def IsSample {α : Type} (out l : List α) (n : Nat) : Prop :=
  out.Subperm l ∧ out.length = min n l.length

/-- Every outcome of the sampler respects the contract of `sample`. -/
def Oracle.Valid (o : Oracle) : Prop :=
  (∀ l n, IsSample (o.sampleRows l n) l n) ∧
  (∀ i l n, IsSample (o.sampleAttributes i l n) l n)

/-- The count that `sample(l, n)` really draws:
`Math.max(Math.min(n, length), 0)`. -/
def sampleCount (n : Int) (length : Nat) : Nat := (max (min n (length : Int)) 0).toNat

/-! ## The store -/

/-- The counters of `deletionStatistics`. -/
structure DeletionStatistics where
  totalDeleted : Int
  partialDeletions : Int
  fullDeletions : Int
  attributesDeleted : List (String × Int)
  deriving DecidableEq

/-- The state of `dataStore`. -/
structure Store where
  tableItems : List Row
  deletedRows : List Row
  fullDeletions : List Row
  deletionStatistics : DeletionStatistics
  deriving DecidableEq

/-- The value of `resetDeletionStatistics`. -/
def emptyStatistics : DeletionStatistics :=
  { totalDeleted := 0, partialDeletions := 0, fullDeletions := 0, attributesDeleted := [] }

/-- The initial state of the store. -/
def initialStore : Store :=
  { tableItems := [], deletedRows := [], fullDeletions := [], deletionStatistics := emptyStatistics }

/-- Getter `getActiveRows`. -/
def getActiveRows (s : Store) : List Row :=
  s.tableItems.filter (fun item => !(strictEq (getKey item "status") (Value.str "deleted")))

/-- Action `resetDeletionStatistics`. -/
def resetDeletionStatistics (s : Store) : Store :=
  { s with deletionStatistics := emptyStatistics }

/-- Action `addTableItems` on an array of items. -/
def addTableItems (s : Store) (items : List Row) : Store :=
  resetDeletionStatistics
    { s with tableItems := items.map (fun item =>
        setKey
          (setKey item "status"
            (if truthy (getKey item "status") then getKey item "status" else Value.str "active"))
          "deletedAt" Value.null) }

/-- The counter update `counts[attr] = (counts[attr] || 0) + 1`. -/
def bumpAttribute : List (String × Int) → String → List (String × Int)
  | [], attr => [(attr, 1)]
  | (k, c) :: rest, attr =>
    if k = attr then (k, c + 1) :: rest else (k, c) :: bumpAttribute rest attr

/-- Action `updateDeletionStatistics`. -/
def updateDeletionStatistics (st : DeletionStatistics) (deletedAttributes : List String)
    (isFullDeletion : Bool) : DeletionStatistics :=
  let st1 := { st with totalDeleted := st.totalDeleted + 1 }
  if isFullDeletion then
    { st1 with fullDeletions := st1.fullDeletions + 1 }
  else
    { st1 with
      partialDeletions := st1.partialDeletions + 1
      attributesDeleted := deletedAttributes.foldl bumpAttribute st1.attributesDeleted }

/-- The record that `markRowAsDeleted` builds. -/
def deletedRowOf (deletedAt : String) (row : Row) (isFullDeletion : Bool)
    (deletedAttributes : List String) : Row :=
  setKey
    (setKey
      (setKey (setKey row "deletedAt" (Value.str deletedAt)) "fullRowDeleted"
        (Value.bool isFullDeletion))
      "deletedAttributes" (Value.arr (if isFullDeletion then [] else deletedAttributes)))
    "status" (Value.str "deleted")

/-- Action `markRowAsDeleted`. -/
def markRowAsDeleted (o : Oracle) (s : Store) (row : Row) (isFullDeletion : Bool)
    (deletedAttributes : List String) : Store :=
  let deletedRow := deletedRowOf (o.now s.deletedRows.length) row isFullDeletion deletedAttributes
  { s with
    deletedRows := s.deletedRows ++ [deletedRow]
    fullDeletions := if isFullDeletion then s.fullDeletions ++ [deletedRow] else s.fullDeletions
    deletionStatistics :=
      updateDeletionStatistics s.deletionStatistics deletedAttributes isFullDeletion }

/-- Action `clearRowAttributes`, with `keysToClear` the outcome of
`sample(attributes, maxAttributes)`; returns `(updatedRow, deletedAttributes)`. -/
def clearRowAttributes (sample : List String → Nat → List String) (row : Row)
    (propertyQuantity : Int) : Row × List String :=
  let attributes := eligibleAttributes row
  let maxAttributes : Int := min propertyQuantity (attributes.length : Int)
  let keysToClear := sample attributes (sampleCount maxAttributes attributes.length)
  let updatedRow := keysToClear.foldl (fun r key => setKey r key (Value.num 0)) row
  (setKey updatedRow "status" (Value.str "removed"), keysToClear)

/-- The `filter` callback loop of the full-deletion branch of
`processDeletions`: returns the rows kept and the store after the calls of
`markRowAsDeleted`. -/
def deleteFullRows (o : Oracle) (ids : List Value) : List Row → Store → List Row × Store
  | [], s => ([], s)
  | row :: rest, s =>
    if includes ids (getKey row "id") then
      deleteFullRows o ids rest (markRowAsDeleted o s row true [])
    else
      let res := deleteFullRows o ids rest s
      (row :: res.1, res.2)

/-- The `map` callback loop of the partial branch of `processDeletions`,
`index` being the position of the first row of the list in the table. -/
def clearRows (o : Oracle) (ids : List Value) (propertyQuantity : Int) :
    Nat → List Row → Store → List Row × Store
  | _, [], s => ([], s)
  | index, row :: rest, s =>
    if includes ids (getKey row "id") then
      let cleared := clearRowAttributes (o.sampleAttributes index) row propertyQuantity
      let res := clearRows o ids propertyQuantity (index + 1) rest
        (markRowAsDeleted o s row false cleared.2)
      (cleared.1 :: res.1, res.2)
    else
      let res := clearRows o ids propertyQuantity (index + 1) rest s
      (row :: res.1, res.2)

/-- The constant `ATTRIBUTE_DELETION_THRESHOLD`. -/
def ATTRIBUTE_DELETION_THRESHOLD : Int := 6

/-- Action `processDeletions`. -/
def processDeletions (o : Oracle) (s : Store) (ids : List Value) (propertyQuantity : Int)
    (forceRowDeletion : Bool) : Store :=
  let isFullDeletion := forceRowDeletion || decide (propertyQuantity > ATTRIBUTE_DELETION_THRESHOLD)
  if isFullDeletion then
    let res := deleteFullRows o ids s.tableItems s
    { res.2 with tableItems := res.1 }
  else
    let res := clearRows o ids propertyQuantity 0 s.tableItems s
    { res.2 with tableItems := res.1 }

/-- The argument of `deleteTableRows`. -/
structure DeleteData where
  isRandom : Bool
  forceRowDeletion : Bool
  propertyQuantity : Int
  rowQuantity : Int
  rows : List Value

/-- The `validIndices` of `handleRandomDeletion`: the positions of the rows
whose status is not `deleted`. -/
def validIndices (s : Store) : List Nat :=
  (List.range s.tableItems.length).filter (fun index =>
    !(strictEq (getKey (s.tableItems.getD index []) "status") (Value.str "deleted")))

/-- The `randomIndices` of `handleRandomDeletion`: the ids of the rows at the
sampled positions. -/
def randomIndices (o : Oracle) (s : Store) (rowQuantity : Int) : List Value :=
  (o.sampleRows (validIndices s)
    (sampleCount (min rowQuantity ((validIndices s).length : Int)) (validIndices s).length)).map
    (fun index => getKey (s.tableItems.getD index []) "id")

/-- Action `handleRandomDeletion`. -/
def handleRandomDeletion (o : Oracle) (s : Store) (d : DeleteData) : Store :=
  processDeletions o s (randomIndices o s d.rowQuantity) d.propertyQuantity d.forceRowDeletion

/-- Action `handleSelectedDeletion`. -/
def handleSelectedDeletion (o : Oracle) (s : Store) (d : DeleteData) : Store :=
  let validIds := d.rows.filter (fun id =>
    s.tableItems.any (fun item =>
      strictEq (getKey item "id") id &&
        !(strictEq (getKey item "status") (Value.str "deleted"))))
  processDeletions o s validIds d.propertyQuantity d.forceRowDeletion

/-- Action `deleteTableRows`. -/
def deleteTableRows (o : Oracle) (s : Store) (d : DeleteData) : Store :=
  let s1 := resetDeletionStatistics { s with deletedRows := [], fullDeletions := [] }
  if d.isRandom then handleRandomDeletion o s1 d else handleSelectedDeletion o s1 d

/-- The elements of `deletedRow.deletedAttributes` visited by `forEach`;
`none` when the value has no `forEach` (a `TypeError`). -/
def attributeList : Value → Option (List String)
  | Value.arr l => some l
  | _ => none

/-- The `forEach` loop of `restoreRow` over the deleted attributes: a field
that is still `0` takes back the value saved in the deleted record. -/
def restoreAttributes (deletedRow : Row) (attrs : List String) (row : Row) : Row :=
  attrs.foldl (fun r attr =>
    if strictEq (getKey r attr) (Value.num 0) then setKey r attr (getKey deletedRow attr) else r) row

/-- Action `restoreRow`; `none` when the source throws. -/
def restoreRow (s : Store) (rowId : Value) : Option Store :=
  match findIndex (fun row => strictEq (getKey row "id") rowId) s.deletedRows with
  | none => some s
  | some deletedRowIndex =>
    let deletedRow := s.deletedRows.getD deletedRowIndex []
    let isFull := truthy (getKey deletedRow "fullRowDeleted")
    let items : Option (List Row) :=
      if isFull then
        some (s.tableItems ++
          [setKey
            (setKey
              (setKey (setKey deletedRow "status" (Value.str "restored")) "deletedAt" Value.null)
              "fullRowDeleted" (Value.bool false))
            "deletedAttributes" (Value.arr [])])
      else
        match findIndex (fun row => strictEq (getKey row "id") rowId) s.tableItems with
        | none => some s.tableItems
        | some existingRowIndex =>
          (attributeList (getKey deletedRow "deletedAttributes")).map (fun attrs =>
            s.tableItems.set existingRowIndex
              (setKey
                (restoreAttributes deletedRow attrs (s.tableItems.getD existingRowIndex []))
                "status" (Value.str "restored")))
    items.map (fun tableItems =>
      { tableItems := tableItems
        deletedRows := s.deletedRows.eraseIdx deletedRowIndex
        fullDeletions :=
          s.fullDeletions.filter (fun row => !(strictEq (getKey row "id") rowId))
        deletionStatistics :=
          { s.deletionStatistics with
            fullDeletions :=
              if isFull then s.deletionStatistics.fullDeletions - 1
              else s.deletionStatistics.fullDeletions
            partialDeletions :=
              if isFull then s.deletionStatistics.partialDeletions
              else s.deletionStatistics.partialDeletions - 1
            totalDeleted := s.deletionStatistics.totalDeleted - 1 } })

/-- A sequence of `restoreRow` calls, one per identifier, in order. -/
def restoreRows : Store → List Value → Option Store
  | s, [] => some s
  | s, rowId :: rest => (restoreRow s rowId).bind (fun s1 => restoreRows s1 rest)

/-! ## Deletion requests (`dataDeleting.js`) -/

/-- The refs of the composable `useDataDeleting`. -/
structure Deleting where
  isDeletingRandom : Bool
  isInfoVisible : Bool
  randomRowsToDeleteQuantity : Int
  randomAttributesToDeleteQuantity : Int
  selectedRowsToDelete : List Value

/-- The constant `MAX_ATTRIBUTES_TO_DELETE`. -/
def MAX_ATTRIBUTES_TO_DELETE : Int := 6

/-- The constant `MIN_ROWS_TO_DELETE`. -/
def MIN_ROWS_TO_DELETE : Int := 1

/-- The constant `ATTRIBUTE_THRESHOLD_FOR_FULL_DELETION`. -/
def ATTRIBUTE_THRESHOLD_FOR_FULL_DELETION : Int := 6

/-- Function `getAvailableAttributesCount`: the number of eligible features
of the first active row, `0` without an active row. -/
def getAvailableAttributesCount (s : Store) : Nat :=
  match getActiveRows s with
  | [] => 0
  | sampleRow :: _ =>
    ((keys sampleRow).filter (fun k => !(excludedKeys.contains k))).length

/-- Function `validateDeletionParameters`. -/
def validateDeletionParameters (c : Deleting) (s : Store) : Bool :=
  if c.isDeletingRandom then
    if c.randomRowsToDeleteQuantity < MIN_ROWS_TO_DELETE then false
    else if c.randomRowsToDeleteQuantity > ((getActiveRows s).length : Int) then false
    else if c.randomAttributesToDeleteQuantity < 1 then false
    else if c.randomAttributesToDeleteQuantity > (getAvailableAttributesCount s : Int) then false
    else true
  else
    if c.selectedRowsToDelete.length = 0 then false
    else if c.selectedRowsToDelete.length > (getActiveRows s).length then false
    else true

/-- The `deleteConfig` built by `deleteData`. -/
def deleteConfig (c : Deleting) : DeleteData :=
  let shouldDeleteEntireRow : Bool :=
    decide (c.randomAttributesToDeleteQuantity > ATTRIBUTE_THRESHOLD_FOR_FULL_DELETION)
  { isRandom := c.isDeletingRandom
    forceRowDeletion := shouldDeleteEntireRow
    propertyQuantity :=
      if shouldDeleteEntireRow then 0
      else min c.randomAttributesToDeleteQuantity MAX_ATTRIBUTES_TO_DELETE
    rowQuantity :=
      if c.isDeletingRandom then c.randomRowsToDeleteQuantity
      else (c.selectedRowsToDelete.length : Int)
    rows := if c.isDeletingRandom then [] else c.selectedRowsToDelete }

/-- Function `deleteData`; `confirmed` is the answer of the user to the
`confirm` dialog, asked only for a full deletion of selected rows. -/
def deleteData (o : Oracle) (confirmed : Bool) (c : Deleting) (s : Store) : Deleting × Store :=
  if !(validateDeletionParameters c s) then (c, s)
  else
    let shouldDeleteEntireRow : Bool :=
      decide (c.randomAttributesToDeleteQuantity > ATTRIBUTE_THRESHOLD_FOR_FULL_DELETION)
    if shouldDeleteEntireRow && !c.isDeletingRandom && !confirmed then (c, s)
    else
      ({ c with
          isInfoVisible := true
          selectedRowsToDelete := if !c.isDeletingRandom then [] else c.selectedRowsToDelete },
        deleteTableRows o s (deleteConfig c))

/-- The selection holds no id of an active record: the `validIds` of
`handleSelectedDeletion` are empty. -/
def NoActiveId (s : Store) (rows : List Value) : Prop :=
  ∀ id ∈ rows, s.tableItems.any (fun item =>
    strictEq (getKey item "id") id &&
      !(strictEq (getKey item "status") (Value.str "deleted"))) = false

instance (s : Store) (rows : List Value) : Decidable (NoActiveId s rows) := by
  unfold NoActiveId
  infer_instance

/-! ## Host built-ins and numbers (`dataRestore.js`) -/

/-- The string built-ins of the JavaScript host. `none` stands for `NaN`.
`numberOfString s` is `Number(s)`, `parseFloatOfString s` is `parseFloat(s)`,
`parseIntClean s` is `parseInt(s.replace(/\r/g, '').trim())`,
`stringOfNumber q` is `String(q)` and `sqrt` is `Math.sqrt`. The numbers of
the host are doubles: `round q` is the double that an arithmetic operation
with the exact result `q` returns. The Z-Score statistics are computed with
it, because the branch taken by the guard `stats[f].std > 0` depends on the
rounding; the other computations are carried out on exact numbers. -/
structure Host where
  numberOfString : String → Option ℚ
  parseFloatOfString : String → Option ℚ
  parseIntClean : String → Option Int
  stringOfNumber : ℚ → String
  sqrt : ℚ → ℚ
  round : ℚ → ℚ

/-- The conversion `String(v)`. -/
def jsString (H : Host) : Value → String
  | Value.undefined => "undefined"
  | Value.null => "null"
  | Value.bool true => "true"
  | Value.bool false => "false"
  | Value.num q => H.stringOfNumber q
  | Value.nan => "NaN"
  | Value.str s => s
  | Value.arr l => ",".intercalate l

/-- The conversion `Number(v)`, as used by `isNaN` and by arithmetic. -/
def toNumber (H : Host) : Value → Option ℚ
  | Value.undefined => none
  | Value.null => some 0
  | Value.bool b => some (if b then 1 else 0)
  | Value.num q => some q
  | Value.nan => none
  | Value.str s => H.numberOfString s
  | Value.arr l => H.numberOfString (",".intercalate l)

/-- The built-in `isNaN(v)`. -/
def isNaN (H : Host) (v : Value) : Bool := (toNumber H v).isNone

/-- The built-in `parseFloat(v)`; a finite number is read back unchanged. -/
def parseFloat (H : Host) : Value → Option ℚ
  | Value.num q => some q
  | Value.str s => H.parseFloatOfString s
  | Value.arr l => H.parseFloatOfString (",".intercalate l)
  | _ => none

/-- The cleaned label `parseInt(String(v).replace(/\r/g, '').trim())`. -/
def cleanDecision (H : Host) (v : Value) : Option Int := H.parseIntClean (jsString H v)

/-- A possibly-`NaN` integer as a value. -/
def valueOfInt : Option Int → Value
  | some n => Value.num (n : ℚ)
  | none => Value.nan

/-- A possibly-`NaN` number as a value. -/
def valueOfNumber : Option ℚ → Value
  | some q => Value.num q
  | none => Value.nan

/-- The test `decision === 2 || decision === 4` on a cleaned label. -/
def isRecognized (decision : Option Int) : Bool :=
  decide (decision = some 2) || decide (decision = some 4)

/-- Function `mean`: `values.reduce((a, b) => a + b, 0) / values.length`
(`0 / 0` is `NaN`). -/
def mean (values : List ℚ) : Value :=
  if values.length = 0 then Value.nan
  else Value.num (values.foldl (fun a b => a + b) 0 / (values.length : ℚ))

/-- Function `median` (an empty list gives `NaN`). -/
def median (values : List ℚ) : Value :=
  let sorted := values.insertionSort (fun a b => a ≤ b)
  let mid := sorted.length / 2
  if sorted.length = 0 then Value.nan
  else if sorted.length % 2 ≠ 0 then Value.num (sorted.getD mid 0)
  else Value.num ((sorted.getD (mid - 1) 0 + sorted.getD mid 0) / 2)

/-! ## Double arithmetic -/

/-- The power `2^k` for an integer exponent `k`. -/
def pow2 (k : Int) : ℚ :=
  if 0 ≤ k then ((2 ^ k.toNat : Nat) : ℚ) else 1 / ((2 ^ (-k).toNat : Nat) : ℚ)

/-- The number of halvings that bring `n` below `2`, at most `fuel`. -/
def log2Fuel : Nat → Nat → Nat
  | 0, _ => 0
  | fuel + 1, n => if n < 2 then 0 else log2Fuel fuel (n / 2) + 1

/-- The exponent `e` with `2^e <= q < 2^(e+1)`, for `q > 0`. -/
def floorLog2 (q : ℚ) : Int :=
  let e : Int := (log2Fuel q.num.natAbs q.num.natAbs : Int) - (log2Fuel q.den q.den : Int)
  if pow2 e ≤ q then e else e - 1

/-- The integer nearest to `m`, a tie going to the even one. -/
def roundHalfEven (m : ℚ) : Int :=
  let f := Rat.floor m
  if m - (f : ℚ) < 1 / 2 then f
  else if 1 / 2 < m - (f : ℚ) then f + 1
  else if f % 2 = 0 then f else f + 1

/-- The double nearest to the number `q`: 53 significant bits, round to
nearest, ties to even. The bounds of the exponent (overflow, subnormal
numbers) are not part of the model. -/
def roundDouble (q : ℚ) : ℚ :=
  if q = 0 then 0
  else
    let scale := pow2 (52 - floorLog2 |q|)
    let n : ℚ := ((roundHalfEven (|q| * scale) : Int) : ℚ)
    if q < 0 then -(n / scale) else n / scale

/-- The largest `r` below `2^bits` with `r * r <= n`, found bit by bit. -/
def isqrtBits (n : Nat) : Nat → Nat → Nat
  | 0, acc => acc
  | bit + 1, acc =>
    if (acc + 2 ^ bit) * (acc + 2 ^ bit) ≤ n then isqrtBits n bit (acc + 2 ^ bit)
    else isqrtBits n bit acc

/-- The double nearest to the square root of `q >= 0`, the result of
`Math.sqrt` on a double `q`. -/
def sqrtDouble (q : ℚ) : ℚ :=
  if q ≤ 0 then 0
  else
    let scale := pow2 (52 - floorLog2 q / 2)
    let t := q * scale * scale
    let n := isqrtBits (Rat.floor t).toNat 64 0
    let below : ℚ := ((n : ℚ) + 1 / 2) * ((n : ℚ) + 1 / 2)
    let m : Nat :=
      if t < below then n else if below < t then n + 1 else if n % 2 = 0 then n else n + 1
    (m : ℚ) / scale

/-! ## Normalization -/

/-- The per-feature statistics kept in `stats[f]`. -/
inductive FeatureStats where
  | minMax (min max : ℚ)
  | zScore (mean std : ℚ)
  deriving DecidableEq

/-- The result of `Math.min(...values)` on a non-empty list. -/
def minOf : List ℚ → ℚ
  | [] => 0
  | a :: l => l.foldl min a

/-- The result of `Math.max(...values)` on a non-empty list. -/
def maxOf : List ℚ → ℚ
  | [] => 0
  | a :: l => l.foldl max a

/-- The valid training values of a feature:
`trainData.map(row => parseFloat(row[f])).filter(v => !isNaN(v) && ...)`. -/
def trainValues (H : Host) (trainData : List Row) (f : String) : List ℚ :=
  trainData.filterMap (fun row => parseFloat H (getKey row f))

/-- The entry `stats[f]` computed by `normalizeData` from the training data;
`none` when the entry is never written. -/
def featureStats (H : Host) (trainData : List Row) (method : String) (f : String) :
    Option FeatureStats :=
  let values := trainValues H trainData f
  if values.length = 0 then none
  else if method = "Min-Max" then some (FeatureStats.minMax (minOf values) (maxOf values))
  else if method = "Z-Score" then
    let mean := H.round (values.foldl (fun a b => H.round (a + b)) 0 / (values.length : ℚ))
    let std := H.sqrt (H.round
      (values.foldl (fun sum val => H.round (sum + H.round (H.round (val - mean) ^ 2))) 0 /
        (values.length : ℚ)))
    some (FeatureStats.zScore mean std)
  else none

/-- The value written to `normalized[f]` by the inner function `normalize`. -/
def normalizedValue (H : Host) (stats : Option FeatureStats) (v : Value) : ℚ :=
  match stats with
  | none => 0
  | some st =>
    match parseFloat H v with
    | none => 0
    | some value =>
      match st with
      | FeatureStats.minMax min max =>
        if max - min > 0 then (value - min) / (max - min) else 0
      | FeatureStats.zScore mean std =>
        if std > 0 then H.round (H.round (value - mean) / std) else 0

/-- The inner function `normalize(row, stats)` of `normalizeData`. -/
def normalizeRow (H : Host) (stats : String → Option FeatureStats) (features : List String)
    (row : Row) : Row :=
  features.foldl
    (fun normalized f => setKey normalized f
      (Value.num (normalizedValue H (stats f) (getKey row f)))) row

/-- The pair `{ train, test }` returned by `normalizeData`. -/
structure Normalized where
  train : List Row
  test : List Row

/-- Function `normalizeData`. -/
def normalizeData (H : Host) (trainData testData : List Row) (method : String)
    (features : List String) : Normalized :=
  let stats := featureStats H trainData method
  { train := trainData.map (normalizeRow H stats features)
    test := testData.map (normalizeRow H stats features) }

/-! ## Distances and neighbours -/

/-- A distance: a finite number or `Infinity`. -/
inductive Dist where
  | fin (q : ℚ)
  | inf
  deriving DecidableEq

/-- The accumulation loop shared by the three metrics: `step` is applied to
the accumulator at every feature that is not `NaN` in both records. -/
def accumulate {α : Type} (H : Host) (x y : Row) (features : List String)
    (step : α → ℚ → ℚ → α) (init : α) : α × Nat :=
  features.foldl
    (fun acc f =>
      match toNumber H (getKey x f), toNumber H (getKey y f) with
      | some a, some b => (step acc.1 a b, acc.2 + 1)
      | _, _ => acc)
    (init, 0)

/-- The metric `distanceMetrics.Euclidean`. -/
def euclidean (H : Host) (x y : Row) (features : List String) : Dist :=
  let acc := accumulate H x y features (fun sum a b => sum + (a - b) ^ 2) (0 : ℚ)
  if acc.2 > 0 then Dist.fin (H.sqrt (acc.1 / (acc.2 : ℚ))) else Dist.inf

/-- The metric `distanceMetrics.Manhattan`. -/
def manhattan (H : Host) (x y : Row) (features : List String) : Dist :=
  let acc := accumulate H x y features (fun sum a b => sum + |a - b|) (0 : ℚ)
  if acc.2 > 0 then Dist.fin (acc.1 / (acc.2 : ℚ)) else Dist.inf

/-- The metric `distanceMetrics.Cosine`; the accumulator is
`(dot, normX, normY)`. -/
def cosine (H : Host) (x y : Row) (features : List String) : Dist :=
  let acc := accumulate H x y features
    (fun (t : ℚ × ℚ × ℚ) a b => (t.1 + a * b, t.2.1 + a ^ 2, t.2.2 + b ^ 2)) (0, 0, 0)
  if acc.2 = 0 then Dist.inf
  else Dist.fin (1 - acc.1.1 / (H.sqrt acc.1.2.1 * H.sqrt acc.1.2.2 + 1 / 10000000000))

/-- The lookup `distanceMetrics[name]`; `none` when the table has no such
entry (calling it throws). -/
def distanceMetrics (H : Host) (name : String) : Option (Row → Row → List String → Dist) :=
  if name = "Euclidean" then some (euclidean H)
  else if name = "Manhattan" then some (manhattan H)
  else if name = "Cosine" then some (cosine H)
  else none

/-- The test `!isNaN(x[f]) && !isNaN(y[f])` of the three metrics. -/
def bothNumbers (H : Host) (x y : Row) (f : String) : Bool :=
  !isNaN H (getKey x f) && !isNaN H (getKey y f)

/-- The sums `(dot, normX, normY)` and the counter `validFeatures` at the end
of the loop of `distanceMetrics.Cosine`. -/
def cosineSums (H : Host) (x y : Row) (features : List String) : (ℚ × ℚ × ℚ) × Nat :=
  accumulate H x y features
    (fun (t : ℚ × ℚ × ℚ) a b => (t.1 + a * b, t.2.1 + a ^ 2, t.2.2 + b ^ 2)) (0, 0, 0)

/-- The order induced by the comparator `(a, b) => a.distance - b.distance`:
`a` is not placed after `b` (a `NaN` difference, `Infinity - Infinity`, counts
as `0`). -/
def Dist.le : Dist → Dist → Bool
  | Dist.fin a, Dist.fin b => decide (a ≤ b)
  | Dist.fin _, Dist.inf => true
  | Dist.inf, Dist.fin _ => false
  | Dist.inf, Dist.inf => true

/-- The ref `knnConfig`. -/
structure KnnConfig where
  k : Int
  distanceMetric : String
  normalization : String
  aggregation : String

/-- The initial value of `knnConfig`. -/
def defaultKnnConfig : KnnConfig :=
  { k := 3, distanceMetric := "Euclidean", normalization := "Min-Max", aggregation := "Mode" }

/-- An entry of the list built by `findKNN`. -/
structure Neighbor where
  row : Row
  distance : Dist
  decision : Option Int

/-- The result of `arr.slice(0, k)` for an integer `k`. -/
def sliceTo {α : Type} (l : List α) (k : Int) : List α :=
  if k < 0 then l.take ((l.length : Int) + k).toNat else l.take k.toNat

/-- The stable sort of the entries by `a.distance - b.distance`. -/
def sortByDistance (l : List Neighbor) : List Neighbor :=
  l.insertionSort (fun a b => Dist.le a.distance b.distance = true)

/-- Function `findKNN(target, data, features)`; `none` when the metric named
by `knnConfig` does not exist and is called. -/
def findKNN (H : Host) (knn : KnnConfig) (target : Row) (data : List Row)
    (features : List String) : Option (List Neighbor) :=
  let normalized := normalizeData H data [target] knn.normalization features
  let normTrain := normalized.train
  let normTarget := normalized.test.headD []
  match distanceMetrics H knn.distanceMetric with
  | none => if data.length = 0 then some [] else none
  | some metric =>
    let distances := (List.zip data normTrain).map (fun p =>
      ({ row := p.1
         distance := metric normTarget p.2 features
         decision := cleanDecision H (getKey p.1 "decision") } : Neighbor))
    some (sliceTo (sortByDistance distances) knn.k)

/-! ## Restoration (`restoreData`) -/

/-- The argument `config` of `restoreData`; an absent field is `none`. -/
structure RestoreConfig where
  k : Option Int
  distanceMetric : Option String
  normalization : Option String
  type : Option String

/-- The overrides at the start of `restoreData`: a field of `config` that is
truthy replaces the field of `knnConfig`. -/
def applyConfig (knn : KnnConfig) (config : RestoreConfig) : KnnConfig :=
  { knn with
    k := match config.k with
      | some k => if k ≠ 0 then k else knn.k
      | none => knn.k
    distanceMetric := match config.distanceMetric with
      | some m => if m ≠ "" then m else knn.distanceMetric
      | none => knn.distanceMetric
    normalization := match config.normalization with
      | some m => if m ≠ "" then m else knn.normalization
      | none => knn.normalization }

/-- The `features` of `restoreData`: the eligible keys of the first table
row, `Object.keys(store.getTableItems[0] || {}).filter(...)`. -/
def restoreFeatures (s : Store) : List String := eligibleAttributes (s.tableItems.headD [])

/-- The counter `restoredCount`. -/
structure RestoreCount where
  successful : Nat
  failed : Nat
  deriving DecidableEq

/-- The state threaded through the `forEach` of `restoreData`. -/
structure RestoreState where
  store : Store
  restoredCount : RestoreCount
  deriving DecidableEq

/-- The same-label pool: the active rows whose cleaned label is
`cleanDecision`. -/
def sameLabelRows (H : Host) (s : Store) (decision : Option Int) : List Row :=
  (getActiveRows s).filter (fun row =>
    strictEq (valueOfInt (cleanDecision H (getKey row "decision"))) (valueOfInt decision))

/-- The value assigned to `restoredRow[attr]`, if any: the aggregate of the
neighbours' values that are numbers. -/
def imputedValue (H : Host) (config : RestoreConfig) (neighbors : List Neighbor)
    (attr : String) : Option Value :=
  let values := neighbors.filterMap (fun n => parseFloat H (getKey n.row attr))
  if values.length > 0 then
    some (if config.type = some "Median Value" then median values else mean values)
  else none

/-- One assignment `restoredRow[attr] = ...` guarded by `values.length > 0`. -/
def imputeAttribute (H : Host) (config : RestoreConfig) (neighbors : List Neighbor)
    (restoredRow : Row) (attr : String) : Row :=
  match imputedValue H config neighbors attr with
  | some v => setKey restoredRow attr v
  | none => restoredRow

/-- The test `deletedRow[f] === 0 || isNaN(deletedRow[f]) || deletedRow[f] === null`. -/
def isMissing (H : Host) (v : Value) : Bool :=
  strictEq v (Value.num 0) || isNaN H v || strictEq v Value.null

/-- The object literal `restoredRow` before any attribute is imputed. -/
def restoredRowBase (restoredAt : String) (deletedRow : Row) (decision : Option Int) : Row :=
  setKey
    (setKey
      (setKey
        (setKey (setKey deletedRow "decision" (valueOfInt decision)) "status"
          (Value.str "restored"))
        "restoredAt" (Value.str restoredAt))
      "fullRowDeleted" (Value.bool false))
    "deletedAttributes" (Value.arr [])

/-- The record `restoredRow` after the imputation loops; `none` when
`deletedRow.deletedAttributes` has a positive `length` but no `forEach`
(a non-empty string). -/
def buildRestoredRow (H : Host) (config : RestoreConfig) (features : List String)
    (restoredAt : String) (deletedRow : Row) (decision : Option Int)
    (neighbors : List Neighbor) : Option Row :=
  let restoredRow := restoredRowBase restoredAt deletedRow decision
  match getKey deletedRow "deletedAttributes" with
  | Value.arr (a :: l) => some ((a :: l).foldl (imputeAttribute H config neighbors) restoredRow)
  | Value.str str =>
    if str.length > 0 then none
    else some (features.foldl (fun r f =>
      if isMissing H (getKey deletedRow f) then imputeAttribute H config neighbors r f else r)
      restoredRow)
  | _ =>
    some (features.foldl (fun r f =>
      if isMissing H (getKey deletedRow f) then imputeAttribute H config neighbors r f else r)
      restoredRow)

/-- The `try` block of `restoreData`: the write to the table and the removal
from the deleted partition. -/
def commitRestoredRow (s : Store) (deletedRow restoredRow : Row) : Store :=
  let tableItems :=
    if truthy (getKey deletedRow "fullRowDeleted") then s.tableItems ++ [restoredRow]
    else
      match findIndex (fun item => strictEq (getKey item "id") (getKey deletedRow "id"))
        s.tableItems with
      | some rowIndex => s.tableItems.set rowIndex restoredRow
      | none => s.tableItems
  { s with
    tableItems := tableItems
    deletedRows := s.deletedRows.filter
      (fun row => !(strictEq (getKey row "id") (getKey deletedRow "id")))
    fullDeletions := s.fullDeletions.filter
      (fun row => !(strictEq (getKey row "id") (getKey deletedRow "id"))) }

/-- The state with `restoredCount.failed++`. -/
def countFailed (st : RestoreState) : RestoreState :=
  { st with restoredCount := { st.restoredCount with failed := st.restoredCount.failed + 1 } }

/-- The callback of `store.getDeletedRows.forEach` in `restoreData`, for the
deleted record at position `index`; `none` when the source throws. -/
def restoreRecord (H : Host) (o : Oracle) (knn : KnnConfig) (config : RestoreConfig)
    (features : List String) (st : RestoreState) (index : Nat) (deletedRow : Row) :
    Option RestoreState :=
  let cleanDecision := cleanDecision H (getKey deletedRow "decision")
  if isRecognized cleanDecision then
    let activeRows := sameLabelRows H st.store cleanDecision
    if activeRows.length > 0 then
      let cleanDeletedRow := setKey deletedRow "decision" (valueOfInt cleanDecision)
      match findKNN H knn cleanDeletedRow activeRows features with
      | none => none
      | some neighbors =>
        if neighbors.length > 0 then
          match buildRestoredRow H config features (o.now index) deletedRow cleanDecision
            neighbors with
          | none => none
          | some restoredRow =>
            some
              { store := commitRestoredRow st.store deletedRow restoredRow
                restoredCount :=
                  { st.restoredCount with successful := st.restoredCount.successful + 1 } }
        else some (countFailed st)
    else some (countFailed st)
  else some (countFailed st)

/-- The `forEach` loop of `restoreData` over the deleted records, `index`
being the position of the first one. -/
def restoreLoop (H : Host) (o : Oracle) (knn : KnnConfig) (config : RestoreConfig)
    (features : List String) : Nat → List Row → RestoreState → Option RestoreState
  | _, [], st => some st
  | index, deletedRow :: rest, st =>
    (restoreRecord H o knn config features st index deletedRow).bind
      (restoreLoop H o knn config features (index + 1) rest)

/-- What `restoreData` leaves behind: the new `knnConfig`, the store and the
returned number of restored records. -/
structure RestoreResult where
  knnConfig : KnnConfig
  store : Store
  restored : Nat

/-- Function `restoreData(config)`; `none` when the source throws. The
bookkeeping of `updateAlgorithmAnalysis` is not part of the model. -/
def restoreData (H : Host) (o : Oracle) (knn : KnnConfig) (config : RestoreConfig)
    (s : Store) : Option RestoreResult :=
  let knn1 := applyConfig knn config
  let features := restoreFeatures s
  if s.deletedRows.length = 0 then some { knnConfig := knn1, store := s, restored := 0 }
  else
    (restoreLoop H o knn1 config features 0 s.deletedRows
        { store := s, restoredCount := { successful := 0, failed := 0 } }).map
      (fun st =>
        { knnConfig := knn1, store := st.store, restored := st.restoredCount.successful })

/-! ## Cross-validation (`crossValidate`, `inspectData`) -/

/-- The list `validFeatures` of `prepareData`. -/
def validFeatures : List String :=
  ["radius", "texture", "perimeter", "area", "smoothness", "compactness", "concavity",
    "concavePoints", "symmetry", "fractalDimension"]

/-- The object `cleaned` built by `prepareData` for one active row. -/
def cleanItem (H : Host) (item : Row) : Row :=
  validFeatures.foldl
    (fun cleaned f =>
      setKey cleaned f
        (match parseFloat H (getKey item f) with
          | none => Value.num 0
          | some numValue => Value.num numValue))
    [("id", getKey item "id"),
      ("decision", valueOfInt (cleanDecision H (getKey item "decision"))),
      ("status", getKey item "status")]

/-- Function `prepareData`. -/
def prepareData (H : Host) (s : Store) : List Row :=
  ((getActiveRows s).map (cleanItem H)).filter (fun item =>
    strictEq (getKey item "decision") (Value.num 2) ||
      strictEq (getKey item "decision") (Value.num 4))

/-- The value returned by `inspectData`. -/
structure Inspection where
  class2 : Nat
  class4 : Nat
  issues : List String
  deriving DecidableEq

/-- The entry of `issues` for the feature `f`, `none` for `null`. -/
def featureIssue (H : Host) (data : List Row) (f : String) : Option String :=
  let invalidCount := (data.filter (fun row => isNaN H (getKey row f))).length
  if invalidCount > 0 then
    some (f ++ " has " ++ H.stringOfNumber (invalidCount : ℚ) ++ " invalid values")
  else none

/-- Function `inspectData`; `none` when `prepareData` returns no row
(`Object.keys(data[0])` throws). -/
def inspectData (H : Host) (s : Store) : Option Inspection :=
  match prepareData H s with
  | [] => none
  | first :: rest =>
    let data := first :: rest
    let features := (keys first).filter
      (fun k => !(["id", "decision", "status", "deletedAt"].contains k))
    some
      { class2 := (data.filter (fun row => strictEq (getKey row "decision") (Value.num 2))).length
        class4 := (data.filter (fun row => strictEq (getKey row "decision") (Value.num 4))).length
        issues := features.filterMap (featureIssue H data) }

/-- The guard at the start of `crossValidate`: `some true` when the function
returns at `if (inspection.issues.length > 0)`, before any fold, `some false`
when it goes on to the folds, `none` when `inspectData` throws. -/
def crossValidateAborts (H : Host) (s : Store) : Option Bool :=
  (inspectData H s).map (fun inspection => decide (inspection.issues.length > 0))

/-- The constant `folds` of `crossValidate`. -/
def folds : Nat := 10

/-- The bound `testStart = Math.floor(i * shuffled.length / folds)`. -/
def testStart (length i : Nat) : Nat := i * length / folds

/-- The bound `testEnd = Math.floor((i + 1) * shuffled.length / folds)`. -/
def testEnd (length i : Nat) : Nat := (i + 1) * length / folds

/-- The result of `arr.slice(start, end)` for `0 ≤ start`, `0 ≤ end`. -/
def slice {α : Type} (l : List α) (start stop : Nat) : List α := (l.take stop).drop start

/-- The test set of the fold `i`: `shuffled.slice(testStart, testEnd)`. -/
def testData {α : Type} (shuffled : List α) (i : Nat) : List α :=
  slice shuffled (testStart shuffled.length i) (testEnd shuffled.length i)

/-- The train set of the fold `i`:
`[...shuffled.slice(0, testStart), ...shuffled.slice(testEnd)]`. -/
def trainData {α : Type} (shuffled : List α) (i : Nat) : List α :=
  slice shuffled 0 (testStart shuffled.length i) ++ shuffled.drop (testEnd shuffled.length i)

/-- The read `freq[v] || 0` of the object `freq` of `mode`; the keys are the
labels of `findKNN` (an integer, or `none` for `NaN`), which `String(v)` keeps
apart. -/
def freqOf : List (Option Int × Nat) → Option Int → Nat
  | [], _ => 0
  | (k, c) :: rest, v => if k = v then c else freqOf rest v

/-- The write `freq[v] = n`. -/
def setFreq : List (Option Int × Nat) → Option Int → Nat → List (Option Int × Nat)
  | [], v, n => [(v, n)]
  | (k, c) :: rest, v, n => if k = v then (k, n) :: rest else (k, c) :: setFreq rest v n

/-- The variables `freq`, `max` and `mode` of the function `mode`; the value
`null` of `mode` is `none`. -/
structure ModeState where
  freq : List (Option Int × Nat)
  max : Nat
  mode : Option (Option Int)

/-- One iteration of the loop of `mode`. -/
def modeStep (st : ModeState) (v : Option Int) : ModeState :=
  let freq := setFreq st.freq v (freqOf st.freq v + 1)
  if freqOf freq v > st.max then { freq := freq, max := freqOf freq v, mode := some v }
  else { freq := freq, max := st.max, mode := st.mode }

/-- Function `mode(values)`; `none` is the result `null` of an empty list. -/
def mode (values : List (Option Int)) : Option (Option Int) :=
  (values.foldl modeStep { freq := [], max := 0, mode := none }).mode

/-- The labels that are numbers, when all of them are. -/
def numbersOf : List (Option Int) → Option (List ℚ)
  | [] => some []
  | none :: _ => none
  | some n :: rest => (numbersOf rest).map (fun l => (n : ℚ) :: l)

/-- The built-in `Math.round` on a number or `NaN`. -/
def mathRound : Value → Value
  | Value.num q => Value.num (⌊q + 1 / 2⌋ : ℤ)
  | v => v

/-- Function `aggregateDecisions(decisions)` under the aggregation named by
`knnConfig`. A `NaN` label makes the sum of `mean` `NaN`; with the comparator
`a - b` of `median` it leaves the order of the sorted copy to the
implementation, and the result is then `none`. -/
def aggregateDecisions (aggregation : String) (decisions : List (Option Int)) :
    Option Value :=
  if aggregation = "Mean" then
    match numbersOf decisions with
    | some numbers => some (mathRound (mean numbers))
    | none => some Value.nan
  else if aggregation = "Median" then
    (numbersOf decisions).map median
  else
    match mode decisions with
    | some label => some (valueOfInt label)
    | none => some Value.null

/-- The state of the loop of `mode` after the labels `done`. -/
structure ModeInv (st : ModeState) (done : List (Option Int)) : Prop where
  freq : ∀ v, freqOf st.freq v = done.count v
  bound : ∀ v, done.count v ≤ st.max
  empty : done = [] → st.max = 0 ∧ st.mode = none
  first : done ≠ [] → ∃ m before after, st.mode = some m ∧ done = before ++ m :: after ∧
    (before ++ [m]).count m = st.max ∧ ∀ v, before.count v < st.max

/-! ## Performance metrics (`calculatePerformanceMetrics`) -/

/-- An entry `{ actual, predicted }` of `knnResults`. -/
structure KnnResult where
  actual : Value
  predicted : Value
  deriving DecidableEq

/-- The object `cm`. -/
structure ConfusionMatrix where
  truePositive : Nat
  falsePositive : Nat
  trueNegative : Nat
  falseNegative : Nat
  deriving DecidableEq

/-- The body of the `for` loop of `calculatePerformanceMetrics`. -/
def countResult (cm : ConfusionMatrix) (result : KnnResult) : ConfusionMatrix :=
  let cm1 :=
    if strictEq result.actual (Value.num 2) && strictEq result.predicted (Value.num 2) then
      { cm with truePositive := cm.truePositive + 1 } else cm
  let cm2 :=
    if strictEq result.actual (Value.num 4) && strictEq result.predicted (Value.num 2) then
      { cm1 with falsePositive := cm1.falsePositive + 1 } else cm1
  let cm3 :=
    if strictEq result.actual (Value.num 4) && strictEq result.predicted (Value.num 4) then
      { cm2 with trueNegative := cm2.trueNegative + 1 } else cm2
  if strictEq result.actual (Value.num 2) && strictEq result.predicted (Value.num 4) then
    { cm3 with falseNegative := cm3.falseNegative + 1 } else cm3

/-- The value stored in `performanceMetrics` (`NaN` for `0 / 0`); the field
`recall` of the source is `recallValue` here. -/
structure PerformanceMetrics where
  accuracy : Value
  precision : ℚ
  recallValue : ℚ
  f1 : ℚ
  confusionMatrix : ConfusionMatrix
  totalSamples : Nat

/-- Function `calculatePerformanceMetrics(results)`. -/
def calculatePerformanceMetrics (results : List KnnResult) : PerformanceMetrics :=
  let cm := results.foldl countResult
    { truePositive := 0, falsePositive := 0, trueNegative := 0, falseNegative := 0 }
  let total := results.length
  let epsilon : ℚ := 1 / 10000000000
  let precision : ℚ := (cm.truePositive : ℚ) / ((cm.truePositive : ℚ) + cm.falsePositive + epsilon)
  let recallValue : ℚ := (cm.truePositive : ℚ) / ((cm.truePositive : ℚ) + cm.falseNegative + epsilon)
  let f1 : ℚ := 2 * (precision * recallValue) / (precision + recallValue + epsilon)
  { accuracy :=
      if total = 0 then Value.nan
      else Value.num (((cm.truePositive : ℚ) + cm.trueNegative) / (total : ℚ) * 100)
    precision := precision * 100
    recallValue := recallValue * 100
    f1 := f1 * 100
    confusionMatrix := cm
    totalSamples := total }

/-- Both fields of a result are one of the two labels `2` and `4`. -/
def isLabelled (result : KnnResult) : Bool :=
  (strictEq result.actual (Value.num 2) || strictEq result.actual (Value.num 4)) &&
    (strictEq result.predicted (Value.num 2) || strictEq result.predicted (Value.num 4))

/-! ## Example data -/

/-- An oracle whose sampler takes the first `n` elements and whose clock is
constant. -/
def exampleOracle : Oracle :=
  { now := fun _ => "2024-01-01T00:00:00.000Z"
    sampleRows := fun l n => l.take n
    sampleAttributes := fun _ l n => l.take n }

/-- A table of three records with two features. -/
def exampleTable : List Row :=
  [[("id", Value.num 1), ("decision", Value.num 2), ("radius", Value.num 5),
      ("texture", Value.num 3)],
    [("id", Value.num 2), ("decision", Value.num 2), ("radius", Value.num 7),
      ("texture", Value.num 1)],
    [("id", Value.num 3), ("decision", Value.num 4), ("radius", Value.num 9),
      ("texture", Value.num 8)]]

/-- The store after `addTableItems(exampleTable)`. -/
def exampleStore : Store := addTableItems initialStore exampleTable

/-- The store after a partial deletion of one attribute of the record 1. -/
def examplePartialBatch : Store :=
  deleteTableRows exampleOracle exampleStore
    { isRandom := false, forceRowDeletion := false, propertyQuantity := 1, rowQuantity := 1,
      rows := [Value.num 1] }

/-- A request to delete the selected record 99, which is not in the table. -/
def exampleUnknownSelection : Deleting :=
  { isDeletingRandom := false, isInfoVisible := false, randomRowsToDeleteQuantity := 0,
    randomAttributesToDeleteQuantity := 1, selectedRowsToDelete := [Value.num 99] }

/-- A random request for two rows and one attribute per row. -/
def exampleRandomRequest : DeleteData :=
  { isRandom := true, forceRowDeletion := false, propertyQuantity := 1, rowQuantity := 2,
    rows := [] }

/-- A random request of the composable for zero rows. -/
def exampleZeroRows : Deleting :=
  { isDeletingRandom := true, isInfoVisible := false, randomRowsToDeleteQuantity := 0,
    randomAttributesToDeleteQuantity := 1, selectedRowsToDelete := [] }

/-- A host that is exact on what the examples use: the labels are the
numbers 2 and 4, no value is a numeric string. The examples either keep the
pool within `k` rows, so that the neighbours do not depend on `sqrt`, or take
the square root of `0` and `1` only, where `sqrt` is exact. None of them
computes Z-Score statistics, the only use of `round`. -/
def exampleHost : Host :=
  { numberOfString := fun _ => none
    parseFloatOfString := fun _ => none
    parseIntClean := fun s => if s = "2" then some 2 else if s = "4" then some 4 else none
    stringOfNumber := fun q => if q = 2 then "2" else if q = 4 then "4" else "?"
    sqrt := fun q => q
    round := fun q => q }

/-- The example host with the arithmetic of doubles. -/
def doubleHost : Host := { exampleHost with sqrt := sqrtDouble, round := roundDouble }

/-- Three records whose feature `radius` is the double `0.1`. -/
def exampleConstantTable : List Row :=
  [[("id", Value.num 1), ("decision", Value.num 2),
      ("radius", Value.num (3602879701896397 / 36028797018963968))],
    [("id", Value.num 2), ("decision", Value.num 2),
      ("radius", Value.num (3602879701896397 / 36028797018963968))],
    [("id", Value.num 3), ("decision", Value.num 4),
      ("radius", Value.num (3602879701896397 / 36028797018963968))]]

/-- A call `restoreData({})`. -/
def exampleNoConfig : RestoreConfig :=
  { k := none, distanceMetric := none, normalization := none, type := none }

/-- The store after the full deletion of the record 1. -/
def exampleFullBatch : Store :=
  deleteTableRows exampleOracle exampleStore
    { isRandom := false, forceRowDeletion := true, propertyQuantity := 0, rowQuantity := 1,
      rows := [Value.num 1] }

/-- A table of two records of label 2; the `texture` of the record 1 is `0`. -/
def exampleZeroTable : List Row :=
  [[("id", Value.num 1), ("decision", Value.num 2), ("radius", Value.num 5),
      ("texture", Value.num 0)],
    [("id", Value.num 2), ("decision", Value.num 2), ("radius", Value.num 7),
      ("texture", Value.num 1)]]

/-- The store after loading `exampleZeroTable` and deleting the attribute
`radius` of the record 1. -/
def exampleZeroBatch : Store :=
  deleteTableRows exampleOracle (addTableItems initialStore exampleZeroTable)
    { isRandom := false, forceRowDeletion := false, propertyQuantity := 1, rowQuantity := 1,
      rows := [Value.num 1] }

/-- The store after the partial deletion of the record 1 followed by
`addTableItems` with a table that no longer holds the record 1. -/
def exampleOrphanBatch : Store :=
  addTableItems examplePartialBatch (exampleTable.drop 1)

/-- The two features of the example tables. -/
def exampleFeatures : List String := ["radius", "texture"]

/-- The start of a restoration on `exampleFullBatch`. -/
def exampleRestoreState : RestoreState :=
  { store := exampleFullBatch, restoredCount := { successful := 0, failed := 0 } }

/-- The start of a restoration on `exampleZeroBatch`. -/
def exampleZeroState : RestoreState :=
  { store := exampleZeroBatch, restoredCount := { successful := 0, failed := 0 } }

/-- The first row of the example store, as loaded. -/
def exampleFirstRow : Row := exampleStore.tableItems.getD 0 []

/-- The first row of `exampleZeroTable`, as loaded. -/
def exampleZeroRow : Row := (addTableItems initialStore exampleZeroTable).tableItems.getD 0 []

/-- A record of label 2 whose features are all `0`. -/
def exampleBlankRow : Row :=
  [("id", Value.num 9), ("decision", Value.num 2), ("radius", Value.num 0),
    ("texture", Value.num 0)]

/-- A record whose label is not 2 or 4. -/
def exampleUnlabelledRow : Row :=
  [("id", Value.num 7), ("decision", Value.num 3), ("radius", Value.num 1),
    ("texture", Value.num 1)]

/-- The state after the `forEach` callback of `restoreData` on the only
deleted record of `exampleFullBatch`. -/
def exampleRestoredState : RestoreState :=
  (restoreRecord exampleHost exampleOracle defaultKnnConfig exampleNoConfig exampleFeatures
    exampleRestoreState 0 (exampleFullBatch.deletedRows.getD 0 [])).getD exampleRestoreState

/-- A store with one active record of label 2 whose `radius` is the
non-numeric string `abc`. -/
def exampleDirtyStore : Store :=
  addTableItems initialStore
    [[("id", Value.num 1), ("decision", Value.num 2), ("radius", Value.str "abc"),
      ("texture", Value.num 3)]]

/-- A record with one feature. -/
def exampleUnitRow : Row := [("id", Value.num 7), ("radius", Value.num 1)]

/-- Three records of which the last two are equally far from the first. -/
def exampleTieTable : List Row :=
  [[("id", Value.num 1), ("decision", Value.num 2), ("radius", Value.num 5)],
   [("id", Value.num 2), ("decision", Value.num 2), ("radius", Value.num 7)],
   [("id", Value.num 3), ("decision", Value.num 4), ("radius", Value.num 7)]]

/-! ## Invariants of the store -/

/-- The identifier of a record. -/
def idOf (row : Row) : Value := getKey row "id"

/-- The test of `getActiveRows`: `item.status !== 'deleted'`. -/
def isActive (row : Row) : Bool := !(strictEq (getKey row "status") (Value.str "deleted"))

/-- The test `deletedRow.fullRowDeleted` of the restorations. -/
def isFull (d : Row) : Bool := truthy (getKey d "fullRowDeleted")

/-- The ids of the records are identifiers: pairwise distinct, none is
`NaN`. -/
def UniqueIds (rows : List Row) : Prop :=
  (rows.map idOf).Nodup ∧ Value.nan ∉ rows.map idOf

instance (rows : List Row) : Decidable (UniqueIds rows) := by
  unfold UniqueIds
  infer_instance

/-- The invariant of the store: the table and the deleted partition have
unique ids each, a record deleted as a whole row has no table row with its id,
and every deleted record lists eligible attribute names only. -/
structure StoreInv (s : Store) : Prop where
  table : UniqueIds s.tableItems
  deleted : UniqueIds s.deletedRows
  apart : ∀ d ∈ s.deletedRows, isFull d = true → idOf d ∉ s.tableItems.map idOf
  listed : ∀ d ∈ s.deletedRows, ∃ l, getKey d "deletedAttributes" = Value.arr l ∧
    ∀ a ∈ l, a ∉ excludedKeys

/-- The states reachable from a loaded table with unique ids by
`deleteTableRows`, `restoreRow` and `restoreData` (runs that do not throw,
with samplers that respect the contract of `sample`). -/
inductive Reachable (H : Host) : Store → Prop where
  | load (items : List Row) (hids : UniqueIds items) :
      Reachable H (addTableItems initialStore items)
  | delete (o : Oracle) (hvalid : o.Valid) (s : Store) (d : DeleteData) :
      Reachable H s → Reachable H (deleteTableRows o s d)
  | restoreOne (s s1 : Store) (rowId : Value) :
      Reachable H s → restoreRow s rowId = some s1 → Reachable H s1
  | restoreAll (o : Oracle) (knn : KnnConfig) (config : RestoreConfig) (s : Store)
      (result : RestoreResult) :
      Reachable H s → restoreData H o knn config s = some result → Reachable H result.store

/-- The number of records of the deleted partition that were deleted as a
whole row. -/
def fullCount (s : Store) : Nat := (s.deletedRows.filter isFull).length

/-- Every table row that shares its id with a partially deleted record is
active. -/
def PartialActive (s : Store) : Prop :=
  ∀ d ∈ s.deletedRows, isFull d = false →
    ∀ row ∈ s.tableItems, idOf row = idOf d → isActive row = true

/-- The record is selected by an explicit request for the ids `rows`: its id
is in the list and it is active. -/
def isSelected (rows : List Value) (row : Row) : Bool :=
  includes rows (idOf row) && isActive row

/-- A request to delete the selected records 1 and 99 as full rows. -/
def exampleMixedSelection : DeleteData :=
  { isRandom := false, forceRowDeletion := true, propertyQuantity := 0, rowQuantity := 2,
    rows := [Value.num 1, Value.num 99] }

/-! ## Shapes of the deleted snapshots -/

/-- The fields written by the literal `restoredRow`, whatever the record. -/
def restoredKeys : List String :=
  ["decision", "status", "restoredAt", "fullRowDeleted", "deletedAttributes"]



/-- The counters agree with the deleted partition:
`totalDeleted = partialDeletions + fullDeletions = deletedRows.length`. -/
def CountersMatch (s : Store) : Prop :=
  s.deletionStatistics.totalDeleted =
    s.deletionStatistics.partialDeletions + s.deletionStatistics.fullDeletions ∧
  s.deletionStatistics.totalDeleted = (s.deletedRows.length : Int)

/-- Every deleted record carries an array under `deletedAttributes`. -/
def AttributesRecorded (s : Store) : Prop :=
  ∀ d ∈ s.deletedRows, ∃ l, getKey d "deletedAttributes" = Value.arr l



/-- What a fully deleted snapshot `d` of the table row `row` looks like. -/
def IsFullSnapshot (row d : Row) : Prop :=
  getKey d "fullRowDeleted" = Value.bool true ∧
  getKey d "deletedAttributes" = Value.arr [] ∧
  getKey d "status" = Value.str "deleted" ∧
  ∀ x, x ∉ ["status", "deletedAttributes", "fullRowDeleted", "deletedAt"] →
    getKey d x = getKey row x

/-- A partial snapshot `d` of the table row `row`: the record pushed by
`markRowAsDeleted(row, false, deletedAttributes)` in `processDeletions`. -/
def IsPartialSnapshot (o : Oracle) (propertyQuantity : Int) (row d : Row) : Prop :=
  ∃ t i, d = deletedRowOf t row false
    (clearRowAttributes (o.sampleAttributes i) row propertyQuantity).2

/-- A table row after the `map` of the partial branch. -/
def IsClearedRow (o : Oracle) (ids : List Value) (propertyQuantity : Int) (row row1 : Row) :
    Prop :=
  if includes ids (getKey row "id") then
    ∃ i, row1 = (clearRowAttributes (o.sampleAttributes i) row propertyQuantity).1
  else row1 = row

/-! # Properties -/

/-! ## Basic facts about records -/

theorem getKey_setKey (r : Row) (k x : String) (v : Value) :
    getKey (setKey r k v) x = if k = x then v else getKey r x := by
  induction r with
  | nil => simp [setKey, getKey]
  | cons p r ih =>
    obtain ⟨a, w⟩ := p
    by_cases hak : a = k
    · subst hak
      by_cases hx : a = x <;> simp [setKey, getKey, hx]
    · by_cases hx : a = x
      · subst hx
        simp [setKey, getKey, hak, Ne.symm hak]
      · simp [setKey, getKey, hak, hx, ih]

theorem getKey_setKey_same (r : Row) (k : String) (v : Value) :
    getKey (setKey r k v) k = v := by
  simp [getKey_setKey]

theorem getKey_setKey_ne (r : Row) (k x : String) (v : Value) (h : k ≠ x) :
    getKey (setKey r k v) x = getKey r x := by
  simp [getKey_setKey, h]

theorem isSample_take {α : Type} (l : List α) (n : Nat) : IsSample (l.take n) l n :=
  ⟨(List.take_sublist n l).subperm, List.length_take n l⟩

theorem includes_iff (ids : List Value) (v : Value) : includes ids v = true ↔ v ∈ ids := by
  simp [includes, sameValueZero]

theorem strictEq_iff (a b : Value) : strictEq a b = true ↔ a = b ∧ a ≠ Value.nan := by
  simp [strictEq]

/-- The fields of the record built by `markRowAsDeleted`. -/
theorem getKey_deletedRowOf (t : String) (row : Row) (full : Bool) (attrs : List String)
    (x : String) :
    getKey (deletedRowOf t row full attrs) x =
      if x = "status" then Value.str "deleted"
      else if x = "deletedAttributes" then Value.arr (if full then [] else attrs)
      else if x = "fullRowDeleted" then Value.bool full
      else if x = "deletedAt" then Value.str t
      else getKey row x := by
  unfold deletedRowOf
  simp only [getKey_setKey, eq_comm (b := x)]

/-! ## Full deletion -/

theorem isFullSnapshot_deletedRowOf (t : String) (row : Row) (attrs : List String) :
    IsFullSnapshot row (deletedRowOf t row true attrs) := by
  refine ⟨?_, ?_, ?_, ?_⟩
  · simp [getKey_deletedRowOf]
  · simp [getKey_deletedRowOf]
  · simp [getKey_deletedRowOf]
  · intro x hx
    simp only [List.mem_cons, List.mem_singleton, List.not_mem_nil, or_false, not_or] at hx
    simp [getKey_deletedRowOf, hx.1, hx.2.1, hx.2.2.1, hx.2.2.2]

theorem deleteFullRows_spec (o : Oracle) (ids : List Value) (rows : List Row) (s : Store) :
    (deleteFullRows o ids rows s).1 = rows.filter (fun row => !(includes ids (getKey row "id"))) ∧
    ∃ marked : List Row,
      (deleteFullRows o ids rows s).2.deletedRows = s.deletedRows ++ marked ∧
      List.Forall₂ IsFullSnapshot
        (rows.filter (fun row => includes ids (getKey row "id"))) marked ∧
      (deleteFullRows o ids rows s).2.deletionStatistics.totalDeleted =
        s.deletionStatistics.totalDeleted + marked.length ∧
      (deleteFullRows o ids rows s).2.deletionStatistics.partialDeletions =
        s.deletionStatistics.partialDeletions ∧
      (deleteFullRows o ids rows s).2.deletionStatistics.fullDeletions =
        s.deletionStatistics.fullDeletions + marked.length := by
  induction rows generalizing s with
  | nil => exact ⟨rfl, [], by simp [deleteFullRows], List.Forall₂.nil, by simp [deleteFullRows]⟩
  | cons row rest ih =>
    by_cases h : includes ids (getKey row "id") = true
    · obtain ⟨h1, marked, h2, h3, h4, h5, h6⟩ := ih (markRowAsDeleted o s row true [])
      refine ⟨by simp [deleteFullRows, h, h1], ?_⟩
      refine ⟨deletedRowOf (o.now s.deletedRows.length) row true [] :: marked, ?_, ?_, ?_, ?_, ?_⟩
      · simp only [deleteFullRows, h, if_true, h2]
        simp [markRowAsDeleted]
      · simp only [List.filter_cons, h, if_true]
        exact List.Forall₂.cons (isFullSnapshot_deletedRowOf _ _ _) h3
      · simp only [deleteFullRows, h, if_true, h4]
        simp [markRowAsDeleted, updateDeletionStatistics]
        omega
      · simp only [deleteFullRows, h, if_true, h5]
        simp [markRowAsDeleted, updateDeletionStatistics]
      · simp only [deleteFullRows, h, if_true, h6]
        simp [markRowAsDeleted, updateDeletionStatistics]
        omega
    · obtain ⟨h1, marked, h2, h3, h4, h5, h6⟩ := ih s
      refine ⟨by simp [deleteFullRows, h, h1], marked, by simp [deleteFullRows, h, h2], ?_,
        by simp [deleteFullRows, h, h4], by simp [deleteFullRows, h, h5],
        by simp [deleteFullRows, h, h6]⟩
      simpa [List.filter_cons, h] using h3

/-- C1: when `propertyQuantity > 6`, `processDeletions` deletes whole rows
whatever `forceRowDeletion` is: the table keeps exactly the rows whose id is
not in the list, unchanged and in order, and the deleted partition grows by one
snapshot per removed row, in order, each with `fullRowDeleted = true`,
`deletedAttributes = []`, status `deleted` and every other field of the removed
row. -/
theorem processDeletions_above_threshold_full (o : Oracle) (s : Store) (ids : List Value)
    (propertyQuantity : Int) (forceRowDeletion : Bool) (h : propertyQuantity > 6) :
    (processDeletions o s ids propertyQuantity forceRowDeletion).tableItems =
      s.tableItems.filter (fun row => !(includes ids (getKey row "id"))) ∧
    ∃ marked : List Row,
      (processDeletions o s ids propertyQuantity forceRowDeletion).deletedRows =
        s.deletedRows ++ marked ∧
      List.Forall₂ IsFullSnapshot
        (s.tableItems.filter (fun row => includes ids (getKey row "id"))) marked := by
  have hfull : (forceRowDeletion || decide (propertyQuantity > ATTRIBUTE_DELETION_THRESHOLD)) = true := by
    simp [ATTRIBUTE_DELETION_THRESHOLD, h]
  obtain ⟨h1, marked, h2, h3, -⟩ := deleteFullRows_spec o ids s.tableItems s
  refine ⟨?_, marked, ?_, h3⟩
  · simp only [processDeletions, hfull, if_true]
    exact h1
  · simp only [processDeletions, hfull, if_true]
    exact h2

/-- C1 at the example: seven attributes requested for the record 1. -/
theorem processDeletions_above_threshold_full_witness :
    (7 : Int) > 6 ∧
    ((processDeletions exampleOracle exampleStore [Value.num 1] 7 false).tableItems =
      exampleStore.tableItems.filter (fun row => !(includes [Value.num 1] (getKey row "id"))) ∧
    ∃ marked : List Row,
      (processDeletions exampleOracle exampleStore [Value.num 1] 7 false).deletedRows =
        exampleStore.deletedRows ++ marked ∧
      List.Forall₂ IsFullSnapshot
        (exampleStore.tableItems.filter (fun row => includes [Value.num 1] (getKey row "id")))
        marked) :=
  ⟨by decide,
    processDeletions_above_threshold_full exampleOracle exampleStore [Value.num 1] 7 false
      (by decide)⟩

/-! ## Partial deletion of one row -/

theorem getKey_foldl_zero (out : List String) (row : Row) (x : String) :
    getKey (out.foldl (fun r key => setKey r key (Value.num 0)) row) x =
      if x ∈ out then Value.num 0 else getKey row x := by
  induction out generalizing row with
  | nil => simp
  | cons k out ih =>
    simp only [List.foldl_cons, ih, getKey_setKey, List.mem_cons]
    by_cases hx : x ∈ out
    · simp [hx]
    · by_cases hk : k = x
      · simp [hk]
      · simp [hx, hk, Ne.symm hk]

theorem mem_eligibleAttributes (row : Row) (x : String) :
    x ∈ eligibleAttributes row ↔ x ∈ keys row ∧ x ∉ excludedKeys := by
  simp [eligibleAttributes]

theorem nodup_of_subperm {α : Type} {out l : List α} (h : out.Subperm l) (hl : l.Nodup) :
    out.Nodup := by
  obtain ⟨l1, hperm, hsub⟩ := h
  exact hperm.nodup_iff.1 (hl.sublist hsub)

theorem sampleCount_min (n : Int) (length : Nat) (h : 0 ≤ n) :
    ((sampleCount (min n (length : Int)) length : Nat) : Int) = min n (length : Int) := by
  unfold sampleCount
  rw [Int.toNat_of_nonneg (by omega)]
  omega

/-- C3: for a record (an object, so with distinct keys) and
`propertyQuantity ≥ 0`, whatever the sampler draws, `clearRowAttributes`
returns a `deletedAttributes` list without duplicates, made of eligible feature
names only (keys of the row outside the six excluded names), of length exactly
`min(propertyQuantity, number of eligible features)`; the returned row reads
`0` at exactly those names, `removed` at `status`, and the value of the input
row at every other name. -/
theorem clearRowAttributes_spec (sample : List String → Nat → List String)
    (hsample : ∀ l n, IsSample (sample l n) l n) (row : Row) (propertyQuantity : Int)
    (hkeys : (keys row).Nodup) (hq : 0 ≤ propertyQuantity) :
    (clearRowAttributes sample row propertyQuantity).2.Nodup ∧
    (∀ x ∈ (clearRowAttributes sample row propertyQuantity).2,
      x ∈ keys row ∧ x ∉ excludedKeys) ∧
    (((clearRowAttributes sample row propertyQuantity).2.length : Nat) : Int) =
      min propertyQuantity ((eligibleAttributes row).length : Int) ∧
    ∀ x, getKey (clearRowAttributes sample row propertyQuantity).1 x =
      if x ∈ (clearRowAttributes sample row propertyQuantity).2 then Value.num 0
      else if x = "status" then Value.str "removed"
      else getKey row x := by
  obtain ⟨hsub, hlen⟩ := hsample (eligibleAttributes row)
    (sampleCount (min propertyQuantity ((eligibleAttributes row).length : Int))
      (eligibleAttributes row).length)
  have hnodup : (eligibleAttributes row).Nodup := hkeys.filter _
  have hmem : ∀ x ∈ (clearRowAttributes sample row propertyQuantity).2,
      x ∈ keys row ∧ x ∉ excludedKeys := by
    intro x hx
    exact (mem_eligibleAttributes row x).1 (hsub.subset hx)
  refine ⟨nodup_of_subperm hsub hnodup, hmem, ?_, ?_⟩
  · have h1 := sampleCount_min propertyQuantity (eligibleAttributes row).length hq
    simp only [clearRowAttributes]
    rw [hlen]
    omega
  · intro x
    by_cases hx : x ∈ (clearRowAttributes sample row propertyQuantity).2
    · have hne : x ≠ "status" := by
        intro h
        exact (hmem x hx).2 (by simp [h, excludedKeys])
      rw [if_pos hx]
      simp only [clearRowAttributes] at hx ⊢
      rw [getKey_setKey_ne _ _ _ _ (Ne.symm hne), getKey_foldl_zero, if_pos hx]
    · rw [if_neg hx]
      simp only [clearRowAttributes] at hx ⊢
      rw [getKey_setKey, getKey_foldl_zero, if_neg hx]
      simp only [eq_comm (a := "status")]

/-- C3 at the example: one attribute of the first record of the example
table. -/
theorem clearRowAttributes_spec_witness :
    (keys (exampleTable.getD 0 [])).Nodup ∧ (0 : Int) ≤ 1 ∧
    (clearRowAttributes (fun l n => l.take n) (exampleTable.getD 0 []) 1).2.Nodup ∧
    (∀ x ∈ (clearRowAttributes (fun l n => l.take n) (exampleTable.getD 0 []) 1).2,
      x ∈ keys (exampleTable.getD 0 []) ∧ x ∉ excludedKeys) ∧
    (((clearRowAttributes (fun l n => l.take n) (exampleTable.getD 0 []) 1).2.length : Nat)
      : Int) = min 1 ((eligibleAttributes (exampleTable.getD 0 [])).length : Int) ∧
    ∀ x, getKey (clearRowAttributes (fun l n => l.take n) (exampleTable.getD 0 []) 1).1 x =
      if x ∈ (clearRowAttributes (fun l n => l.take n) (exampleTable.getD 0 []) 1).2
        then Value.num 0
      else if x = "status" then Value.str "removed"
      else getKey (exampleTable.getD 0 []) x :=
  ⟨by decide, by decide,
    clearRowAttributes_spec (fun l n => l.take n) (fun l n => isSample_take l n)
      (exampleTable.getD 0 []) 1 (by decide) (by decide)⟩

/-! ## Partial deletion of a table -/

theorem clearRows_spec (o : Oracle) (ids : List Value) (propertyQuantity : Int) (index : Nat)
    (rows : List Row) (s : Store) :
    List.Forall₂ (IsClearedRow o ids propertyQuantity) rows
      (clearRows o ids propertyQuantity index rows s).1 ∧
    ∃ marked : List Row,
      (clearRows o ids propertyQuantity index rows s).2.deletedRows = s.deletedRows ++ marked ∧
      List.Forall₂ (IsPartialSnapshot o propertyQuantity)
        (rows.filter (fun row => includes ids (getKey row "id"))) marked ∧
      (clearRows o ids propertyQuantity index rows s).2.fullDeletions = s.fullDeletions ∧
      (clearRows o ids propertyQuantity index rows s).2.deletionStatistics.totalDeleted =
        s.deletionStatistics.totalDeleted + marked.length ∧
      (clearRows o ids propertyQuantity index rows s).2.deletionStatistics.partialDeletions =
        s.deletionStatistics.partialDeletions + marked.length ∧
      (clearRows o ids propertyQuantity index rows s).2.deletionStatistics.fullDeletions =
        s.deletionStatistics.fullDeletions := by
  induction rows generalizing s index with
  | nil => exact ⟨List.Forall₂.nil, [], by simp [clearRows], List.Forall₂.nil, by simp [clearRows]⟩
  | cons row rest ih =>
    by_cases h : includes ids (getKey row "id") = true
    · obtain ⟨h0, marked, h1, h2, h3, h4, h5, h6⟩ := ih (index + 1)
        (markRowAsDeleted o s row false
          (clearRowAttributes (o.sampleAttributes index) row propertyQuantity).2)
      refine ⟨?_, deletedRowOf (o.now s.deletedRows.length) row false
          (clearRowAttributes (o.sampleAttributes index) row propertyQuantity).2 :: marked,
        ?_, ?_, ?_, ?_, ?_, ?_⟩
      · simp only [clearRows, h, if_true]
        exact List.Forall₂.cons (by simp only [IsClearedRow, h, if_true]; exact ⟨index, rfl⟩) h0
      · simp only [clearRows, h, if_true, h1]
        simp [markRowAsDeleted]
      · simp only [List.filter_cons, h, if_true]
        exact List.Forall₂.cons ⟨_, index, rfl⟩ h2
      · simp only [clearRows, h, if_true, h3]
        simp [markRowAsDeleted]
      · simp only [clearRows, h, if_true, h4]
        simp [markRowAsDeleted, updateDeletionStatistics]
        omega
      · simp only [clearRows, h, if_true, h5]
        simp [markRowAsDeleted, updateDeletionStatistics]
        omega
      · simp only [clearRows, h, if_true, h6]
        simp [markRowAsDeleted, updateDeletionStatistics]
    · obtain ⟨h0, marked, h1, h2, h3, h4, h5, h6⟩ := ih (index + 1) s
      refine ⟨?_, marked, ?_, ?_, ?_, ?_, ?_, ?_⟩
      · simp only [clearRows, h]
        exact List.Forall₂.cons (by simp [IsClearedRow, h]) h0
      · simp only [clearRows, h]
        exact h1
      · simpa [List.filter_cons, h] using h2
      · simp only [clearRows, h]
        exact h3
      · simp only [clearRows, h]
        exact h4
      · simp only [clearRows, h]
        exact h5
      · simp only [clearRows, h]
        exact h6

/-! ## Random deletion -/

theorem map_getD_range {α : Type} (l : List α) (d : α) :
    (List.range l.length).map (fun i => l.getD i d) = l := by
  apply List.ext_getElem
  · simp
  · intro i h1 h2
    simp [List.getD_eq_getElem, h2]

theorem map_validIndices (s : Store) :
    (validIndices s).map (fun i => s.tableItems.getD i []) = getActiveRows s := by
  unfold validIndices getActiveRows
  conv_rhs => rw [← map_getD_range s.tableItems []]
  rw [List.filter_map]
  rfl

theorem length_validIndices (s : Store) : (validIndices s).length = (getActiveRows s).length := by
  rw [← map_validIndices, List.length_map]

theorem nodup_validIndices (s : Store) : (validIndices s).Nodup :=
  (List.nodup_range _).filter _

theorem forall₂_map_eq {α β γ : Type} {R : α → β → Prop} {f : α → γ} {g : β → γ}
    (h : ∀ a b, R a b → f a = g b) {l1 : List α} {l2 : List β} (hl : List.Forall₂ R l1 l2) :
    l1.map f = l2.map g := by
  induction hl with
  | nil => rfl
  | cons hab _ ih => simp [h _ _ hab, ih]

theorem getD_id_injective (rows : List Row) (hids : (rows.map (fun r => getKey r "id")).Nodup)
    (i j : Nat) (hi : i < rows.length) (hj : j < rows.length)
    (h : getKey (rows.getD i []) "id" = getKey (rows.getD j []) "id") : i = j := by
  rw [List.getD_eq_getElem _ _ hi, List.getD_eq_getElem _ _ hj] at h
  have hi1 : i < (rows.map (fun r => getKey r "id")).length := by simpa using hi
  have hj1 : j < (rows.map (fun r => getKey r "id")).length := by simpa using hj
  have h2 : (rows.map (fun r => getKey r "id"))[i] = (rows.map (fun r => getKey r "id"))[j] := by
    simpa using h
  exact (List.Nodup.getElem_inj_iff hids).1 h2

theorem perm_filter_ids (rows : List Row) (hids : (rows.map (fun r => getKey r "id")).Nodup)
    (sampled : List Nat) (hnd : sampled.Nodup) (hlt : ∀ i ∈ sampled, i < rows.length) :
    ((rows.filter (fun row =>
        includes (sampled.map (fun i => getKey (rows.getD i []) "id")) (getKey row "id"))).map
      (fun r => getKey r "id")).Perm
      (sampled.map (fun i => getKey (rows.getD i []) "id")) := by
  have h1 : ((rows.filter (fun row =>
        includes (sampled.map (fun i => getKey (rows.getD i []) "id")) (getKey row "id"))).map
      (fun r => getKey r "id")).Nodup :=
    hids.sublist ((List.filter_sublist _).map _)
  have h2 : (sampled.map (fun i => getKey (rows.getD i []) "id")).Nodup := by
    apply List.Nodup.map_on _ hnd
    intro i hi j hj h
    exact getD_id_injective rows hids i j (hlt i hi) (hlt j hj) h
  rw [List.perm_ext_iff_of_nodup h1 h2]
  intro x
  constructor
  · intro hx
    obtain ⟨row, hrow, rfl⟩ := List.mem_map.1 hx
    exact (includes_iff _ _).1 (List.mem_filter.1 hrow).2
  · intro hx
    obtain ⟨i, hi, rfl⟩ := List.mem_map.1 hx
    refine List.mem_map.2 ⟨rows.getD i [], ?_, rfl⟩
    refine List.mem_filter.2 ⟨?_, (includes_iff _ _).2 hx⟩
    rw [List.getD_eq_getElem _ _ (hlt i hi)]
    exact List.getElem_mem _

theorem mem_validIndices (s : Store) (i : Nat) (h : i ∈ validIndices s) :
    i < s.tableItems.length ∧ s.tableItems.getD i [] ∈ getActiveRows s := by
  have hlt : i < s.tableItems.length := by
    simpa using (List.mem_filter.1 h).1
  refine ⟨hlt, ?_⟩
  rw [← map_validIndices]
  exact List.mem_map.2 ⟨i, h, rfl⟩

/-- C2: on a table with distinct ids, random deletion with
`forceRowDeletion = false`, `1 ≤ propertyQuantity ≤ 6` and
`1 ≤ rowQuantity ≤ number of active rows` leaves, for every outcome of the
sampler, exactly `rowQuantity` records in the deleted partition, with pairwise
distinct ids that are ids of previously active rows, and the counters
`partialDeletions = rowQuantity`, `fullDeletions = 0`,
`totalDeleted = rowQuantity`. -/
theorem deleteTableRows_random_attributes (o : Oracle)
    (hsample : ∀ l n, IsSample (o.sampleRows l n) l n) (s : Store) (d : DeleteData)
    (hids : (s.tableItems.map (fun r => getKey r "id")).Nodup)
    (hrandom : d.isRandom = true) (hforce : d.forceRowDeletion = false)
    (hpq : 1 ≤ d.propertyQuantity ∧ d.propertyQuantity ≤ 6)
    (hrq : 1 ≤ d.rowQuantity ∧ d.rowQuantity ≤ ((getActiveRows s).length : Int)) :
    (((deleteTableRows o s d).deletedRows.length : Nat) : Int) = d.rowQuantity ∧
    ((deleteTableRows o s d).deletedRows.map (fun r => getKey r "id")).Nodup ∧
    (∀ x ∈ (deleteTableRows o s d).deletedRows.map (fun r => getKey r "id"),
      x ∈ (getActiveRows s).map (fun r => getKey r "id")) ∧
    (deleteTableRows o s d).deletionStatistics.partialDeletions = d.rowQuantity ∧
    (deleteTableRows o s d).deletionStatistics.fullDeletions = 0 ∧
    (deleteTableRows o s d).deletionStatistics.totalDeleted = d.rowQuantity := by
  -- the state after the reset at the start of the batch
  set s1 : Store := resetDeletionStatistics { s with deletedRows := [], fullDeletions := [] }
    with hs1
  have hvi : validIndices s1 = validIndices s := rfl
  have hclear : (d.forceRowDeletion ||
      decide (d.propertyQuantity > ATTRIBUTE_DELETION_THRESHOLD)) = false := by
    simp [hforce, ATTRIBUTE_DELETION_THRESHOLD, hpq.2]
  obtain ⟨hsub, hlen⟩ := hsample (validIndices s)
    (sampleCount (min d.rowQuantity ((validIndices s).length : Int)) (validIndices s).length)
  set sampled := o.sampleRows (validIndices s)
    (sampleCount (min d.rowQuantity ((validIndices s).length : Int)) (validIndices s).length)
    with hsampled
  have hlen1 : ((sampled.length : Nat) : Int) = d.rowQuantity := by
    have h1 := sampleCount_min d.rowQuantity (validIndices s).length (by omega)
    have h2 := length_validIndices s
    rw [hlen]
    omega
  have hids_eq : randomIndices o s1 d.rowQuantity =
      sampled.map (fun i => getKey (s.tableItems.getD i []) "id") := rfl
  obtain ⟨-, marked, hm1, hm2, -, hm4, hm5, hm6⟩ :=
    clearRows_spec o (randomIndices o s1 d.rowQuantity) d.propertyQuantity 0 s1.tableItems s1
  have hdel : (deleteTableRows o s d).deletedRows = marked := by
    simp only [deleteTableRows, hrandom, if_true, handleRandomDeletion, processDeletions,
      hclear]
    simpa [hs1, resetDeletionStatistics] using hm1
  have hstat : (deleteTableRows o s d).deletionStatistics =
      (clearRows o (randomIndices o s1 d.rowQuantity) d.propertyQuantity 0
        s1.tableItems s1).2.deletionStatistics := by
    simp only [deleteTableRows, hrandom, if_true, handleRandomDeletion, processDeletions,
      hclear]
    rfl
  have hmap : (s.tableItems.filter (fun row =>
      includes (randomIndices o s1 d.rowQuantity) (getKey row "id"))).map
        (fun r => getKey r "id") = marked.map (fun r => getKey r "id") := by
    refine forall₂_map_eq ?_ hm2
    rintro row dr ⟨t, i, rfl⟩
    simp [getKey_deletedRowOf]
  have hperm := perm_filter_ids s.tableItems hids sampled
    (nodup_of_subperm hsub (nodup_validIndices s))
    (fun i hi => (mem_validIndices s i (hsub.subset hi)).1)
  rw [← hids_eq, hmap] at hperm
  have hcount : ((marked.length : Nat) : Int) = d.rowQuantity := by
    have h1 := hperm.length_eq
    have h2 : (randomIndices o s1 d.rowQuantity).length = sampled.length := by
      rw [hids_eq, List.length_map]
    simp only [List.length_map] at h1
    omega
  refine ⟨by rw [hdel]; exact hcount, ?_, ?_, ?_, ?_, ?_⟩
  · rw [hdel, ← hmap]
    exact hids.sublist ((List.filter_sublist _).map _)
  · intro x hx
    rw [hdel] at hx
    have hx1 := hperm.subset hx
    rw [hids_eq] at hx1
    obtain ⟨i, hi, rfl⟩ := List.mem_map.1 hx1
    exact List.mem_map.2 ⟨_, (mem_validIndices s i (hsub.subset hi)).2, rfl⟩
  · rw [hstat, hm5]
    simp [hs1, resetDeletionStatistics, emptyStatistics, hcount]
  · rw [hstat, hm6]
    simp [hs1, resetDeletionStatistics, emptyStatistics]
  · rw [hstat, hm4]
    simp [hs1, resetDeletionStatistics, emptyStatistics, hcount]

/-- C2 at the example: two of the three records, one attribute each. -/
theorem deleteTableRows_random_attributes_witness :
    (exampleStore.tableItems.map (fun r => getKey r "id")).Nodup ∧
    (1 ≤ exampleRandomRequest.rowQuantity ∧
      exampleRandomRequest.rowQuantity ≤ ((getActiveRows exampleStore).length : Int)) ∧
    ((((deleteTableRows exampleOracle exampleStore exampleRandomRequest).deletedRows.length
      : Nat) : Int) = exampleRandomRequest.rowQuantity ∧
    ((deleteTableRows exampleOracle exampleStore exampleRandomRequest).deletedRows.map
      (fun r => getKey r "id")).Nodup ∧
    (∀ x ∈ (deleteTableRows exampleOracle exampleStore exampleRandomRequest).deletedRows.map
        (fun r => getKey r "id"),
      x ∈ (getActiveRows exampleStore).map (fun r => getKey r "id")) ∧
    (deleteTableRows exampleOracle exampleStore
      exampleRandomRequest).deletionStatistics.partialDeletions =
        exampleRandomRequest.rowQuantity ∧
    (deleteTableRows exampleOracle exampleStore
      exampleRandomRequest).deletionStatistics.fullDeletions = 0 ∧
    (deleteTableRows exampleOracle exampleStore
      exampleRandomRequest).deletionStatistics.totalDeleted =
        exampleRandomRequest.rowQuantity) :=
  ⟨by decide, by decide,
    deleteTableRows_random_attributes exampleOracle (fun l n => isSample_take l n) exampleStore
      exampleRandomRequest (by decide) rfl rfl (by decide) (by decide)⟩

/-! ## Validation of deletion requests -/

/-- C6: in random mode, a row count below 1 or above the number of active
rows, or an attribute count below 1 or above the number of eligible features
(of the first active row), makes `deleteData` return without any change: the
store (table, deleted partition, full deletions, statistics) and the refs of
the composable are those of before. -/
theorem deleteData_random_rejected (o : Oracle) (confirmed : Bool) (c : Deleting) (s : Store)
    (hrandom : c.isDeletingRandom = true)
    (hbad : c.randomRowsToDeleteQuantity < 1 ∨
      c.randomRowsToDeleteQuantity > ((getActiveRows s).length : Int) ∨
      c.randomAttributesToDeleteQuantity < 1 ∨
      c.randomAttributesToDeleteQuantity > (getAvailableAttributesCount s : Int)) :
    validateDeletionParameters c s = false ∧ deleteData o confirmed c s = (c, s) := by
  have hv : validateDeletionParameters c s = false := by
    simp only [validateDeletionParameters, hrandom, if_true, MIN_ROWS_TO_DELETE]
    rcases hbad with h | h | h | h
    · simp [h]
    · split_ifs <;> simp_all
    · split_ifs <;> simp_all
    · split_ifs <;> simp_all
  exact ⟨hv, by simp [deleteData, hv]⟩

/-- C6 at the example: a random request for zero rows. -/
theorem deleteData_random_rejected_witness :
    exampleZeroRows.randomRowsToDeleteQuantity < 1 ∧
    validateDeletionParameters exampleZeroRows exampleStore = false ∧
    deleteData exampleOracle true exampleZeroRows exampleStore =
      (exampleZeroRows, exampleStore) :=
  ⟨by decide,
    deleteData_random_rejected exampleOracle true exampleZeroRows exampleStore rfl
      (Or.inl (by decide))⟩

theorem deleteFullRows_nil_ids (o : Oracle) (rows : List Row) (s : Store) :
    deleteFullRows o [] rows s = (rows, s) := by
  induction rows with
  | nil => rfl
  | cons row rest ih => simp [deleteFullRows, includes, ih]

theorem clearRows_nil_ids (o : Oracle) (propertyQuantity : Int) (index : Nat) (rows : List Row)
    (s : Store) : clearRows o [] propertyQuantity index rows s = (rows, s) := by
  induction rows generalizing index with
  | nil => rfl
  | cons row rest ih => simp [clearRows, includes, ih]

theorem processDeletions_nil_ids (o : Oracle) (s : Store) (propertyQuantity : Int)
    (forceRowDeletion : Bool) :
    processDeletions o s [] propertyQuantity forceRowDeletion = s := by
  simp only [processDeletions, deleteFullRows_nil_ids, clearRows_nil_ids, ite_self]

theorem exampleOracle_valid : exampleOracle.Valid :=
  ⟨fun l n => isSample_take l n, fun _ l n => isSample_take l n⟩

/-- C7, as stated, fails: the selection `[99]` holds no id of an active record,
yet `deleteData` does not reject it and the deleted partition and the counters
left by the previous batch are cleared. -/
theorem deleteData_unknown_selection_clears_batch :
    NoActiveId examplePartialBatch exampleUnknownSelection.selectedRowsToDelete ∧
    examplePartialBatch.deletedRows.length = 1 ∧
    examplePartialBatch.deletionStatistics.totalDeleted = 1 ∧
    (deleteData exampleOracle true exampleUnknownSelection examplePartialBatch).2.deletedRows
      = [] ∧
    (deleteData exampleOracle true exampleUnknownSelection
      examplePartialBatch).2.deletionStatistics.totalDeleted = 0 := by
  decide

theorem handleSelectedDeletion_noActiveId (o : Oracle) (s : Store) (d : DeleteData)
    (h : NoActiveId s d.rows) : handleSelectedDeletion o s d = s := by
  have hnil : d.rows.filter (fun id =>
      s.tableItems.any (fun item =>
        strictEq (getKey item "id") id &&
          !(strictEq (getKey item "status") (Value.str "deleted")))) = [] := by
    rw [List.filter_eq_nil_iff]
    intro id hid
    simp [h id hid]
  simp only [handleSelectedDeletion, hnil, processDeletions_nil_ids]

/-- C7, amended: in explicit mode an empty selection is rejected and nothing
changes; a selection that holds no id of an active record never changes
`tableItems`, but when it is non-empty, not longer than the number of active
rows, and the full-deletion dialog (if any) is confirmed, the request is
carried out: the deleted partition, the full deletions and the statistics of
the previous batch are cleared. -/
theorem deleteData_selection_without_active_id (o : Oracle) (confirmed : Bool) (c : Deleting)
    (s : Store) (hselected : c.isDeletingRandom = false) :
    (c.selectedRowsToDelete = [] → deleteData o confirmed c s = (c, s)) ∧
    (NoActiveId s c.selectedRowsToDelete →
      (deleteData o confirmed c s).2.tableItems = s.tableItems) ∧
    (NoActiveId s c.selectedRowsToDelete → c.selectedRowsToDelete ≠ [] →
      c.selectedRowsToDelete.length ≤ (getActiveRows s).length →
      (c.randomAttributesToDeleteQuantity ≤ 6 ∨ confirmed = true) →
      (deleteData o confirmed c s).2 =
        { tableItems := s.tableItems, deletedRows := [], fullDeletions := [],
          deletionStatistics := emptyStatistics }) := by
  have hrun : NoActiveId s c.selectedRowsToDelete →
      deleteTableRows o s (deleteConfig c) =
        { tableItems := s.tableItems, deletedRows := [], fullDeletions := [],
          deletionStatistics := emptyStatistics } := by
    intro hno
    have h1 : NoActiveId
        (resetDeletionStatistics { s with deletedRows := [], fullDeletions := [] })
        (deleteConfig c).rows := by
      simpa [deleteConfig, hselected, NoActiveId, resetDeletionStatistics] using hno
    simp only [deleteTableRows]
    rw [if_neg (by simp [deleteConfig, hselected]), handleSelectedDeletion_noActiveId o _ _ h1]
    rfl
  refine ⟨?_, ?_, ?_⟩
  · intro hnil
    simp [deleteData, validateDeletionParameters, hselected, hnil]
  · intro hno
    simp only [deleteData, hrun hno]
    by_cases h1 : (!(validateDeletionParameters c s)) = true
    · simp [h1]
    · by_cases h2 : (decide (c.randomAttributesToDeleteQuantity >
          ATTRIBUTE_THRESHOLD_FOR_FULL_DELETION) && !c.isDeletingRandom && !confirmed) = true
      · simp only [h1, h2, if_true, Bool.false_eq_true, if_false]
      · simp only [h1, h2, Bool.false_eq_true, if_false]
  · intro hno hne hlen hconf
    have hv : validateDeletionParameters c s = true := by
      have h0 : c.selectedRowsToDelete.length ≠ 0 := by
        simpa [List.length_eq_zero] using hne
      simp only [validateDeletionParameters, hselected, Bool.false_eq_true, if_false, h0]
      simp [Nat.not_lt.2 hlen]
    have hc : (decide (c.randomAttributesToDeleteQuantity > ATTRIBUTE_THRESHOLD_FOR_FULL_DELETION)
        && !c.isDeletingRandom && !confirmed) = false := by
      rcases hconf with h | h
      · simp [ATTRIBUTE_THRESHOLD_FOR_FULL_DELETION, h]
      · simp [h]
    simp only [deleteData, hv, hc, Bool.not_true, Bool.false_eq_true, if_false]
    exact hrun hno

/-- C7, amended, at the example: the unknown selection `[99]` after a partial
batch. -/
theorem deleteData_selection_without_active_id_witness :
    (exampleUnknownSelection.selectedRowsToDelete = [] →
      deleteData exampleOracle true exampleUnknownSelection examplePartialBatch =
        (exampleUnknownSelection, examplePartialBatch)) ∧
    (NoActiveId examplePartialBatch exampleUnknownSelection.selectedRowsToDelete →
      (deleteData exampleOracle true exampleUnknownSelection examplePartialBatch).2.tableItems =
        examplePartialBatch.tableItems) ∧
    (NoActiveId examplePartialBatch exampleUnknownSelection.selectedRowsToDelete →
      exampleUnknownSelection.selectedRowsToDelete ≠ [] →
      exampleUnknownSelection.selectedRowsToDelete.length ≤
        (getActiveRows examplePartialBatch).length →
      (exampleUnknownSelection.randomAttributesToDeleteQuantity ≤ 6 ∨ true = true) →
      (deleteData exampleOracle true exampleUnknownSelection examplePartialBatch).2 =
        { tableItems := examplePartialBatch.tableItems, deletedRows := [], fullDeletions := [],
          deletionStatistics := emptyStatistics }) :=
  deleteData_selection_without_active_id exampleOracle true exampleUnknownSelection
    examplePartialBatch rfl

/-! ## Counters -/

theorem findIndex_some {α : Type} (p : α → Bool) (l : List α) (i : Nat)
    (h : findIndex p l = some i) :
    ∃ h1 : i < l.length, p l[i] = true ∧ ∀ j (h2 : j < i), p (l[j]) = false := by
  induction l generalizing i with
  | nil => simp [findIndex] at h
  | cons a l ih =>
    by_cases ha : p a = true
    · simp only [findIndex, ha, if_true, Option.some.injEq] at h
      subst h
      exact ⟨by simp, by simpa using ha, by simp⟩
    · simp only [findIndex, ha, Bool.false_eq_true, if_false, Option.map_eq_some'] at h
      obtain ⟨k, hk, rfl⟩ := h
      obtain ⟨h1, h2, h3⟩ := ih k hk
      refine ⟨by simpa using h1, by simpa using h2, ?_⟩
      intro j hj
      cases j with
      | zero => simpa using ha
      | succ j => simpa using h3 j (by omega)

theorem findIndex_none {α : Type} (p : α → Bool) (l : List α) (h : findIndex p l = none) :
    ∀ a ∈ l, p a = false := by
  induction l with
  | nil => simp
  | cons a l ih =>
    by_cases ha : p a = true
    · simp [findIndex, ha] at h
    · simp only [findIndex, ha, Bool.false_eq_true, if_false, Option.map_eq_none'] at h
      intro b hb
      rcases List.mem_cons.1 hb with rfl | hb
      · simpa using ha
      · exact ih h b hb

theorem forall₂_mem_right {α β : Type} {R : α → β → Prop} {l1 : List α} {l2 : List β}
    (h : List.Forall₂ R l1 l2) {b : β} (hb : b ∈ l2) : ∃ a ∈ l1, R a b := by
  induction h with
  | nil => simp at hb
  | cons hab _ ih =>
    rcases List.mem_cons.1 hb with rfl | hb
    · exact ⟨_, List.mem_cons_self _ _, hab⟩
    · obtain ⟨a, ha, hr⟩ := ih hb
      exact ⟨a, List.mem_cons_of_mem _ ha, hr⟩

theorem forall₂_mem_left {α β : Type} {R : α → β → Prop} {l1 : List α} {l2 : List β}
    (h : List.Forall₂ R l1 l2) {a : α} (ha : a ∈ l1) : ∃ b ∈ l2, R a b := by
  induction h with
  | nil => simp at ha
  | cons hab _ ih =>
    rcases List.mem_cons.1 ha with rfl | ha
    · exact ⟨_, List.mem_cons_self _ _, hab⟩
    · obtain ⟨b, hb, hr⟩ := ih ha
      exact ⟨b, List.mem_cons_of_mem _ hb, hr⟩

theorem processDeletions_removing (o : Oracle) (s : Store) (ids : List Value)
    (propertyQuantity : Int) (forceRowDeletion : Bool)
    (h : (forceRowDeletion || decide (propertyQuantity > ATTRIBUTE_DELETION_THRESHOLD)) = true) :
    processDeletions o s ids propertyQuantity forceRowDeletion =
      { (deleteFullRows o ids s.tableItems s).2 with
        tableItems := (deleteFullRows o ids s.tableItems s).1 } := by
  simp only [processDeletions, h, if_true]

theorem processDeletions_clearing (o : Oracle) (s : Store) (ids : List Value)
    (propertyQuantity : Int) (forceRowDeletion : Bool)
    (h : ¬ (forceRowDeletion || decide (propertyQuantity > ATTRIBUTE_DELETION_THRESHOLD)) = true) :
    processDeletions o s ids propertyQuantity forceRowDeletion =
      { (clearRows o ids propertyQuantity 0 s.tableItems s).2 with
        tableItems := (clearRows o ids propertyQuantity 0 s.tableItems s).1 } := by
  simp only [processDeletions, if_neg h]

theorem processDeletions_counters (o : Oracle) (s : Store) (ids : List Value)
    (propertyQuantity : Int) (forceRowDeletion : Bool) :
    ∃ marked : List Row,
      (processDeletions o s ids propertyQuantity forceRowDeletion).deletedRows =
        s.deletedRows ++ marked ∧
      (∀ d ∈ marked, ∃ l, getKey d "deletedAttributes" = Value.arr l) ∧
      (processDeletions o s ids propertyQuantity forceRowDeletion).deletionStatistics.totalDeleted
        = s.deletionStatistics.totalDeleted + marked.length ∧
      (processDeletions o s ids propertyQuantity
          forceRowDeletion).deletionStatistics.partialDeletions +
        (processDeletions o s ids propertyQuantity
          forceRowDeletion).deletionStatistics.fullDeletions =
        s.deletionStatistics.partialDeletions + s.deletionStatistics.fullDeletions +
          marked.length := by
  by_cases hfull : (forceRowDeletion ||
      decide (propertyQuantity > ATTRIBUTE_DELETION_THRESHOLD)) = true
  · obtain ⟨-, marked, h2, h3, h4, h5, h6⟩ := deleteFullRows_spec o ids s.tableItems s
    rw [processDeletions_removing o s ids propertyQuantity forceRowDeletion hfull]
    refine ⟨marked, h2, ?_, h4, ?_⟩
    · intro d hd
      obtain ⟨row, -, hsnap⟩ := forall₂_mem_right h3 hd
      exact ⟨[], hsnap.2.1⟩
    · simp only [h5, h6]
      omega
  · obtain ⟨-, marked, h2, h3, -, h4, h5, h6⟩ :=
      clearRows_spec o ids propertyQuantity 0 s.tableItems s
    rw [processDeletions_clearing o s ids propertyQuantity forceRowDeletion hfull]
    refine ⟨marked, h2, ?_, h4, ?_⟩
    · intro d hd
      obtain ⟨row, -, t, i, rfl⟩ := forall₂_mem_right h3 hd
      exact ⟨(clearRowAttributes (o.sampleAttributes i) row propertyQuantity).2,
        by simp [getKey_deletedRowOf]⟩
    · simp only [h5, h6]
      omega

theorem deleteTableRows_counters (o : Oracle) (s : Store) (d : DeleteData) :
    AttributesRecorded (deleteTableRows o s d) ∧ CountersMatch (deleteTableRows o s d) := by
  have key : ∀ ids : List Value,
      AttributesRecorded (processDeletions o
        (resetDeletionStatistics { s with deletedRows := [], fullDeletions := [] }) ids
        d.propertyQuantity d.forceRowDeletion) ∧
      CountersMatch (processDeletions o
        (resetDeletionStatistics { s with deletedRows := [], fullDeletions := [] }) ids
        d.propertyQuantity d.forceRowDeletion) := by
    intro ids
    obtain ⟨marked, h1, h2, h3, h4⟩ := processDeletions_counters o
      (resetDeletionStatistics { s with deletedRows := [], fullDeletions := [] }) ids
      d.propertyQuantity d.forceRowDeletion
    have e1 : (resetDeletionStatistics
        { s with deletedRows := [], fullDeletions := [] }).deletedRows = [] := rfl
    have e2 : (resetDeletionStatistics
        { s with deletedRows := [], fullDeletions := [] }).deletionStatistics =
          emptyStatistics := rfl
    rw [e1, List.nil_append] at h1
    rw [e2] at h3 h4
    simp only [emptyStatistics, zero_add] at h3 h4
    refine ⟨?_, ?_, ?_⟩
    · intro r hr
      rw [h1] at hr
      exact h2 r hr
    · rw [h3, h4]
    · rw [h3, h1]
  unfold deleteTableRows
  split_ifs
  · exact key _
  · exact key _

theorem restoreRow_absent (s : Store) (rowId : Value)
    (h : findIndex (fun row => strictEq (getKey row "id") rowId) s.deletedRows = none) :
    restoreRow s rowId = some s := by
  simp only [restoreRow, h]

theorem restoreRow_present (s : Store) (rowId : Value) (i : Nat) (hrec : AttributesRecorded s)
    (h : findIndex (fun row => strictEq (getKey row "id") rowId) s.deletedRows = some i) :
    ∃ s1, restoreRow s rowId = some s1 ∧
      s1.deletedRows = s.deletedRows.eraseIdx i ∧
      s1.deletionStatistics.totalDeleted = s.deletionStatistics.totalDeleted - 1 ∧
      s1.deletionStatistics.fullDeletions =
        (if truthy (getKey (s.deletedRows.getD i []) "fullRowDeleted")
          then s.deletionStatistics.fullDeletions - 1 else s.deletionStatistics.fullDeletions) ∧
      s1.deletionStatistics.partialDeletions =
        (if truthy (getKey (s.deletedRows.getD i []) "fullRowDeleted")
          then s.deletionStatistics.partialDeletions
          else s.deletionStatistics.partialDeletions - 1) := by
  obtain ⟨hi, -, -⟩ := findIndex_some _ _ _ h
  obtain ⟨l, hl⟩ := hrec (s.deletedRows.getD i []) (by
    rw [List.getD_eq_getElem _ _ hi]
    exact List.getElem_mem _)
  simp only [restoreRow, h, hl, attributeList, Option.map_some']
  by_cases hfull : truthy (getKey (s.deletedRows.getD i []) "fullRowDeleted") = true
  · simp only [hfull, if_true, Option.map_some']
    exact ⟨_, rfl, rfl, rfl, rfl, rfl⟩
  · simp only [hfull, Bool.false_eq_true, if_false]
    cases hfind : findIndex (fun row => strictEq (getKey row "id") rowId) s.tableItems with
    | none => exact ⟨_, rfl, rfl, rfl, rfl, rfl⟩
    | some j => exact ⟨_, rfl, rfl, rfl, rfl, rfl⟩

theorem restoreRow_keeps_counters (s : Store) (rowId : Value) (hrec : AttributesRecorded s)
    (hcnt : CountersMatch s) :
    ∃ s1, restoreRow s rowId = some s1 ∧ AttributesRecorded s1 ∧ CountersMatch s1 := by
  cases hfind : findIndex (fun row => strictEq (getKey row "id") rowId) s.deletedRows with
  | none => exact ⟨s, restoreRow_absent s rowId hfind, hrec, hcnt⟩
  | some i =>
    obtain ⟨s1, h1, h2, h3, h4, h5⟩ := restoreRow_present s rowId i hrec hfind
    obtain ⟨hi, -, -⟩ := findIndex_some _ _ _ hfind
    refine ⟨s1, h1, ?_, ?_, ?_⟩
    · intro r hr
      rw [h2] at hr
      exact hrec r (List.mem_of_mem_eraseIdx hr)
    · rw [h3, h4, h5]
      have := hcnt.1
      split_ifs <;> omega
    · rw [h3, h2, List.length_eraseIdx_of_lt hi]
      have := hcnt.2
      omega

theorem restoreRows_keeps_counters (ids : List Value) (s : Store) (hrec : AttributesRecorded s)
    (hcnt : CountersMatch s) :
    ∃ s1, restoreRows s ids = some s1 ∧ AttributesRecorded s1 ∧ CountersMatch s1 := by
  induction ids generalizing s with
  | nil => exact ⟨s, rfl, hrec, hcnt⟩
  | cons rowId rest ih =>
    obtain ⟨s1, h1, h2, h3⟩ := restoreRow_keeps_counters s rowId hrec hcnt
    obtain ⟨s2, h4, h5, h6⟩ := ih s1 h2 h3
    exact ⟨s2, by simp [restoreRows, h1, h4], h5, h6⟩

/-- C8: after `deleteTableRows` (from any store state, for any request and
sampler) followed by any sequence of `restoreRow` calls, the run does not
throw and the counters satisfy
`totalDeleted = partialDeletions + fullDeletions = deletedRows.length`;
in such a state a further `restoreRow` of an id that no deleted record has
changes nothing, and a `restoreRow` of a present id removes one deleted
record and decrements `totalDeleted` and exactly one of `fullDeletions`
(record with `fullRowDeleted`) and `partialDeletions` (otherwise) by one. -/
theorem counters_match_after_batch_and_restores (o : Oracle) (s : Store) (d : DeleteData)
    (ids : List Value) :
    ∃ s1, restoreRows (deleteTableRows o s d) ids = some s1 ∧
      s1.deletionStatistics.totalDeleted =
        s1.deletionStatistics.partialDeletions + s1.deletionStatistics.fullDeletions ∧
      s1.deletionStatistics.totalDeleted = (s1.deletedRows.length : Int) ∧
      ∀ rowId : Value,
        (findIndex (fun row => strictEq (getKey row "id") rowId) s1.deletedRows = none →
          restoreRow s1 rowId = some s1) ∧
        ∀ i, findIndex (fun row => strictEq (getKey row "id") rowId) s1.deletedRows = some i →
          ∃ s2, restoreRow s1 rowId = some s2 ∧
            s2.deletedRows.length + 1 = s1.deletedRows.length ∧
            s2.deletionStatistics.totalDeleted = s1.deletionStatistics.totalDeleted - 1 ∧
            (if truthy (getKey (s1.deletedRows.getD i []) "fullRowDeleted") then
              s2.deletionStatistics.fullDeletions = s1.deletionStatistics.fullDeletions - 1 ∧
              s2.deletionStatistics.partialDeletions = s1.deletionStatistics.partialDeletions
            else
              s2.deletionStatistics.fullDeletions = s1.deletionStatistics.fullDeletions ∧
              s2.deletionStatistics.partialDeletions =
                s1.deletionStatistics.partialDeletions - 1) := by
  obtain ⟨h1, h2⟩ := deleteTableRows_counters o s d
  obtain ⟨s1, h3, h4, h5⟩ := restoreRows_keeps_counters ids _ h1 h2
  refine ⟨s1, h3, h5.1, h5.2, ?_⟩
  intro rowId
  refine ⟨restoreRow_absent s1 rowId, ?_⟩
  intro i hfind
  obtain ⟨s2, k1, k2, k3, k4, k5⟩ := restoreRow_present s1 rowId i h4 hfind
  obtain ⟨hi, -, -⟩ := findIndex_some _ _ _ hfind
  refine ⟨s2, k1, ?_, k3, ?_⟩
  · rw [k2, List.length_eraseIdx_of_lt hi]
    omega
  · rw [k4, k5]
    split_ifs <;> exact ⟨rfl, rfl⟩

/-! ## Nearest neighbours -/

theorem sliceTo_sublist {α : Type} (l : List α) (k : Int) : (sliceTo l k).Sublist l := by
  unfold sliceTo
  split_ifs <;> exact List.take_sublist _ _

theorem length_sliceTo {α : Type} (l : List α) (k : Int) (hk : 0 ≤ k) :
    ((sliceTo l k).length : Int) = min k (l.length : Int) := by
  unfold sliceTo
  rw [if_neg (by omega), List.length_take]
  omega

theorem sortByDistance_perm (l : List Neighbor) : (sortByDistance l).Perm l :=
  List.perm_insertionSort _ l

theorem map_fst_zip_map {α β : Type} (f : α → β) (l : List α) :
    (List.zip l (l.map f)).map Prod.fst = l := by
  induction l with
  | nil => rfl
  | cons a l ih => simp [ih]

/-- The list `distances` of `findKNN` before sorting. -/
theorem findKNN_eq (H : Host) (knn : KnnConfig) (target : Row) (data : List Row)
    (features : List String) (metric : Row → Row → List String → Dist)
    (hmetric : distanceMetrics H knn.distanceMetric = some metric) :
    ∃ distances : List Neighbor,
      distances.map (fun n => n.row) = data ∧
      findKNN H knn target data features = some (sliceTo (sortByDistance distances) knn.k) := by
  refine ⟨(List.zip data (normalizeData H data [target] knn.normalization features).train).map
    (fun p => ({ row := p.1
                 distance := metric
                   ((normalizeData H data [target] knn.normalization features).test.headD [])
                   p.2 features
                 decision := cleanDecision H (getKey p.1 "decision") } : Neighbor)), ?_, ?_⟩
  · rw [List.map_map]
    exact map_fst_zip_map _ data
  · simp only [findKNN, hmetric]

theorem findKNN_mem (H : Host) (knn : KnnConfig) (target : Row) (data : List Row)
    (features : List String) (neighbors : List Neighbor)
    (h : findKNN H knn target data features = some neighbors) :
    ∀ n ∈ neighbors, n.row ∈ data := by
  cases hmetric : distanceMetrics H knn.distanceMetric with
  | none =>
    simp only [findKNN, hmetric] at h
    split_ifs at h
    · simp only [Option.some.injEq] at h
      subst h
      simp
  | some metric =>
    obtain ⟨distances, h1, h2⟩ := findKNN_eq H knn target data features metric hmetric
    rw [h2, Option.some.injEq] at h
    subst h
    intro n hn
    have hn1 : n ∈ distances :=
      (sortByDistance_perm distances).subset ((sliceTo_sublist _ _).subset hn)
    rw [← h1]
    exact List.mem_map.2 ⟨n, hn1, rfl⟩

theorem findKNN_length (H : Host) (knn : KnnConfig) (target : Row) (data : List Row)
    (features : List String) (metric : Row → Row → List String → Dist)
    (hmetric : distanceMetrics H knn.distanceMetric = some metric) (hk : 0 ≤ knn.k) :
    ∃ neighbors, findKNN H knn target data features = some neighbors ∧
      ((neighbors.length : Nat) : Int) = min knn.k (data.length : Int) := by
  obtain ⟨distances, h1, h2⟩ := findKNN_eq H knn target data features metric hmetric
  refine ⟨_, h2, ?_⟩
  rw [length_sliceTo _ _ hk, (sortByDistance_perm distances).length_eq]
  have : distances.length = data.length := by
    rw [← h1, List.length_map]
  rw [this]

/-! ## Restoring one record -/

theorem getKey_imputeAttribute (H : Host) (config : RestoreConfig) (neighbors : List Neighbor)
    (r : Row) (attr x : String) :
    getKey (imputeAttribute H config neighbors r attr) x =
      if attr = x then (imputedValue H config neighbors attr).getD (getKey r x)
      else getKey r x := by
  unfold imputeAttribute
  cases h : imputedValue H config neighbors attr with
  | none => by_cases hx : attr = x <;> simp [hx]
  | some v => simp [getKey_setKey]

/-- The fields of a row after the loop that imputes the attributes selected
by `p`. -/
theorem getKey_foldl_impute (H : Host) (config : RestoreConfig) (neighbors : List Neighbor)
    (p : String → Bool) (attrs : List String) (base : Row) (x : String) :
    getKey (attrs.foldl (fun r f => if p f then imputeAttribute H config neighbors r f else r)
      base) x =
      if x ∈ attrs ∧ p x = true then
        (imputedValue H config neighbors x).getD (getKey base x)
      else getKey base x := by
  induction attrs generalizing base with
  | nil => simp
  | cons f rest ih =>
    rw [List.foldl_cons, ih]
    by_cases hp : p f = true
    · simp only [hp, if_true, getKey_imputeAttribute, List.mem_cons]
      by_cases hfx : f = x
      · subst hfx
        simp only [true_or, true_and, hp, if_true, and_true]
        by_cases hr : f ∈ rest
        · simp only [hr, if_true]
          cases imputedValue H config neighbors f <;> simp
        · simp [hr]
      · have hxf : ¬ x = f := fun h => hfx h.symm
        simp only [hfx, if_false, hxf, false_or]
    · simp only [hp, Bool.false_eq_true, if_false, List.mem_cons]
      by_cases hfx : x = f
      · subst hfx
        simp [hp]
      · simp [hfx]

theorem getKey_restoredRowBase (t : String) (d : Row) (decision : Option Int) (x : String) :
    getKey (restoredRowBase t d decision) x =
      if x = "deletedAttributes" then Value.arr []
      else if x = "fullRowDeleted" then Value.bool false
      else if x = "restoredAt" then Value.str t
      else if x = "status" then Value.str "restored"
      else if x = "decision" then valueOfInt decision
      else getKey d x := by
  unfold restoredRowBase
  simp only [getKey_setKey, eq_comm (b := x)]

theorem restoreRecord_eq (H : Host) (o : Oracle) (knn : KnnConfig) (config : RestoreConfig)
    (features : List String) (st : RestoreState) (index : Nat) (d : Row)
    (neighbors : List Neighbor) (restoredRow : Row)
    (hlabel : isRecognized (cleanDecision H (getKey d "decision")) = true)
    (hpool : (sameLabelRows H st.store (cleanDecision H (getKey d "decision"))).length > 0)
    (hknn : findKNN H knn
      (setKey d "decision" (valueOfInt (cleanDecision H (getKey d "decision"))))
      (sameLabelRows H st.store (cleanDecision H (getKey d "decision"))) features =
        some neighbors)
    (hne : neighbors.length > 0)
    (hrow : buildRestoredRow H config features (o.now index) d
      (cleanDecision H (getKey d "decision")) neighbors = some restoredRow) :
    restoreRecord H o knn config features st index d =
      some { store := commitRestoredRow st.store d restoredRow
             restoredCount :=
               { st.restoredCount with successful := st.restoredCount.successful + 1 } } := by
  simp only [restoreRecord, hlabel, if_true, hpool, hknn, hne, hrow]

/-- C9, as stated, fails: the record 1 (label 2, `radius = 5`) is deleted as a
whole row and restored against the pool made of the record 2 (`radius = 7`):
the reinserted record still has `radius = 5`, while the aggregate of its
neighbours is `7`. -/
theorem restoreData_full_row_keeps_nonzero_feature :
    (exampleFullBatch.deletedRows.map (fun d => getKey d "fullRowDeleted")) =
      [Value.bool true] ∧
    (restoreData exampleHost exampleOracle defaultKnnConfig exampleNoConfig
      exampleFullBatch).map (fun r => r.store.tableItems.map (fun row =>
        (getKey row "id", getKey row "status", getKey row "radius"))) =
      some [(Value.num 2, Value.str "active", Value.num 7),
        (Value.num 3, Value.str "active", Value.num 9),
        (Value.num 1, Value.str "restored", Value.num 5)] ∧
    (findKNN exampleHost defaultKnnConfig (exampleFullBatch.deletedRows.getD 0 [])
      (sameLabelRows exampleHost exampleFullBatch (some 2))
      (restoreFeatures exampleFullBatch)).map
        (fun ns => imputedValue exampleHost exampleNoConfig ns "radius") =
      some (some (Value.num 7)) := by
  decide!

theorem buildRestoredRow_of_no_attributes (H : Host) (config : RestoreConfig)
    (features : List String) (t : String) (d : Row) (decision : Option Int)
    (neighbors : List Neighbor) (h : getKey d "deletedAttributes" = Value.arr []) :
    buildRestoredRow H config features t d decision neighbors =
      some (features.foldl (fun r f =>
        if isMissing H (getKey d f) then imputeAttribute H config neighbors r f else r)
        (restoredRowBase t d decision)) := by
  simp only [buildRestoredRow, h]

theorem getKey_deletedRowOf_feature (t : String) (row : Row) (full : Bool) (attrs : List String)
    (f : String) (hf : f ∉ excludedKeys) :
    getKey (deletedRowOf t row full attrs) f = getKey row f := by
  have h : f ≠ "status" ∧ f ≠ "deletedAttributes" ∧ f ≠ "fullRowDeleted" ∧ f ≠ "deletedAt" := by
    simp only [excludedKeys, List.mem_cons, List.mem_singleton, List.not_mem_nil, or_false,
      not_or] at hf
    exact ⟨hf.2.2.1, hf.2.2.2.2.2, hf.2.2.2.2.1, hf.2.2.2.1⟩
  simp [getKey_deletedRowOf, h.1, h.2.1, h.2.2.1, h.2.2.2]

theorem restoreRecord_full_row_aux (H : Host) (o : Oracle) (knn : KnnConfig)
    (config : RestoreConfig) (features : List String) (st : RestoreState) (index : Nat)
    (t : String) (row : Row) (attrs : List String)
    (metric : Row → Row → List String → Dist)
    (hmetric : distanceMetrics H knn.distanceMetric = some metric) (hk : 1 ≤ knn.k)
    (hfeat : ∀ f ∈ features, f ∉ excludedKeys)
    (hlabel : isRecognized (cleanDecision H (getKey row "decision")) = true)
    (hpool : sameLabelRows H st.store (cleanDecision H (getKey row "decision")) ≠ []) :
    ∃ (neighbors : List Neighbor) (restoredRow : Row) (st1 : RestoreState),
      findKNN H knn
        (setKey (deletedRowOf t row true attrs) "decision"
          (valueOfInt (cleanDecision H (getKey row "decision"))))
        (sameLabelRows H st.store (cleanDecision H (getKey row "decision"))) features =
          some neighbors ∧
      restoreRecord H o knn config features st index (deletedRowOf t row true attrs) =
        some st1 ∧
      st1.store.tableItems = st.store.tableItems ++ [restoredRow] ∧
      st1.restoredCount.successful = st.restoredCount.successful + 1 ∧
      getKey restoredRow "status" = Value.str "restored" ∧
      getKey restoredRow "fullRowDeleted" = Value.bool false ∧
      getKey restoredRow "deletedAttributes" = Value.arr [] ∧
      ∀ f ∈ features,
        getKey restoredRow f =
          if isMissing H (getKey row f) then
            (imputedValue H config neighbors f).getD
              (if f = "restoredAt" then Value.str (o.now index) else getKey row f)
          else if f = "restoredAt" then Value.str (o.now index) else getKey row f := by
  have hdec : getKey (deletedRowOf t row true attrs) "decision" = getKey row "decision" := by
    simp [getKey_deletedRowOf]
  have hattrs : getKey (deletedRowOf t row true attrs) "deletedAttributes" = Value.arr [] := by
    simp [getKey_deletedRowOf]
  have hfull : truthy (getKey (deletedRowOf t row true attrs) "fullRowDeleted") = true := by
    simp [getKey_deletedRowOf, truthy]
  have hlen : (sameLabelRows H st.store (cleanDecision H (getKey row "decision"))).length > 0 :=
    List.length_pos.2 hpool
  obtain ⟨neighbors, hknn, hn⟩ := findKNN_length H knn
    (setKey (deletedRowOf t row true attrs) "decision"
      (valueOfInt (cleanDecision H (getKey row "decision"))))
    (sameLabelRows H st.store (cleanDecision H (getKey row "decision"))) features metric hmetric
    (by omega)
  have hne : neighbors.length > 0 := by omega
  have hrow := buildRestoredRow_of_no_attributes H config features (o.now index)
    (deletedRowOf t row true attrs) (cleanDecision H (getKey row "decision")) neighbors hattrs
  have hrec := restoreRecord_eq H o knn config features st index
    (deletedRowOf t row true attrs) neighbors _ (by rw [hdec]; exact hlabel)
    (by rw [hdec]; exact hlen) (by rw [hdec]; exact hknn) hne (by rw [hdec]; exact hrow)
  have hbase : ∀ x, x ∉ features →
      getKey (features.foldl (fun r f =>
        if isMissing H (getKey (deletedRowOf t row true attrs) f)
          then imputeAttribute H config neighbors r f else r)
        (restoredRowBase (o.now index) (deletedRowOf t row true attrs)
          (cleanDecision H (getKey row "decision")))) x =
      getKey (restoredRowBase (o.now index) (deletedRowOf t row true attrs)
          (cleanDecision H (getKey row "decision"))) x := by
    intro x hx
    rw [getKey_foldl_impute H config neighbors
      (fun f => isMissing H (getKey (deletedRowOf t row true attrs) f))]
    simp [hx]
  refine ⟨neighbors,
    features.foldl (fun r f =>
      if isMissing H (getKey (deletedRowOf t row true attrs) f)
        then imputeAttribute H config neighbors r f else r)
      (restoredRowBase (o.now index) (deletedRowOf t row true attrs)
        (cleanDecision H (getKey row "decision"))),
    _, hknn, hrec, ?_, rfl, ?_, ?_, ?_, ?_⟩
  · simp only [commitRestoredRow, hfull, if_true]
  · rw [hbase _ (fun h => hfeat _ h (by decide)), getKey_restoredRowBase]
    simp
  · rw [hbase _ (fun h => hfeat _ h (by decide)), getKey_restoredRowBase]
    simp
  · rw [hbase _ (fun h => hfeat _ h (by decide)), getKey_restoredRowBase]
    simp
  · intro f hf
    have hfe := hfeat f hf
    have hne4 : f ≠ "deletedAttributes" ∧ f ≠ "fullRowDeleted" ∧ f ≠ "status" ∧
        f ≠ "decision" := by
      simp only [excludedKeys, List.mem_cons, List.mem_singleton, List.not_mem_nil, or_false,
        not_or] at hfe
      exact ⟨hfe.2.2.2.2.2, hfe.2.2.2.2.1, hfe.2.2.1, hfe.2.1⟩
    rw [getKey_foldl_impute H config neighbors
      (fun f => isMissing H (getKey (deletedRowOf t row true attrs) f))]
    simp only [hf, true_and, getKey_restoredRowBase, hne4.1, hne4.2.1, hne4.2.2.1, hne4.2.2.2,
      if_false, getKey_deletedRowOf_feature t row true attrs f hfe]


/-- C9, amended: a record deleted as a whole row (`markRowAsDeleted(row, true,
...)`) with a recognized label and a non-empty same-label active pool is
appended to `tableItems` with status `restored`, `fullRowDeleted = false`
and `deletedAttributes = []`; the `forEach` callback of `restoreData` counts
it as successful. Among its features, those whose value in the deleted record
is `0`, `NaN` or `null` hold the aggregate (median for `Median Value`, else
mean) of the numeric values of the KNN neighbours when there is one; every
other feature keeps the value of the deleted record. -/
theorem restoreRecord_full_row (H : Host) (o : Oracle) (knn : KnnConfig)
    (config : RestoreConfig) (features : List String) (st : RestoreState) (index : Nat)
    (t : String) (row : Row) (attrs : List String)
    (metric : Row → Row → List String → Dist)
    (hmetric : distanceMetrics H knn.distanceMetric = some metric) (hk : 1 ≤ knn.k)
    (hfeat : ∀ f ∈ features, f ∉ excludedKeys)
    (hlabel : isRecognized (cleanDecision H (getKey row "decision")) = true)
    (hpool : sameLabelRows H st.store (cleanDecision H (getKey row "decision")) ≠ []) :
    ∃ (neighbors : List Neighbor) (restoredRow : Row) (st1 : RestoreState),
      findKNN H knn
        (setKey (deletedRowOf t row true attrs) "decision"
          (valueOfInt (cleanDecision H (getKey row "decision"))))
        (sameLabelRows H st.store (cleanDecision H (getKey row "decision"))) features =
          some neighbors ∧
      restoreRecord H o knn config features st index (deletedRowOf t row true attrs) =
        some st1 ∧
      st1.store.tableItems = st.store.tableItems ++ [restoredRow] ∧
      st1.restoredCount.successful = st.restoredCount.successful + 1 ∧
      getKey restoredRow "status" = Value.str "restored" ∧
      getKey restoredRow "fullRowDeleted" = Value.bool false ∧
      getKey restoredRow "deletedAttributes" = Value.arr [] ∧
      ∀ f ∈ features, f ≠ "restoredAt" →
        getKey restoredRow f =
          if isMissing H (getKey row f) then
            (imputedValue H config neighbors f).getD (getKey row f)
          else getKey row f := by
  obtain ⟨neighbors, restoredRow, st1, h1, h2, h3, h4, h5, h6, h7, h8⟩ :=
    restoreRecord_full_row_aux H o knn config features st index t row attrs metric hmetric hk
      hfeat hlabel hpool
  refine ⟨neighbors, restoredRow, st1, h1, h2, h3, h4, h5, h6, h7, ?_⟩
  intro f hf hfr
  rw [h8 f hf]
  simp only [hfr, if_false]

/-- C9, amended, at the example: the record 1, deleted as a whole row, against
the pool made of the record 2. -/
theorem restoreRecord_full_row_witness :
    isRecognized (cleanDecision exampleHost (getKey exampleFirstRow "decision")) = true ∧
    sameLabelRows exampleHost exampleRestoreState.store
      (cleanDecision exampleHost (getKey exampleFirstRow "decision")) ≠ [] ∧
    ∃ (neighbors : List Neighbor) (restoredRow : Row) (st1 : RestoreState),
      findKNN exampleHost defaultKnnConfig
        (setKey (deletedRowOf "t" exampleFirstRow true []) "decision"
          (valueOfInt (cleanDecision exampleHost (getKey exampleFirstRow "decision"))))
        (sameLabelRows exampleHost exampleRestoreState.store
          (cleanDecision exampleHost (getKey exampleFirstRow "decision"))) exampleFeatures =
          some neighbors ∧
      restoreRecord exampleHost exampleOracle defaultKnnConfig exampleNoConfig exampleFeatures
        exampleRestoreState 0 (deletedRowOf "t" exampleFirstRow true []) = some st1 ∧
      st1.store.tableItems = exampleRestoreState.store.tableItems ++ [restoredRow] ∧
      st1.restoredCount.successful = exampleRestoreState.restoredCount.successful + 1 ∧
      getKey restoredRow "status" = Value.str "restored" ∧
      getKey restoredRow "fullRowDeleted" = Value.bool false ∧
      getKey restoredRow "deletedAttributes" = Value.arr [] ∧
      ∀ f ∈ exampleFeatures, f ≠ "restoredAt" →
        getKey restoredRow f =
          if isMissing exampleHost (getKey exampleFirstRow f) then
            (imputedValue exampleHost exampleNoConfig neighbors f).getD
              (getKey exampleFirstRow f)
          else getKey exampleFirstRow f :=
  ⟨by decide, by decide,
    restoreRecord_full_row exampleHost exampleOracle defaultKnnConfig exampleNoConfig
      exampleFeatures exampleRestoreState 0 "t" exampleFirstRow [] (euclidean exampleHost)
      rfl (by decide) (by decide) (by decide) (by decide)⟩

theorem filterMap_of_all_some {α β : Type} (g : α → Option β) (l : List α)
    (h : ∀ a ∈ l, ∃ b, g a = some b) :
    ∃ values : List β, l.map g = values.map some ∧ l.filterMap g = values ∧
      values.length = l.length := by
  induction l with
  | nil => exact ⟨[], rfl, rfl, rfl⟩
  | cons a l ih =>
    obtain ⟨b, hb⟩ := h a (List.mem_cons_self _ _)
    obtain ⟨values, h1, h2, h3⟩ := ih (fun x hx => h x (List.mem_cons_of_mem _ hx))
    exact ⟨b :: values, by simp [hb, h1], by simp [List.filterMap_cons, hb, h2], by simp [h3]⟩

/-- C10: a record deleted as a whole row whose features are all `0`, with a
recognized label, restored against a same-label active pool of at least `k`
records (`k ≥ 1`) whose features all parse as numbers: `findKNN` returns
exactly `k` neighbours, all from the pool, the record is appended to
`tableItems`, and every feature of it is the mean (the median for
`Median Value`) of the `k` values of that feature in the neighbours. -/
theorem restoreRecord_all_zero (H : Host) (o : Oracle) (knn : KnnConfig)
    (config : RestoreConfig) (features : List String) (st : RestoreState) (index : Nat)
    (t : String) (row : Row) (attrs : List String)
    (metric : Row → Row → List String → Dist)
    (hmetric : distanceMetrics H knn.distanceMetric = some metric) (hk : 1 ≤ knn.k)
    (hfeat : ∀ f ∈ features, f ∉ excludedKeys)
    (hlabel : isRecognized (cleanDecision H (getKey row "decision")) = true)
    (hzero : ∀ f ∈ features, getKey row f = Value.num 0)
    (hpool : knn.k ≤
      ((sameLabelRows H st.store (cleanDecision H (getKey row "decision"))).length : Int))
    (hnum : ∀ r ∈ sameLabelRows H st.store (cleanDecision H (getKey row "decision")),
      ∀ f ∈ features, (parseFloat H (getKey r f)).isSome = true) :
    ∃ (neighbors : List Neighbor) (restoredRow : Row) (st1 : RestoreState),
      findKNN H knn
        (setKey (deletedRowOf t row true attrs) "decision"
          (valueOfInt (cleanDecision H (getKey row "decision"))))
        (sameLabelRows H st.store (cleanDecision H (getKey row "decision"))) features =
          some neighbors ∧
      ((neighbors.length : Nat) : Int) = knn.k ∧
      (∀ n ∈ neighbors,
        n.row ∈ sameLabelRows H st.store (cleanDecision H (getKey row "decision"))) ∧
      restoreRecord H o knn config features st index (deletedRowOf t row true attrs) =
        some st1 ∧
      st1.store.tableItems = st.store.tableItems ++ [restoredRow] ∧
      ∀ f ∈ features, ∃ values : List ℚ,
        neighbors.map (fun n => parseFloat H (getKey n.row f)) = values.map some ∧
        values.length = neighbors.length ∧
        getKey restoredRow f =
          if config.type = some "Median Value" then median values else mean values := by
  have hne : sameLabelRows H st.store (cleanDecision H (getKey row "decision")) ≠ [] := by
    intro h
    rw [h] at hpool
    simp at hpool
    omega
  obtain ⟨neighbors, restoredRow, st1, h1, h2, h3, -, -, -, -, h4⟩ :=
    restoreRecord_full_row_aux H o knn config features st index t row attrs metric hmetric hk
      hfeat hlabel hne
  obtain ⟨neighbors1, k1, k2⟩ := findKNN_length H knn
    (setKey (deletedRowOf t row true attrs) "decision"
      (valueOfInt (cleanDecision H (getKey row "decision"))))
    (sameLabelRows H st.store (cleanDecision H (getKey row "decision"))) features metric hmetric
    (by omega)
  have hsame : neighbors1 = neighbors := by
    rw [k1] at h1
    exact Option.some.inj h1
  subst hsame
  have hmem := findKNN_mem H knn _ _ features neighbors1 k1
  refine ⟨neighbors1, restoredRow, st1, k1, by omega, hmem, h2, h3, ?_⟩
  intro f hf
  obtain ⟨values, v1, v2, v3⟩ := filterMap_of_all_some
    (fun n : Neighbor => parseFloat H (getKey n.row f)) neighbors1
    (fun n hn => Option.isSome_iff_exists.1 (hnum n.row (hmem n hn) f hf))
  refine ⟨values, v1, v3, ?_⟩
  have hlen : values.length > 0 := by omega
  have hmiss : isMissing H (getKey row f) = true := by
    rw [hzero f hf]
    simp [isMissing, strictEq]
  have himp : imputedValue H config neighbors1 f =
      some (if config.type = some "Median Value" then median values else mean values) := by
    simp only [imputedValue, v2, hlen, if_true]
  rw [h4 f hf, hmiss, if_pos rfl, himp, Option.getD_some]

/-- C10 at the example: a blank record of label 2 against the pool made of
the record 2, with `k = 1`. -/
theorem restoreRecord_all_zero_witness :
    (∀ f ∈ exampleFeatures, getKey exampleBlankRow f = Value.num 0) ∧
    ∃ (neighbors : List Neighbor) (restoredRow : Row) (st1 : RestoreState),
      findKNN exampleHost { defaultKnnConfig with k := 1 }
        (setKey (deletedRowOf "t" exampleBlankRow true []) "decision"
          (valueOfInt (cleanDecision exampleHost (getKey exampleBlankRow "decision"))))
        (sameLabelRows exampleHost exampleRestoreState.store
          (cleanDecision exampleHost (getKey exampleBlankRow "decision"))) exampleFeatures =
          some neighbors ∧
      ((neighbors.length : Nat) : Int) = ({ defaultKnnConfig with k := 1 } : KnnConfig).k ∧
      (∀ n ∈ neighbors,
        n.row ∈ sameLabelRows exampleHost exampleRestoreState.store
          (cleanDecision exampleHost (getKey exampleBlankRow "decision"))) ∧
      restoreRecord exampleHost exampleOracle { defaultKnnConfig with k := 1 } exampleNoConfig
        exampleFeatures exampleRestoreState 0 (deletedRowOf "t" exampleBlankRow true []) =
        some st1 ∧
      st1.store.tableItems = exampleRestoreState.store.tableItems ++ [restoredRow] ∧
      ∀ f ∈ exampleFeatures, ∃ values : List ℚ,
        neighbors.map (fun n => parseFloat exampleHost (getKey n.row f)) = values.map some ∧
        values.length = neighbors.length ∧
        getKey restoredRow f =
          if exampleNoConfig.type = some "Median Value" then median values else mean values :=
  ⟨by decide,
    restoreRecord_all_zero exampleHost exampleOracle { defaultKnnConfig with k := 1 }
      exampleNoConfig exampleFeatures exampleRestoreState 0 "t" exampleBlankRow []
      (euclidean exampleHost) rfl (by decide) (by decide) (by decide) (by decide) (by decide)
      (by decide)⟩

/-! ## Restoring a partially deleted record -/

/-- C11, as stated, fails: the record 1 is partially deleted with
`deletedAttributes = ["radius"]` while its `texture` is `0`; after
`restoreData` its `radius` is the mean `7/2` of the neighbours, but its
`texture` is still `0`, not the mean `1/2` of the neighbours. -/
theorem restoreData_listed_attributes_only :
    exampleZeroBatch.deletedRows.map (fun d =>
        (getKey d "fullRowDeleted", getKey d "deletedAttributes", getKey d "texture")) =
      [(Value.bool false, Value.arr ["radius"], Value.num 0)] ∧
    (restoreData exampleHost exampleOracle defaultKnnConfig exampleNoConfig
      exampleZeroBatch).map (fun r => r.store.tableItems.map (fun row =>
        (getKey row "id", getKey row "radius", getKey row "texture"))) =
      some [(Value.num 1, Value.num (7 / 2), Value.num 0),
        (Value.num 2, Value.num 7, Value.num 1)] ∧
    (findKNN exampleHost defaultKnnConfig (exampleZeroBatch.deletedRows.getD 0 [])
      (sameLabelRows exampleHost exampleZeroBatch (some 2))
      (restoreFeatures exampleZeroBatch)).map
        (fun ns => imputedValue exampleHost exampleNoConfig ns "texture") =
      some (some (Value.num (1 / 2))) := by
  decide!

theorem getKey_foldl_imputeAll (H : Host) (config : RestoreConfig) (neighbors : List Neighbor)
    (attrs : List String) (base : Row) (x : String) :
    getKey (attrs.foldl (imputeAttribute H config neighbors) base) x =
      if x ∈ attrs then (imputedValue H config neighbors x).getD (getKey base x)
      else getKey base x := by
  have h := getKey_foldl_impute H config neighbors (fun _ => true) attrs base x
  simpa using h

theorem getKey_restoredRowBase_other (t : String) (d : Row) (decision : Option Int) (x : String)
    (hx : x ∉ restoredKeys) : getKey (restoredRowBase t d decision) x = getKey d x := by
  simp only [restoredKeys, List.mem_cons, List.mem_singleton, List.not_mem_nil, or_false,
    not_or] at hx
  simp [getKey_restoredRowBase, hx.1, hx.2.1, hx.2.2.1, hx.2.2.2.1, hx.2.2.2.2]

/-- C11, amended: a partial snapshot (`markRowAsDeleted(row, false, attrs)`)
with a non-empty `deletedAttributes`, a recognized label and a non-empty
same-label active pool is counted as restored, and the first table row with
the same id is replaced by a record in which every listed attribute holds the
aggregate (median for `Median Value`, else mean) of the numeric values of the
KNN neighbours when there is one, and every other field outside the ones
written by the restoration itself keeps the value of the snapshot, also when
that value is `0`, `NaN` or `null`. -/
theorem restoreRecord_listed_attributes (H : Host) (o : Oracle) (knn : KnnConfig)
    (config : RestoreConfig) (features : List String) (st : RestoreState) (index : Nat)
    (t : String) (row : Row) (a : String) (attrs : List String)
    (metric : Row → Row → List String → Dist)
    (hmetric : distanceMetrics H knn.distanceMetric = some metric) (hk : 1 ≤ knn.k)
    (hlabel : isRecognized (cleanDecision H (getKey row "decision")) = true)
    (hpool : sameLabelRows H st.store (cleanDecision H (getKey row "decision")) ≠ []) :
    ∃ (neighbors : List Neighbor) (restoredRow : Row) (st1 : RestoreState),
      findKNN H knn
        (setKey (deletedRowOf t row false (a :: attrs)) "decision"
          (valueOfInt (cleanDecision H (getKey row "decision"))))
        (sameLabelRows H st.store (cleanDecision H (getKey row "decision"))) features =
          some neighbors ∧
      restoreRecord H o knn config features st index (deletedRowOf t row false (a :: attrs)) =
        some st1 ∧
      st1.restoredCount.successful = st.restoredCount.successful + 1 ∧
      (∀ i, findIndex (fun item => strictEq (getKey item "id") (getKey row "id"))
          st.store.tableItems = some i →
        st1.store.tableItems = st.store.tableItems.set i restoredRow) ∧
      (∀ x ∈ a :: attrs, x ∉ restoredKeys →
        getKey restoredRow x =
          (imputedValue H config neighbors x).getD
            (getKey (deletedRowOf t row false (a :: attrs)) x)) ∧
      (∀ x, x ∉ a :: attrs → x ∉ restoredKeys →
        getKey restoredRow x = getKey (deletedRowOf t row false (a :: attrs)) x) := by
  have hdec : getKey (deletedRowOf t row false (a :: attrs)) "decision" =
      getKey row "decision" := by
    simp [getKey_deletedRowOf]
  have hid : getKey (deletedRowOf t row false (a :: attrs)) "id" = getKey row "id" := by
    simp [getKey_deletedRowOf]
  have hattrs : getKey (deletedRowOf t row false (a :: attrs)) "deletedAttributes" =
      Value.arr (a :: attrs) := by
    simp [getKey_deletedRowOf]
  have hfull : truthy (getKey (deletedRowOf t row false (a :: attrs)) "fullRowDeleted") =
      false := by
    simp [getKey_deletedRowOf, truthy]
  have hlen : (sameLabelRows H st.store (cleanDecision H (getKey row "decision"))).length > 0 :=
    List.length_pos.2 hpool
  obtain ⟨neighbors, hknn, hn⟩ := findKNN_length H knn
    (setKey (deletedRowOf t row false (a :: attrs)) "decision"
      (valueOfInt (cleanDecision H (getKey row "decision"))))
    (sameLabelRows H st.store (cleanDecision H (getKey row "decision"))) features metric hmetric
    (by omega)
  have hne : neighbors.length > 0 := by omega
  have hrow : buildRestoredRow H config features (o.now index)
      (deletedRowOf t row false (a :: attrs)) (cleanDecision H (getKey row "decision"))
      neighbors =
      some ((a :: attrs).foldl (imputeAttribute H config neighbors)
        (restoredRowBase (o.now index) (deletedRowOf t row false (a :: attrs))
          (cleanDecision H (getKey row "decision")))) := by
    simp only [buildRestoredRow, hattrs]
  have hrec := restoreRecord_eq H o knn config features st index
    (deletedRowOf t row false (a :: attrs)) neighbors _ (by rw [hdec]; exact hlabel)
    (by rw [hdec]; exact hlen) (by rw [hdec]; exact hknn) hne (by rw [hdec]; exact hrow)
  refine ⟨neighbors,
    (a :: attrs).foldl (imputeAttribute H config neighbors)
      (restoredRowBase (o.now index) (deletedRowOf t row false (a :: attrs))
        (cleanDecision H (getKey row "decision"))),
    _, hknn, hrec, rfl, ?_, ?_, ?_⟩
  · intro i hi
    simp only [commitRestoredRow, hfull, Bool.false_eq_true, if_false, hid, hi]
  · intro x hx hxr
    rw [getKey_foldl_imputeAll, if_pos hx, getKey_restoredRowBase_other _ _ _ _ hxr]
  · intro x hx hxr
    rw [getKey_foldl_imputeAll, if_neg hx, getKey_restoredRowBase_other _ _ _ _ hxr]

/-- C11, amended, at the example: the snapshot of the record 1 of
`exampleZeroTable` with `deletedAttributes = ["radius"]`. -/
theorem restoreRecord_listed_attributes_witness :
    sameLabelRows exampleHost exampleZeroState.store
      (cleanDecision exampleHost (getKey exampleZeroRow "decision")) ≠ [] ∧
    ∃ (neighbors : List Neighbor) (restoredRow : Row) (st1 : RestoreState),
      findKNN exampleHost defaultKnnConfig
        (setKey (deletedRowOf "t" exampleZeroRow false ("radius" :: [])) "decision"
          (valueOfInt (cleanDecision exampleHost (getKey exampleZeroRow "decision"))))
        (sameLabelRows exampleHost exampleZeroState.store
          (cleanDecision exampleHost (getKey exampleZeroRow "decision"))) exampleFeatures =
          some neighbors ∧
      restoreRecord exampleHost exampleOracle defaultKnnConfig exampleNoConfig exampleFeatures
        exampleZeroState 0 (deletedRowOf "t" exampleZeroRow false ("radius" :: [])) =
        some st1 ∧
      st1.restoredCount.successful = exampleZeroState.restoredCount.successful + 1 ∧
      (∀ i, findIndex (fun item => strictEq (getKey item "id") (getKey exampleZeroRow "id"))
          exampleZeroState.store.tableItems = some i →
        st1.store.tableItems = exampleZeroState.store.tableItems.set i restoredRow) ∧
      (∀ x ∈ "radius" :: [], x ∉ restoredKeys →
        getKey restoredRow x =
          (imputedValue exampleHost exampleNoConfig neighbors x).getD
            (getKey (deletedRowOf "t" exampleZeroRow false ("radius" :: [])) x)) ∧
      (∀ x, x ∉ "radius" :: [] → x ∉ restoredKeys →
        getKey restoredRow x =
          getKey (deletedRowOf "t" exampleZeroRow false ("radius" :: [])) x) :=
  ⟨by decide,
    restoreRecord_listed_attributes exampleHost exampleOracle defaultKnnConfig exampleNoConfig
      exampleFeatures exampleZeroState 0 "t" exampleZeroRow "radius" []
      (euclidean exampleHost) rfl (by decide) (by decide) (by decide)⟩

/-! ## Records that cannot be restored -/

/-- C12: a deleted record whose cleaned label is not 2 or 4, or whose
same-label active pool is empty, is counted as failed and nothing else
changes: the `forEach` of `restoreData` goes on with the remaining records
from the same store (the record is still in the deleted partition, the table
is untouched) and the same number of successes. -/
theorem restoreLoop_skips_unrestorable (H : Host) (o : Oracle) (knn : KnnConfig)
    (config : RestoreConfig) (features : List String) (st : RestoreState) (index : Nat)
    (d : Row) (rest : List Row)
    (h : isRecognized (cleanDecision H (getKey d "decision")) = false ∨
      sameLabelRows H st.store (cleanDecision H (getKey d "decision")) = []) :
    restoreRecord H o knn config features st index d =
      some { store := st.store
             restoredCount :=
               { successful := st.restoredCount.successful
                 failed := st.restoredCount.failed + 1 } } ∧
    restoreLoop H o knn config features index (d :: rest) st =
      restoreLoop H o knn config features (index + 1) rest
        { store := st.store
          restoredCount :=
            { successful := st.restoredCount.successful
              failed := st.restoredCount.failed + 1 } } := by
  have h1 : restoreRecord H o knn config features st index d =
      some { store := st.store
             restoredCount :=
               { successful := st.restoredCount.successful
                 failed := st.restoredCount.failed + 1 } } := by
    rcases h with h | h
    · simp only [restoreRecord, h, Bool.false_eq_true, if_false, countFailed]
    · by_cases hl : isRecognized (cleanDecision H (getKey d "decision")) = true
      · simp only [restoreRecord, hl, if_true, h, List.length_nil, gt_iff_lt, lt_self_iff_false,
          if_false, countFailed]
      · simp only [restoreRecord, hl, Bool.false_eq_true, if_false, countFailed]
  exact ⟨h1, by simp only [restoreLoop, h1, Option.some_bind]⟩

/-- C12 at the example: a record of label 3 followed by no other record. -/
theorem restoreLoop_skips_unrestorable_witness :
    isRecognized (cleanDecision exampleHost (getKey exampleUnlabelledRow "decision")) = false ∧
    restoreRecord exampleHost exampleOracle defaultKnnConfig exampleNoConfig exampleFeatures
      exampleRestoreState 0 exampleUnlabelledRow =
      some { store := exampleRestoreState.store
             restoredCount :=
               { successful := exampleRestoreState.restoredCount.successful
                 failed := exampleRestoreState.restoredCount.failed + 1 } } ∧
    restoreLoop exampleHost exampleOracle defaultKnnConfig exampleNoConfig exampleFeatures 0
        (exampleUnlabelledRow :: []) exampleRestoreState =
      restoreLoop exampleHost exampleOracle defaultKnnConfig exampleNoConfig exampleFeatures
        (0 + 1) []
        { store := exampleRestoreState.store
          restoredCount :=
            { successful := exampleRestoreState.restoredCount.successful
              failed := exampleRestoreState.restoredCount.failed + 1 } } :=
  ⟨by decide,
    restoreLoop_skips_unrestorable exampleHost exampleOracle defaultKnnConfig exampleNoConfig
      exampleFeatures exampleRestoreState 0 exampleUnlabelledRow [] (Or.inl (by decide))⟩

/-- C13, the code at the failing input: the partial snapshot of the record 1
is in the deleted partition while the table holds the records 2 and 3 only.
`restoreData` returns 1 success, empties the deleted partition and leaves the
table as it was: the record 1 is in neither partition any more. -/
theorem restoreData_orphan_snapshot_counted_restored :
    exampleOrphanBatch.tableItems.map (fun row => getKey row "id") =
      [Value.num 2, Value.num 3] ∧
    exampleOrphanBatch.deletedRows.map (fun d => (getKey d "id", getKey d "fullRowDeleted")) =
      [(Value.num 1, Value.bool false)] ∧
    (restoreData exampleHost exampleOracle defaultKnnConfig exampleNoConfig
      exampleOrphanBatch).map (fun r => (r.restored, r.store.deletedRows,
        decide (r.store.tableItems = exampleOrphanBatch.tableItems))) =
      some (1, [], true) := by
  decide!

/-! ## The neighbours of a restored record -/

theorem restoreRecord_success (H : Host) (o : Oracle) (knn : KnnConfig)
    (config : RestoreConfig) (features : List String) (st st1 : RestoreState) (index : Nat)
    (d : Row) (h : restoreRecord H o knn config features st index d = some st1)
    (hcount : st1.restoredCount.successful = st.restoredCount.successful + 1) :
    isRecognized (cleanDecision H (getKey d "decision")) = true ∧
    ∃ (neighbors : List Neighbor) (restoredRow : Row),
      findKNN H knn
        (setKey d "decision" (valueOfInt (cleanDecision H (getKey d "decision"))))
        (sameLabelRows H st.store (cleanDecision H (getKey d "decision"))) features =
          some neighbors ∧
      buildRestoredRow H config features (o.now index) d
        (cleanDecision H (getKey d "decision")) neighbors = some restoredRow ∧
      st1.store = commitRestoredRow st.store d restoredRow := by
  unfold restoreRecord at h
  by_cases hl : isRecognized (cleanDecision H (getKey d "decision")) = true
  · refine ⟨hl, ?_⟩
    simp only [hl, if_true] at h
    by_cases hp : (sameLabelRows H st.store (cleanDecision H (getKey d "decision"))).length > 0
    · simp only [hp, if_true] at h
      cases hk : findKNN H knn
          (setKey d "decision" (valueOfInt (cleanDecision H (getKey d "decision"))))
          (sameLabelRows H st.store (cleanDecision H (getKey d "decision"))) features with
      | none => simp [hk] at h
      | some neighbors =>
        simp only [hk] at h
        by_cases hn : neighbors.length > 0
        · simp only [hn, if_true] at h
          cases hb : buildRestoredRow H config features (o.now index) d
              (cleanDecision H (getKey d "decision")) neighbors with
          | none => simp [hb] at h
          | some restoredRow =>
            simp only [hb, Option.some.injEq] at h
            subst h
            exact ⟨neighbors, restoredRow, rfl, hb, rfl⟩
        · simp only [hn, if_false, Option.some.injEq] at h
          subst h
          simp [countFailed] at hcount
    · simp only [hp, if_false, Option.some.injEq] at h
      subst h
      simp [countFailed] at hcount
  · simp only [hl, Bool.false_eq_true, if_false, Option.some.injEq] at h
    subst h
    simp [countFailed] at hcount

theorem mem_sameLabelRows (H : Host) (s : Store) (decision : Option Int) (row : Row)
    (h : row ∈ sameLabelRows H s decision) :
    row ∈ getActiveRows s ∧ cleanDecision H (getKey row "decision") = decision := by
  obtain ⟨h1, h2⟩ := List.mem_filter.1 h
  refine ⟨h1, ?_⟩
  rw [strictEq_iff] at h2
  cases hc : cleanDecision H (getKey row "decision") <;> cases hd : decision <;>
    simp_all [valueOfInt]

/-- C14: when the `forEach` callback of `restoreData` restores a deleted
record, the restored record is built from the neighbours returned by
`findKNN`, and each of these neighbours is an active record (a table row whose
status is not `deleted`) whose cleaned label equals the cleaned label of the
deleted record, which is 2 or 4. -/
theorem restoreRecord_neighbors_same_label (H : Host) (o : Oracle) (knn : KnnConfig)
    (config : RestoreConfig) (features : List String) (st st1 : RestoreState) (index : Nat)
    (d : Row) (h : restoreRecord H o knn config features st index d = some st1)
    (hcount : st1.restoredCount.successful = st.restoredCount.successful + 1) :
    ∃ (neighbors : List Neighbor) (restoredRow : Row),
      buildRestoredRow H config features (o.now index) d
        (cleanDecision H (getKey d "decision")) neighbors = some restoredRow ∧
      st1.store = commitRestoredRow st.store d restoredRow ∧
      ∀ n ∈ neighbors,
        n.row ∈ getActiveRows st.store ∧
        cleanDecision H (getKey n.row "decision") = cleanDecision H (getKey d "decision") ∧
        (cleanDecision H (getKey n.row "decision") = some 2 ∨
          cleanDecision H (getKey n.row "decision") = some 4) := by
  obtain ⟨hl, neighbors, restoredRow, h1, h2, h3⟩ :=
    restoreRecord_success H o knn config features st st1 index d h hcount
  refine ⟨neighbors, restoredRow, h2, h3, ?_⟩
  intro n hn
  obtain ⟨k1, k2⟩ := mem_sameLabelRows H st.store _ n.row
    (findKNN_mem H knn _ _ features neighbors h1 n hn)
  refine ⟨k1, k2, ?_⟩
  rw [k2]
  simpa [isRecognized] using hl

/-- C14 at the example: the restoration of the record 1 of `exampleFullBatch`. -/
theorem restoreRecord_neighbors_same_label_witness :
    restoreRecord exampleHost exampleOracle defaultKnnConfig exampleNoConfig exampleFeatures
      exampleRestoreState 0 (exampleFullBatch.deletedRows.getD 0 []) =
        some exampleRestoredState ∧
    ∃ (neighbors : List Neighbor) (restoredRow : Row),
      buildRestoredRow exampleHost exampleNoConfig exampleFeatures (exampleOracle.now 0)
        (exampleFullBatch.deletedRows.getD 0 [])
        (cleanDecision exampleHost (getKey (exampleFullBatch.deletedRows.getD 0 []) "decision"))
        neighbors = some restoredRow ∧
      exampleRestoredState.store =
        commitRestoredRow exampleRestoreState.store (exampleFullBatch.deletedRows.getD 0 [])
          restoredRow ∧
      ∀ n ∈ neighbors,
        n.row ∈ getActiveRows exampleRestoreState.store ∧
        cleanDecision exampleHost (getKey n.row "decision") =
          cleanDecision exampleHost
            (getKey (exampleFullBatch.deletedRows.getD 0 []) "decision") ∧
        (cleanDecision exampleHost (getKey n.row "decision") = some 2 ∨
          cleanDecision exampleHost (getKey n.row "decision") = some 4) :=
  ⟨by decide!,
    restoreRecord_neighbors_same_label exampleHost exampleOracle defaultKnnConfig
      exampleNoConfig exampleFeatures exampleRestoreState exampleRestoredState 0
      (exampleFullBatch.deletedRows.getD 0 []) (by decide!) (by decide!)⟩

/-! ## The folds of the cross-validation -/

theorem testStart_le_testEnd (length i : Nat) : testStart length i ≤ testEnd length i :=
  Nat.div_le_div_right (Nat.mul_le_mul_right length (Nat.le_succ i))

theorem testEnd_le_testStart (length : Nat) {i j : Nat} (h : i < j) :
    testEnd length i ≤ testStart length j :=
  Nat.div_le_div_right (Nat.mul_le_mul_right length h)

theorem testEnd_le_length (length : Nat) {i : Nat} (h : i < folds) :
    testEnd length i ≤ length := by
  unfold testEnd
  have h1 : (i + 1) * length ≤ folds * length := Nat.mul_le_mul_right length h
  calc (i + 1) * length / folds ≤ folds * length / folds := Nat.div_le_div_right h1
    _ = length := Nat.mul_div_cancel_left length (by decide)

theorem take_append_slice {α : Type} (l : List α) {a b : Nat} (h : a ≤ b) :
    l.take a ++ slice l a b = l.take b := by
  unfold slice
  have h1 : l.take a = (l.take b).take a := by
    rw [List.take_take, Nat.min_eq_left h]
  rw [h1, List.take_append_drop]

theorem flatMap_testData {α : Type} (shuffled : List α) (m : Nat) :
    ((List.range m).map (testData shuffled)).flatten =
      shuffled.take (testStart shuffled.length m) := by
  induction m with
  | zero => simp [testStart]
  | succ m ih =>
    rw [List.range_succ, List.map_append, List.flatten_append, ih]
    simp only [List.map_cons, List.map_nil, List.flatten_cons, List.flatten_nil, List.append_nil]
    exact take_append_slice shuffled (testStart_le_testEnd _ m)

theorem length_testData {α : Type} (shuffled : List α) (i : Nat) (h : i < folds) :
    (testData shuffled i).length =
      testEnd shuffled.length i - testStart shuffled.length i := by
  have h1 := testEnd_le_length shuffled.length h
  simp only [testData, slice, List.length_drop, List.length_take]
  omega

theorem length_trainData {α : Type} (shuffled : List α) (i : Nat) (h : i < folds) :
    (trainData shuffled i).length = shuffled.length - (testData shuffled i).length := by
  have h1 := testEnd_le_length shuffled.length h
  have h2 := testStart_le_testEnd shuffled.length i
  rw [length_testData shuffled i h]
  simp only [trainData, slice, List.length_append, List.length_drop, List.length_take,
    List.drop_zero]
  omega

theorem trainData_perm {α : Type} (shuffled : List α) (i : Nat) :
    (trainData shuffled i ++ testData shuffled i).Perm shuffled := by
  have h2 := testStart_le_testEnd shuffled.length i
  have h3 : shuffled.take (testStart shuffled.length i) ++ testData shuffled i ++
      shuffled.drop (testEnd shuffled.length i) = shuffled := by
    rw [testData, take_append_slice shuffled h2, List.take_append_drop]
  have h4 : (trainData shuffled i ++ testData shuffled i).Perm
      (shuffled.take (testStart shuffled.length i) ++ testData shuffled i ++
        shuffled.drop (testEnd shuffled.length i)) := by
    simp only [trainData, slice, List.drop_zero, List.append_assoc]
    exact List.Perm.append_left _ List.perm_append_comm
  rw [h3] at h4
  exact h4

/-- C15: for every evaluation sequence `shuffled` of any length `n`, the ten
test slices `[floor(i*n/10), floor((i+1)*n/10))` are contiguous (each starts
where the previous one ends, the first at `0`, the last ends at `n`), their
concatenation in order is the whole sequence, their sizes sum to `n`, every
position `p < n` lies in the slice of exactly one fold, and for each fold the
train set has `n - |test|` elements and is, together with the test slice, a
permutation of the sequence. -/
theorem folds_cover_sequence {α : Type} (shuffled : List α) :
    testStart shuffled.length 0 = 0 ∧
    testEnd shuffled.length (folds - 1) = shuffled.length ∧
    (∀ i, testStart shuffled.length (i + 1) = testEnd shuffled.length i) ∧
    ((List.range folds).map (testData shuffled)).flatten = shuffled ∧
    ((List.range folds).map (fun i => (testData shuffled i).length)).sum = shuffled.length ∧
    (∀ p, p < shuffled.length →
      ∃ i, (i < folds ∧ testStart shuffled.length i ≤ p ∧ p < testEnd shuffled.length i) ∧
        ∀ j, j < folds ∧ testStart shuffled.length j ≤ p ∧ p < testEnd shuffled.length j →
          j = i) ∧
    ∀ i, i < folds →
      (trainData shuffled i).length = shuffled.length - (testData shuffled i).length ∧
      (trainData shuffled i ++ testData shuffled i).Perm shuffled := by
  have hlast : testStart shuffled.length folds = shuffled.length := by
    simp [testStart, folds]
  have hjoin : ((List.range folds).map (testData shuffled)).flatten = shuffled := by
    rw [flatMap_testData, hlast, List.take_length]
  refine ⟨by simp [testStart], by simp [testEnd, folds], fun i => rfl, hjoin, ?_, ?_, ?_⟩
  · have h := congrArg List.length hjoin
    rw [List.length_flatten, List.map_map] at h
    exact h
  · intro p hp
    have hex : ∃ i, i < folds ∧ testStart shuffled.length i ≤ p ∧
        p < testEnd shuffled.length i := by
      simp only [testStart, testEnd, folds]
      have h : p < 1 * shuffled.length / 10 ∨
          (1 * shuffled.length / 10 ≤ p ∧ p < 2 * shuffled.length / 10) ∨
          (2 * shuffled.length / 10 ≤ p ∧ p < 3 * shuffled.length / 10) ∨
          (3 * shuffled.length / 10 ≤ p ∧ p < 4 * shuffled.length / 10) ∨
          (4 * shuffled.length / 10 ≤ p ∧ p < 5 * shuffled.length / 10) ∨
          (5 * shuffled.length / 10 ≤ p ∧ p < 6 * shuffled.length / 10) ∨
          (6 * shuffled.length / 10 ≤ p ∧ p < 7 * shuffled.length / 10) ∨
          (7 * shuffled.length / 10 ≤ p ∧ p < 8 * shuffled.length / 10) ∨
          (8 * shuffled.length / 10 ≤ p ∧ p < 9 * shuffled.length / 10) ∨
          (9 * shuffled.length / 10 ≤ p ∧ p < 10 * shuffled.length / 10) := by
        omega
      rcases h with h | h | h | h | h | h | h | h | h | h
      · exact ⟨0, by omega, by omega, by omega⟩
      · exact ⟨1, by omega, by omega, by omega⟩
      · exact ⟨2, by omega, by omega, by omega⟩
      · exact ⟨3, by omega, by omega, by omega⟩
      · exact ⟨4, by omega, by omega, by omega⟩
      · exact ⟨5, by omega, by omega, by omega⟩
      · exact ⟨6, by omega, by omega, by omega⟩
      · exact ⟨7, by omega, by omega, by omega⟩
      · exact ⟨8, by omega, by omega, by omega⟩
      · exact ⟨9, by omega, by omega, by omega⟩
    obtain ⟨i, hi, h1, h2⟩ := hex
    refine ⟨i, ⟨hi, h1, h2⟩, ?_⟩
    rintro j ⟨-, k1, k2⟩
    rcases Nat.lt_trichotomy j i with hlt | heq | hgt
    · have := testEnd_le_testStart shuffled.length hlt
      omega
    · exact heq
    · have := testEnd_le_testStart shuffled.length hgt
      omega
  · intro i hi
    exact ⟨length_trainData shuffled i hi, trainData_perm shuffled i⟩

/-! ## The confusion matrix -/

/-- The sum of the four counters of a confusion matrix. -/
theorem countResult_sum (cm : ConfusionMatrix) (result : KnnResult) :
    (countResult cm result).truePositive + (countResult cm result).falsePositive +
        (countResult cm result).trueNegative + (countResult cm result).falseNegative =
      cm.truePositive + cm.falsePositive + cm.trueNegative + cm.falseNegative +
        (if isLabelled result then 1 else 0) := by
  obtain ⟨actual, predicted⟩ := result
  by_cases a2 : actual = Value.num 2 <;> by_cases a4 : actual = Value.num 4 <;>
    by_cases p2 : predicted = Value.num 2 <;> by_cases p4 : predicted = Value.num 4 <;>
    simp_all [countResult, isLabelled, strictEq] <;> omega

theorem foldl_countResult_sum (results : List KnnResult) (cm : ConfusionMatrix) :
    (results.foldl countResult cm).truePositive + (results.foldl countResult cm).falsePositive +
        (results.foldl countResult cm).trueNegative +
        (results.foldl countResult cm).falseNegative =
      cm.truePositive + cm.falsePositive + cm.trueNegative + cm.falseNegative +
        (results.filter isLabelled).length := by
  induction results generalizing cm with
  | nil => simp
  | cons result rest ih =>
    rw [List.foldl_cons, ih, countResult_sum, List.filter_cons]
    split_ifs
    · simp
      omega
    · simp

/-- C16, as stated, fails: for the single result `{ actual: 2, predicted: 3 }`
(3 is what the `Mean` and `Median` aggregations give for the neighbour labels
2 and 4) no counter is incremented, so the four counters sum to 0 while
`totalSamples` is 1. -/
theorem calculatePerformanceMetrics_unlabelled_prediction :
    (calculatePerformanceMetrics
      [{ actual := Value.num 2, predicted := Value.num 3 }]).confusionMatrix =
      { truePositive := 0, falsePositive := 0, trueNegative := 0, falseNegative := 0 } ∧
    (calculatePerformanceMetrics
      [{ actual := Value.num 2, predicted := Value.num 3 }]).totalSamples = 1 := by
  decide

/-- C16, amended: for every list of results, the four counters of the
confusion matrix sum to the number of results whose `actual` and `predicted`
are both one of the labels 2 and 4; this number is at most `totalSamples`, the
number of results, and equal to it when every result is of that kind. -/
theorem calculatePerformanceMetrics_counts_labelled (results : List KnnResult) :
    (calculatePerformanceMetrics results).confusionMatrix.truePositive +
        (calculatePerformanceMetrics results).confusionMatrix.falsePositive +
        (calculatePerformanceMetrics results).confusionMatrix.trueNegative +
        (calculatePerformanceMetrics results).confusionMatrix.falseNegative =
      (results.filter isLabelled).length ∧
    (calculatePerformanceMetrics results).totalSamples = results.length ∧
    (results.filter isLabelled).length ≤ results.length ∧
    ((∀ result ∈ results, isLabelled result = true) →
      (results.filter isLabelled).length = results.length) := by
  refine ⟨?_, rfl, List.length_filter_le _ _, ?_⟩
  · have h := foldl_countResult_sum results
      { truePositive := 0, falsePositive := 0, trueNegative := 0, falseNegative := 0 }
    simpa [calculatePerformanceMetrics] using h
  · intro hall
    rw [List.filter_eq_self.2 hall]

/-! ## Inspection of the data -/

theorem getKey_foldl_setKey (g : String → Value) (fs : List String) (base : Row) (x : String) :
    getKey (fs.foldl (fun cleaned f => setKey cleaned f (g f)) base) x =
      if x ∈ fs then g x else getKey base x := by
  induction fs generalizing base with
  | nil => simp
  | cons f rest ih =>
    rw [List.foldl_cons, ih, getKey_setKey]
    by_cases hx : x ∈ rest
    · simp [hx]
    · by_cases hf : f = x
      · simp [hf]
      · simp [hx, hf, Ne.symm hf]

theorem keys_cleanItem (H : Host) (item : Row) :
    keys (cleanItem H item) = ["id", "decision", "status"] ++ validFeatures := by
  simp [cleanItem, validFeatures, keys, setKey]

theorem getKey_cleanItem (H : Host) (item : Row) (f : String) (hf : f ∈ validFeatures) :
    ∃ q, getKey (cleanItem H item) f = Value.num q := by
  unfold cleanItem
  rw [getKey_foldl_setKey (fun f => match parseFloat H (getKey item f) with
    | none => Value.num 0
    | some numValue => Value.num numValue), if_pos hf]
  cases parseFloat H (getKey item f) with
  | none => exact ⟨0, rfl⟩
  | some v => exact ⟨v, rfl⟩

theorem featureIssue_cleaned (H : Host) (data : List Row) (f : String)
    (h : ∀ row ∈ data, ∃ q, getKey row f = Value.num q) : featureIssue H data f = none := by
  have h0 : data.filter (fun row => isNaN H (getKey row f)) = [] := by
    rw [List.filter_eq_nil_iff]
    intro row hrow
    obtain ⟨q, hq⟩ := h row hrow
    simp [hq, isNaN, toNumber]
  simp [featureIssue, h0]

/-- C17, the code on every input: whatever the active rows hold, also a
non-numeric feature value, the issue list of `inspectData` is empty when it
returns, so `crossValidate` never returns at its data-quality guard. -/
theorem inspectData_never_reports (H : Host) (s : Store) :
    (∀ inspection, inspectData H s = some inspection → inspection.issues = []) ∧
    crossValidateAborts H s ≠ some true := by
  have key : ∀ inspection, inspectData H s = some inspection → inspection.issues = [] := by
    intro inspection h
    unfold inspectData at h
    cases hdata : prepareData H s with
    | nil => simp [hdata] at h
    | cons first rest =>
      simp only [hdata, Option.some.injEq] at h
      subst h
      have hmem : ∀ row ∈ first :: rest, ∃ item, row = cleanItem H item := by
        intro row hrow
        rw [← hdata] at hrow
        obtain ⟨item, -, rfl⟩ := List.mem_map.1 (List.mem_filter.1 hrow).1
        exact ⟨item, rfl⟩
      obtain ⟨item0, h0⟩ := hmem first (List.mem_cons_self _ _)
      simp only
      rw [List.filterMap_eq_nil_iff]
      intro f hf
      have hfv : f ∈ validFeatures := by
        rw [h0, keys_cleanItem] at hf
        have := (List.mem_filter.1 hf).1
        have h2 := (List.mem_filter.1 hf).2
        rcases List.mem_append.1 this with h1 | h1
        · simp only [List.mem_cons, List.mem_singleton, List.not_mem_nil, or_false] at h1
          rcases h1 with rfl | rfl | rfl <;> simp at h2
        · exact h1
      apply featureIssue_cleaned
      intro row hrow
      obtain ⟨item, rfl⟩ := hmem row hrow
      exact getKey_cleanItem H item f hfv
  refine ⟨key, ?_⟩
  unfold crossValidateAborts
  cases h : inspectData H s with
  | none => simp
  | some inspection => simp [key inspection h]

/-- C17, the code at the failing input: the only active record has label 2
and `radius = "abc"`; `prepareData` turns the value into `0`, `inspectData`
reports no issue and `crossValidate` goes on to the folds. -/
theorem crossValidate_runs_on_invalid_value :
    (getActiveRows exampleDirtyStore).map (fun row =>
        (getKey row "decision", getKey row "radius",
          isNaN exampleHost (getKey row "radius"))) =
      [(Value.num 2, Value.str "abc", true)] ∧
    (prepareData exampleHost exampleDirtyStore).map (fun row => getKey row "radius") =
      [Value.num 0] ∧
    (inspectData exampleHost exampleDirtyStore).map (fun r => r.issues) = some [] ∧
    crossValidateAborts exampleHost exampleDirtyStore = some false := by
  decide

/-! ## Normalization -/

theorem getKey_normalizeRow (H : Host) (stats : String → Option FeatureStats)
    (features : List String) (row : Row) (f : String) (hf : f ∈ features) :
    getKey (normalizeRow H stats features row) f =
      Value.num (normalizedValue H (stats f) (getKey row f)) := by
  unfold normalizeRow
  rw [getKey_foldl_setKey (fun f => Value.num (normalizedValue H (stats f) (getKey row f))),
    if_pos hf]

/-- C18: `normalizeData` takes its statistics from the training partition
only: the normalized training partition is the same whatever the test
partition is, and the normalized test partition is obtained record by record,
each record being normalized as if it were alone in the test partition. -/
theorem normalizeData_train_statistics_only (H : Host) (trainData : List Row) (method : String)
    (features : List String) (test1 test2 : List Row) (record : Row) :
    (normalizeData H trainData test1 method features).train =
      (normalizeData H trainData test2 method features).train ∧
    (normalizeData H trainData (test1 ++ record :: test2) method features).test =
      (normalizeData H trainData test1 method features).test ++
        (normalizeData H trainData [record] method features).test ++
        (normalizeData H trainData test2 method features).test ∧
    (normalizeData H trainData [record] method features).test =
      [normalizeRow H (featureStats H trainData method) features record] := by
  refine ⟨rfl, ?_, rfl⟩
  simp [normalizeData]

theorem foldl_min_le (l : List ℚ) (a : ℚ) :
    l.foldl min a ≤ a ∧ ∀ x ∈ l, l.foldl min a ≤ x := by
  induction l generalizing a with
  | nil => simp
  | cons b l ih =>
    obtain ⟨h1, h2⟩ := ih (min a b)
    refine ⟨le_trans h1 (min_le_left _ _), ?_⟩
    intro x hx
    rcases List.mem_cons.1 hx with rfl | hx
    · exact le_trans h1 (min_le_right _ _)
    · exact h2 x hx

theorem foldl_min_mem (l : List ℚ) (a : ℚ) : l.foldl min a ∈ a :: l := by
  induction l generalizing a with
  | nil => simp
  | cons b l ih =>
    have h := ih (min a b)
    rcases List.mem_cons.1 h with h | h
    · rcases min_choice a b with hc | hc
      · rw [List.foldl_cons, h, hc]
        exact List.mem_cons_self _ _
      · rw [List.foldl_cons, h, hc]
        exact List.mem_cons_of_mem _ (List.mem_cons_self _ _)
    · exact List.mem_cons_of_mem _ (List.mem_cons_of_mem _ h)

theorem le_foldl_max (l : List ℚ) (a : ℚ) :
    a ≤ l.foldl max a ∧ ∀ x ∈ l, x ≤ l.foldl max a := by
  induction l generalizing a with
  | nil => simp
  | cons b l ih =>
    obtain ⟨h1, h2⟩ := ih (max a b)
    refine ⟨le_trans (le_max_left _ _) h1, ?_⟩
    intro x hx
    rcases List.mem_cons.1 hx with rfl | hx
    · exact le_trans (le_max_right _ _) h1
    · exact h2 x hx

theorem foldl_max_mem (l : List ℚ) (a : ℚ) : l.foldl max a ∈ a :: l := by
  induction l generalizing a with
  | nil => simp
  | cons b l ih =>
    have h := ih (max a b)
    rcases List.mem_cons.1 h with h | h
    · rcases max_choice a b with hc | hc
      · rw [List.foldl_cons, h, hc]
        exact List.mem_cons_self _ _
      · rw [List.foldl_cons, h, hc]
        exact List.mem_cons_of_mem _ (List.mem_cons_self _ _)
    · exact List.mem_cons_of_mem _ (List.mem_cons_of_mem _ h)

theorem minOf_le (l : List ℚ) (x : ℚ) (hx : x ∈ l) : minOf l ≤ x := by
  cases l with
  | nil => simp at hx
  | cons a l =>
    rcases List.mem_cons.1 hx with rfl | hx
    · exact (foldl_min_le l x).1
    · exact (foldl_min_le l a).2 x hx

theorem minOf_mem (l : List ℚ) (hl : l ≠ []) : minOf l ∈ l := by
  cases l with
  | nil => exact absurd rfl hl
  | cons a l => exact foldl_min_mem l a

theorem le_maxOf (l : List ℚ) (x : ℚ) (hx : x ∈ l) : x ≤ maxOf l := by
  cases l with
  | nil => simp at hx
  | cons a l =>
    rcases List.mem_cons.1 hx with rfl | hx
    · exact (le_foldl_max l x).1
    · exact (le_foldl_max l a).2 x hx

theorem maxOf_mem (l : List ℚ) (hl : l ≠ []) : maxOf l ∈ l := by
  cases l with
  | nil => exact absurd rfl hl
  | cons a l => exact foldl_max_mem l a

theorem minOf_eq (l : List ℚ) (m : ℚ) (hm : m ∈ l) (hle : ∀ x ∈ l, m ≤ x) : minOf l = m :=
  le_antisymm (minOf_le l m hm) (hle _ (minOf_mem l (List.ne_nil_of_mem hm)))

theorem maxOf_eq (l : List ℚ) (m : ℚ) (hm : m ∈ l) (hle : ∀ x ∈ l, x ≤ m) : maxOf l = m :=
  le_antisymm (hle _ (maxOf_mem l (List.ne_nil_of_mem hm))) (le_maxOf l m hm)

theorem mem_keys_setKey (r : Row) (k x : String) (v : Value) :
    x ∈ keys (setKey r k v) ↔ x = k ∨ x ∈ keys r := by
  induction r with
  | nil => simp [setKey, keys]
  | cons p r ih =>
    obtain ⟨a, w⟩ := p
    by_cases hak : a = k
    · subst hak
      simp [setKey, keys]
    · simp only [setKey, hak, if_false, keys, List.map_cons, List.mem_cons] at ih ⊢
      rw [ih]
      tauto

theorem setKey_getKey_self (r : Row) (f : String) (hf : f ∈ keys r) :
    setKey r f (getKey r f) = r := by
  induction r with
  | nil => simp [keys] at hf
  | cons p r ih =>
    obtain ⟨a, w⟩ := p
    by_cases haf : a = f
    · subst haf
      simp [setKey, getKey]
    · have hf1 : f ∈ keys r := by
        simp only [keys, List.map_cons, List.mem_cons] at hf
        rcases hf with h | h
        · exact absurd h.symm haf
        · exact h
      simp [setKey, getKey, haf, ih hf1]

theorem foldl_setKey_self (val : String → Value) (fs : List String) (r : Row)
    (h : ∀ f ∈ fs, f ∈ keys r ∧ val f = getKey r f) :
    fs.foldl (fun n f => setKey n f (val f)) r = r := by
  induction fs with
  | nil => rfl
  | cons f rest ih =>
    obtain ⟨h1, h2⟩ := h f (List.mem_cons_self _ _)
    rw [List.foldl_cons, h2, setKey_getKey_self r f h1]
    exact ih (fun x hx => h x (List.mem_cons_of_mem _ hx))

theorem mem_keys_foldl_setKey (val : String → Value) (fs : List String) (r : Row) (x : String)
    (hx : x ∈ fs) : x ∈ keys (fs.foldl (fun n f => setKey n f (val f)) r) := by
  induction fs generalizing r with
  | nil => simp at hx
  | cons f rest ih =>
    rw [List.foldl_cons]
    by_cases hr : x ∈ rest
    · exact ih _ hr
    · have hxf : x = f := by
        rcases List.mem_cons.1 hx with h | h
        · exact h
        · exact absurd h hr
      subst hxf
      have hkeep : ∀ (l : List String) (r0 : Row), x ∈ keys r0 →
          x ∈ keys (l.foldl (fun n f => setKey n f (val f)) r0) := by
        intro l
        induction l with
        | nil => intro r0 h0; exact h0
        | cons g l ihl =>
          intro r0 h0
          rw [List.foldl_cons]
          exact ihl _ ((mem_keys_setKey r0 g x (val g)).2 (Or.inr h0))
      exact hkeep rest _ ((mem_keys_setKey r x x (val x)).2 (Or.inl rfl))

theorem mem_trainValues (H : Host) (trainData : List Row) (f : String) (x : ℚ) :
    x ∈ trainValues H trainData f ↔
      ∃ row ∈ trainData, parseFloat H (getKey row f) = some x := by
  simp [trainValues, List.mem_filterMap]

theorem featureStats_minMax (H : Host) (trainData : List Row) (f : String)
    (h : trainValues H trainData f ≠ []) :
    featureStats H trainData "Min-Max" f =
      some (FeatureStats.minMax (minOf (trainValues H trainData f))
        (maxOf (trainValues H trainData f))) := by
  have h0 : (trainValues H trainData f).length ≠ 0 := by
    simpa [List.length_eq_zero] using h
  simp [featureStats, h0]

theorem featureStats_of_no_values (H : Host) (trainData : List Row) (method : String)
    (f : String) (h : trainValues H trainData f = []) :
    featureStats H trainData method f = none := by
  simp [featureStats, h]

/-- The values of a feature after a first normalization pass. -/
theorem trainValues_normalized (H : Host) (stats : String → Option FeatureStats)
    (features : List String) (trainData : List Row) (f : String) (hf : f ∈ features) :
    trainValues H (trainData.map (normalizeRow H stats features)) f =
      trainData.map (fun row => normalizedValue H (stats f) (getKey row f)) := by
  unfold trainValues
  rw [List.filterMap_map]
  induction trainData with
  | nil => rfl
  | cons row rest ih =>
    have h1 : ((fun row => parseFloat H (getKey row f)) ∘ normalizeRow H stats features) row =
        some (normalizedValue H (stats f) (getKey row f)) := by
      simp only [Function.comp, getKey_normalizeRow H stats features row f hf, parseFloat]
    rw [List.filterMap_cons, h1, ih, List.map_cons]

theorem normalizedValue_minMax (H : Host) (min max : ℚ) (v : Value) :
    normalizedValue H (some (FeatureStats.minMax min max)) v =
      match parseFloat H v with
      | none => 0
      | some value => if max - min > 0 then (value - min) / (max - min) else 0 := by
  unfold normalizedValue
  cases parseFloat H v <;> rfl

/-- The Min-Max values of a feature with a positive training range lie in
`[0, 1]` and reach both ends. -/
theorem minMax_range (H : Host) (trainData : List Row) (f : String)
    (hne : trainValues H trainData f ≠ [])
    (hrange : maxOf (trainValues H trainData f) - minOf (trainValues H trainData f) > 0) :
    (∀ row ∈ trainData,
      0 ≤ normalizedValue H (featureStats H trainData "Min-Max" f) (getKey row f) ∧
      normalizedValue H (featureStats H trainData "Min-Max" f) (getKey row f) ≤ 1) ∧
    (∃ row ∈ trainData,
      normalizedValue H (featureStats H trainData "Min-Max" f) (getKey row f) = 0) ∧
    (∃ row ∈ trainData,
      normalizedValue H (featureStats H trainData "Min-Max" f) (getKey row f) = 1) := by
  rw [featureStats_minMax H trainData f hne]
  refine ⟨?_, ?_, ?_⟩
  · intro row hrow
    rw [normalizedValue_minMax]
    cases hp : parseFloat H (getKey row f) with
    | none => simp
    | some x =>
      have hx : x ∈ trainValues H trainData f :=
        (mem_trainValues H trainData f x).2 ⟨row, hrow, hp⟩
      have h1 := minOf_le _ x hx
      have h2 := le_maxOf _ x hx
      simp only [hrange, if_true]
      constructor
      · exact div_nonneg (by linarith) (le_of_lt hrange)
      · rw [div_le_one hrange]
        linarith
  · obtain ⟨row, hrow, hp⟩ :=
      (mem_trainValues H trainData f _).1 (minOf_mem _ hne)
    refine ⟨row, hrow, ?_⟩
    rw [normalizedValue_minMax, hp]
    simp
  · obtain ⟨row, hrow, hp⟩ :=
      (mem_trainValues H trainData f _).1 (maxOf_mem _ hne)
    refine ⟨row, hrow, ?_⟩
    rw [normalizedValue_minMax, hp]
    simp only [hrange, if_true]
    exact div_self (ne_of_gt hrange)

/-- Without a positive training range every Min-Max value is `0`. -/
theorem minMax_degenerate (H : Host) (trainData : List Row) (f : String)
    (h : ¬ (trainValues H trainData f ≠ [] ∧
      maxOf (trainValues H trainData f) - minOf (trainValues H trainData f) > 0)) (v : Value) :
    normalizedValue H (featureStats H trainData "Min-Max" f) v = 0 := by
  by_cases hne : trainValues H trainData f = []
  · rw [featureStats_of_no_values H trainData _ f hne]
    rfl
  · have hr : ¬ maxOf (trainValues H trainData f) - minOf (trainValues H trainData f) > 0 :=
      fun hr => h ⟨hne, hr⟩
    rw [featureStats_minMax H trainData f hne, normalizedValue_minMax]
    cases parseFloat H v with
    | none => rfl
    | some x => simp only [hr, if_false]

/-- A second Min-Max pass does not move a value of the first pass. -/
theorem minMax_second_pass (H : Host) (trainData : List Row) (features : List String)
    (f : String) (hf : f ∈ features) (row : Row) (hrow : row ∈ trainData) :
    normalizedValue H
      (featureStats H
        (trainData.map (normalizeRow H (featureStats H trainData "Min-Max") features))
        "Min-Max" f)
      (Value.num (normalizedValue H (featureStats H trainData "Min-Max" f) (getKey row f))) =
    normalizedValue H (featureStats H trainData "Min-Max" f) (getKey row f) := by
  have hvals := trainValues_normalized H (featureStats H trainData "Min-Max") features
    trainData f hf
  have hmemv : normalizedValue H (featureStats H trainData "Min-Max" f) (getKey row f) ∈
      trainData.map (fun row =>
        normalizedValue H (featureStats H trainData "Min-Max" f) (getKey row f)) :=
    List.mem_map.2 ⟨row, hrow, rfl⟩
  have hne2 : trainValues H
      (trainData.map (normalizeRow H (featureStats H trainData "Min-Max") features)) f ≠ [] := by
    rw [hvals]
    exact List.ne_nil_of_mem hmemv
  rw [featureStats_minMax H _ f hne2, normalizedValue_minMax, hvals]
  simp only [parseFloat]
  by_cases hcase : trainValues H trainData f ≠ [] ∧
      maxOf (trainValues H trainData f) - minOf (trainValues H trainData f) > 0
  · obtain ⟨h1, ⟨r0, hr0, h0⟩, ⟨r1, hr1, h1'⟩⟩ := minMax_range H trainData f hcase.1 hcase.2
    have hmin : minOf (trainData.map (fun row =>
        normalizedValue H (featureStats H trainData "Min-Max" f) (getKey row f))) = 0 := by
      apply minOf_eq
      · exact List.mem_map.2 ⟨r0, hr0, h0⟩
      · intro x hx
        obtain ⟨r, hr, rfl⟩ := List.mem_map.1 hx
        exact (h1 r hr).1
    have hmax : maxOf (trainData.map (fun row =>
        normalizedValue H (featureStats H trainData "Min-Max" f) (getKey row f))) = 1 := by
      apply maxOf_eq
      · exact List.mem_map.2 ⟨r1, hr1, h1'⟩
      · intro x hx
        obtain ⟨r, hr, rfl⟩ := List.mem_map.1 hx
        exact (h1 r hr).2
    rw [hmin, hmax]
    simp
  · have hzero : ∀ v, normalizedValue H (featureStats H trainData "Min-Max" f) v = 0 :=
      minMax_degenerate H trainData f hcase
    have hall : trainData.map (fun row =>
        normalizedValue H (featureStats H trainData "Min-Max" f) (getKey row f)) =
        trainData.map (fun _ => (0 : ℚ)) := by
      apply List.map_congr_left
      intro r _
      exact hzero _
    have h0mem : (0 : ℚ) ∈ trainData.map (fun _ => (0 : ℚ)) :=
      List.mem_map.2 ⟨row, hrow, rfl⟩
    have hmin : minOf (trainData.map (fun _ => (0 : ℚ))) = 0 := by
      apply minOf_eq _ _ h0mem
      intro x hx
      obtain ⟨r, -, rfl⟩ := List.mem_map.1 hx
      exact le_refl _
    have hmax : maxOf (trainData.map (fun _ => (0 : ℚ))) = 0 := by
      apply maxOf_eq _ _ h0mem
      intro x hx
      obtain ⟨r, -, rfl⟩ := List.mem_map.1 hx
      exact le_refl _
    rw [hall, hmin, hmax, hzero]
    simp

theorem normalizeData_minMax_idempotent (H : Host) (trainData test1 test2 : List Row)
    (features : List String) :
    (normalizeData H (normalizeData H trainData test1 "Min-Max" features).train test2
      "Min-Max" features).train =
    (normalizeData H trainData test1 "Min-Max" features).train := by
  simp only [normalizeData, List.map_map]
  apply List.map_congr_left
  intro row hrow
  simp only [Function.comp]
  apply foldl_setKey_self
  intro f hf
  refine ⟨mem_keys_foldl_setKey _ features row f hf, ?_⟩
  rw [getKey_normalizeRow H _ features row f hf]
  exact congrArg Value.num (minMax_second_pass H trainData features f hf row hrow)

theorem map_normalizedValue_minMax (H : Host) (min max : ℚ) (f : String) (rows : List Row)
    (hrange : max - min > 0)
    (hnum : ∀ row ∈ rows, (parseFloat H (getKey row f)).isSome = true) :
    rows.map (fun row =>
        normalizedValue H (some (FeatureStats.minMax min max)) (getKey row f)) =
      (trainValues H rows f).map (fun x => (x - min) / (max - min)) := by
  induction rows with
  | nil => rfl
  | cons row rest ih =>
    obtain ⟨x, hx⟩ := Option.isSome_iff_exists.1 (hnum row (List.mem_cons_self _ _))
    have ih1 := ih (fun r hr => hnum r (List.mem_cons_of_mem _ hr))
    unfold trainValues at ih1 ⊢
    rw [List.map_cons, ih1, List.filterMap_cons, hx, List.map_cons, normalizedValue_minMax, hx]
    simp only [hrange, if_true]

/-- C19: for a feature among `features` whose training values all parse as
numbers and whose training range `max - min` is positive, Min-Max
normalization maps each training value `x` to `(x - min) / (max - min)`; the
normalized values lie in `[0, 1]`, their minimum is exactly `0` and their
maximum exactly `1`; and Min-Max-normalizing the normalized training partition
again returns it unchanged (exact arithmetic). -/
theorem normalizeData_minMax_unit_interval (H : Host) (trainData testData : List Row)
    (features : List String) (f : String) (hf : f ∈ features)
    (hnum : ∀ row ∈ trainData, (parseFloat H (getKey row f)).isSome = true)
    (hrange : maxOf (trainValues H trainData f) - minOf (trainValues H trainData f) > 0) :
    trainValues H (normalizeData H trainData testData "Min-Max" features).train f =
      (trainValues H trainData f).map (fun x =>
        (x - minOf (trainValues H trainData f)) /
          (maxOf (trainValues H trainData f) - minOf (trainValues H trainData f))) ∧
    (∀ y ∈ trainValues H (normalizeData H trainData testData "Min-Max" features).train f,
      0 ≤ y ∧ y ≤ 1) ∧
    minOf (trainValues H (normalizeData H trainData testData "Min-Max" features).train f) = 0 ∧
    maxOf (trainValues H (normalizeData H trainData testData "Min-Max" features).train f) = 1 ∧
    (normalizeData H (normalizeData H trainData testData "Min-Max" features).train testData
      "Min-Max" features).train =
      (normalizeData H trainData testData "Min-Max" features).train := by
  have hne : trainValues H trainData f ≠ [] := by
    intro h
    rw [h] at hrange
    simp [maxOf, minOf] at hrange
  have hvals : trainValues H (normalizeData H trainData testData "Min-Max" features).train f =
      trainData.map (fun row =>
        normalizedValue H (featureStats H trainData "Min-Max" f) (getKey row f)) :=
    trainValues_normalized H (featureStats H trainData "Min-Max") features trainData f hf
  obtain ⟨h1, ⟨r0, hr0, h0⟩, ⟨r1, hr1, h1'⟩⟩ := minMax_range H trainData f hne hrange
  refine ⟨?_, ?_, ?_, ?_, normalizeData_minMax_idempotent H trainData testData testData features⟩
  · rw [hvals, featureStats_minMax H trainData f hne]
    exact map_normalizedValue_minMax H _ _ f trainData hrange hnum
  · intro y hy
    rw [hvals] at hy
    obtain ⟨r, hr, rfl⟩ := List.mem_map.1 hy
    exact h1 r hr
  · rw [hvals]
    apply minOf_eq
    · exact List.mem_map.2 ⟨r0, hr0, h0⟩
    · intro x hx
      obtain ⟨r, hr, rfl⟩ := List.mem_map.1 hx
      exact (h1 r hr).1
  · rw [hvals]
    apply maxOf_eq
    · exact List.mem_map.2 ⟨r1, hr1, h1'⟩
    · intro x hx
      obtain ⟨r, hr, rfl⟩ := List.mem_map.1 hx
      exact (h1 r hr).2

/-- C19 at the example: the feature `radius` of the example table (values 5,
7 and 9). -/
theorem normalizeData_minMax_unit_interval_witness :
    maxOf (trainValues exampleHost exampleTable "radius") -
      minOf (trainValues exampleHost exampleTable "radius") > 0 ∧
    (trainValues exampleHost
        (normalizeData exampleHost exampleTable [] "Min-Max" exampleFeatures).train "radius" =
      (trainValues exampleHost exampleTable "radius").map (fun x =>
        (x - minOf (trainValues exampleHost exampleTable "radius")) /
          (maxOf (trainValues exampleHost exampleTable "radius") -
            minOf (trainValues exampleHost exampleTable "radius"))) ∧
    (∀ y ∈ trainValues exampleHost
        (normalizeData exampleHost exampleTable [] "Min-Max" exampleFeatures).train "radius",
      0 ≤ y ∧ y ≤ 1) ∧
    minOf (trainValues exampleHost
      (normalizeData exampleHost exampleTable [] "Min-Max" exampleFeatures).train "radius") =
        0 ∧
    maxOf (trainValues exampleHost
      (normalizeData exampleHost exampleTable [] "Min-Max" exampleFeatures).train "radius") =
        1 ∧
    (normalizeData exampleHost
      (normalizeData exampleHost exampleTable [] "Min-Max" exampleFeatures).train []
      "Min-Max" exampleFeatures).train =
      (normalizeData exampleHost exampleTable [] "Min-Max" exampleFeatures).train) :=
  ⟨by decide!,
    normalizeData_minMax_unit_interval exampleHost exampleTable [] exampleFeatures "radius"
      (by decide) (by decide) (by decide!)⟩

/-- Function `normalizeData` returns the two partitions record for record, and
the normalized value of the feature is exactly `0` for every record of both
partitions when the training partition is empty, when no training value of
the feature parses as a number (for any method), when the stored Min-Max
statistics have `max = min`, and when the stored Z-Score statistics have a
`std` that is not positive. -/
theorem normalizeData_zero_of_degenerate_statistics (H : Host)
    (trainData testData : List Row)
    (method : String) (features : List String) (f : String) (hf : f ∈ features)
    (hdegenerate : trainData = [] ∨ trainValues H trainData f = [] ∨
      (∃ m, featureStats H trainData method f = some (FeatureStats.minMax m m)) ∨
      (∃ mean std, featureStats H trainData method f = some (FeatureStats.zScore mean std) ∧
        ¬ std > 0)) :
    (normalizeData H trainData testData method features).train.length = trainData.length ∧
    (normalizeData H trainData testData method features).test.length = testData.length ∧
    ∀ row ∈ (normalizeData H trainData testData method features).train ++
        (normalizeData H trainData testData method features).test,
      getKey row f = Value.num 0 := by
  have hzero : ∀ v, normalizedValue H (featureStats H trainData method f) v = 0 := by
    intro v
    rcases hdegenerate with h | h | ⟨m, h⟩ | ⟨mean, std, h, hstd⟩
    · rw [featureStats_of_no_values H trainData method f (by rw [h]; rfl)]
      rfl
    · rw [featureStats_of_no_values H trainData method f h]
      rfl
    · rw [h, normalizedValue_minMax]
      cases parseFloat H v <;> simp
    · rw [h]
      unfold normalizedValue
      cases parseFloat H v <;> simp [hstd]
  refine ⟨by simp [normalizeData], by simp [normalizeData], ?_⟩
  intro row hrow
  have hrow1 : ∃ r, row = normalizeRow H (featureStats H trainData method) features r := by
    simp only [normalizeData, List.mem_append, List.mem_map] at hrow
    rcases hrow with ⟨r, -, rfl⟩ | ⟨r, -, rfl⟩ <;> exact ⟨r, rfl⟩
  obtain ⟨r, rfl⟩ := hrow1
  rw [getKey_normalizeRow H _ features r f hf, hzero]

/-- An empty training partition, with the example table as test partition:
every record is written `0`. -/
theorem normalizeData_empty_training_example :
    (normalizeData exampleHost [] exampleTable "Z-Score" exampleFeatures).train.length =
      ([] : List Row).length ∧
    (normalizeData exampleHost [] exampleTable "Z-Score" exampleFeatures).test.length =
      exampleTable.length ∧
    ∀ row ∈ (normalizeData exampleHost [] exampleTable "Z-Score" exampleFeatures).train ++
        (normalizeData exampleHost [] exampleTable "Z-Score" exampleFeatures).test,
      getKey row "radius" = Value.num 0 :=
  normalizeData_zero_of_degenerate_statistics exampleHost [] exampleTable "Z-Score"
    exampleFeatures "radius" (by decide) (Or.inl rfl)

/-- The arithmetic of doubles on the numbers of the example: the literal
`0.1`, the sum `0.1 + 0.2`, and two square roots. -/
theorem roundDouble_examples :
    roundDouble (1 / 10) = 3602879701896397 / 36028797018963968 ∧
    roundDouble (roundDouble (1 / 10) + roundDouble (2 / 10)) =
      1351079888211149 / 4503599627370496 ∧
    roundDouble (1 / 2) = 1 / 2 ∧ roundDouble (-3) = -3 ∧
    sqrtDouble 4 = 2 ∧ sqrtDouble 2 = 6369051672525773 / 4503599627370496 := by
  decide!

/-- C20, the code at the failing input: the training partition holds three
records whose feature `radius` is the double `0.1`, a column of standard
deviation zero (on exact numbers the statistics are the mean `0.1` and the
`std` `0`). In doubles the sum `0.1 + 0.1 + 0.1` is `0.30000000000000004`,
the mean is `0.1 + 2^-56` and the stored `std` is `2^-56 > 0`, so the guard
`stats[f].std > 0` holds and `normalizeData` with `Z-Score` writes `-1`, not
`0`, to the feature of every record of both partitions. With `Min-Max` the
same column has range `0` and is written `0`. -/
theorem normalizeData_zScore_constant_column :
    trainValues doubleHost exampleConstantTable "radius" =
      [roundDouble (1 / 10), roundDouble (1 / 10), roundDouble (1 / 10)] ∧
    featureStats exampleHost exampleConstantTable "Z-Score" "radius" =
      some (FeatureStats.zScore (roundDouble (1 / 10)) 0) ∧
    featureStats doubleHost exampleConstantTable "Z-Score" "radius" =
      some (FeatureStats.zScore (roundDouble (1 / 10) + 1 / 2 ^ 56) (1 / 2 ^ 56)) ∧
    (normalizeData doubleHost exampleConstantTable exampleConstantTable "Z-Score"
      ["radius"]).train.map (fun row => getKey row "radius") =
      [Value.num (-1), Value.num (-1), Value.num (-1)] ∧
    (normalizeData doubleHost exampleConstantTable exampleConstantTable "Z-Score"
      ["radius"]).test.map (fun row => getKey row "radius") =
      [Value.num (-1), Value.num (-1), Value.num (-1)] ∧
    (normalizeData doubleHost exampleConstantTable exampleConstantTable "Min-Max"
      ["radius"]).train.map (fun row => getKey row "radius") =
      [Value.num 0, Value.num 0, Value.num 0] := by
  decide!

/-! ## The partitions of the store -/

/-- C4, as stated, fails: after the partial deletion of one attribute of the
record 1 of a loaded table, the id 1 is in the active view (status `removed`)
and in the deleted partition at the same time. -/
theorem partial_deletion_keeps_id_in_both_partitions :
    examplePartialBatch =
      deleteTableRows exampleOracle (addTableItems initialStore exampleTable)
        { isRandom := false, forceRowDeletion := false, propertyQuantity := 1,
          rowQuantity := 1, rows := [Value.num 1] } ∧
    (getActiveRows examplePartialBatch).map (fun row => (idOf row, getKey row "status")) =
      [(Value.num 1, Value.str "removed"), (Value.num 2, Value.str "active"),
        (Value.num 3, Value.str "active")] ∧
    examplePartialBatch.deletedRows.map idOf = [Value.num 1] := by
  decide

theorem getActiveRows_eq (s : Store) : getActiveRows s = s.tableItems.filter isActive := rfl

theorem idOf_deletedRowOf (t : String) (row : Row) (full : Bool) (attrs : List String) :
    idOf (deletedRowOf t row full attrs) = idOf row := by
  simp [idOf, getKey_deletedRowOf]

theorem isFull_deletedRowOf (t : String) (row : Row) (full : Bool) (attrs : List String) :
    isFull (deletedRowOf t row full attrs) = full := by
  simp [isFull, getKey_deletedRowOf, truthy]

theorem clearRowAttributes_subset (sample : List String → Nat → List String)
    (hsample : ∀ l n, IsSample (sample l n) l n) (row : Row) (propertyQuantity : Int) :
    ∀ a ∈ (clearRowAttributes sample row propertyQuantity).2, a ∉ excludedKeys := by
  intro a ha
  have h := (hsample (eligibleAttributes row)
    (sampleCount (min propertyQuantity ((eligibleAttributes row).length : Int))
      (eligibleAttributes row).length)).1.subset ha
  exact ((mem_eligibleAttributes row a).1 h).2

theorem getKey_clearRowAttributes (sample : List String → Nat → List String) (row : Row)
    (propertyQuantity : Int) (x : String) :
    getKey (clearRowAttributes sample row propertyQuantity).1 x =
      if x = "status" then Value.str "removed"
      else if x ∈ (clearRowAttributes sample row propertyQuantity).2 then Value.num 0
      else getKey row x := by
  simp only [clearRowAttributes, getKey_setKey, getKey_foldl_zero, eq_comm (a := "status")]

theorem idOf_clearRowAttributes (sample : List String → Nat → List String)
    (hsample : ∀ l n, IsSample (sample l n) l n) (row : Row) (propertyQuantity : Int) :
    idOf (clearRowAttributes sample row propertyQuantity).1 = idOf row := by
  have h := clearRowAttributes_subset sample hsample row propertyQuantity "id"
  have hid : "id" ∉ (clearRowAttributes sample row propertyQuantity).2 :=
    fun hmem => h hmem (by decide)
  rw [idOf, getKey_clearRowAttributes, if_neg (by decide), if_neg hid]
  rfl

theorem isActive_clearRowAttributes (sample : List String → Nat → List String) (row : Row)
    (propertyQuantity : Int) :
    isActive (clearRowAttributes sample row propertyQuantity).1 = true := by
  simp [isActive, getKey_clearRowAttributes, strictEq]

theorem uniqueIds_of_sublist {rows rows1 : List Row}
    (h : (rows1.map idOf).Sublist (rows.map idOf)) (hu : UniqueIds rows) : UniqueIds rows1 :=
  ⟨hu.1.sublist h, fun hmem => hu.2 (h.subset hmem)⟩

theorem uniqueIds_of_map_eq {rows rows1 : List Row} (h : rows1.map idOf = rows.map idOf)
    (hu : UniqueIds rows) : UniqueIds rows1 := by
  unfold UniqueIds
  rw [h]
  exact hu

theorem idOf_of_isFullSnapshot {row d : Row} (h : IsFullSnapshot row d) : idOf row = idOf d :=
  (h.2.2.2 "id" (by decide)).symm

theorem idOf_of_isPartialSnapshot {o : Oracle} {propertyQuantity : Int} {row d : Row}
    (h : IsPartialSnapshot o propertyQuantity row d) : idOf row = idOf d := by
  obtain ⟨t, i, rfl⟩ := h
  exact (idOf_deletedRowOf _ _ _ _).symm

theorem idOf_of_isClearedRow {o : Oracle} (hvalid : o.Valid) {ids : List Value}
    {propertyQuantity : Int} {row row1 : Row}
    (h : IsClearedRow o ids propertyQuantity row row1) : idOf row = idOf row1 := by
  unfold IsClearedRow at h
  split_ifs at h
  · obtain ⟨i, rfl⟩ := h
    exact (idOf_clearRowAttributes _ (hvalid.2 i) row propertyQuantity).symm
  · rw [h]

/-- The invariant holds after `processDeletions` on a store whose deleted
partition is empty. -/
theorem processDeletions_inv (o : Oracle) (hvalid : o.Valid) (s : Store) (ids : List Value)
    (propertyQuantity : Int) (forceRowDeletion : Bool) (htable : UniqueIds s.tableItems)
    (hempty : s.deletedRows = []) :
    StoreInv (processDeletions o s ids propertyQuantity forceRowDeletion) := by
  by_cases hfull : (forceRowDeletion ||
      decide (propertyQuantity > ATTRIBUTE_DELETION_THRESHOLD)) = true
  · obtain ⟨h1, marked, h2, h3, -⟩ := deleteFullRows_spec o ids s.tableItems s
    rw [hempty, List.nil_append] at h2
    have hmap : (s.tableItems.filter (fun row => includes ids (getKey row "id"))).map idOf =
        marked.map idOf := forall₂_map_eq (fun _ _ h => idOf_of_isFullSnapshot h) h3
    rw [processDeletions_removing o s ids propertyQuantity forceRowDeletion hfull]
    refine ⟨?_, ?_, ?_, ?_⟩
    · exact uniqueIds_of_sublist (by rw [h1]; exact (List.filter_sublist _).map _) htable
    · refine uniqueIds_of_sublist ?_ htable
      show (List.map idOf (deleteFullRows o ids s.tableItems s).2.deletedRows).Sublist _
      rw [h2, ← hmap]
      exact (List.filter_sublist _).map _
    · intro d hd _ hmem
      change d ∈ (deleteFullRows o ids s.tableItems s).2.deletedRows at hd
      change idOf d ∈ List.map idOf (deleteFullRows o ids s.tableItems s).1 at hmem
      rw [h2] at hd
      rw [h1] at hmem
      obtain ⟨row, hrow, heq⟩ := List.mem_map.1 hmem
      obtain ⟨row0, hrow0, hsnap⟩ := forall₂_mem_right h3 hd
      have hin : includes ids (getKey row0 "id") = true := (List.mem_filter.1 hrow0).2
      have hout := (List.mem_filter.1 hrow).2
      have hsame : getKey row "id" = getKey row0 "id" := by
        have := idOf_of_isFullSnapshot hsnap
        unfold idOf at this heq
        rw [heq, this]
      rw [hsame, hin] at hout
      simp at hout
    · intro d hd
      change d ∈ (deleteFullRows o ids s.tableItems s).2.deletedRows at hd
      rw [h2] at hd
      obtain ⟨row0, -, hsnap⟩ := forall₂_mem_right h3 hd
      exact ⟨[], hsnap.2.1, by simp⟩
  · obtain ⟨h0, marked, h2, h3, -⟩ := clearRows_spec o ids propertyQuantity 0 s.tableItems s
    rw [hempty, List.nil_append] at h2
    have hmap : (s.tableItems.filter (fun row => includes ids (getKey row "id"))).map idOf =
        marked.map idOf := forall₂_map_eq (fun _ _ h => idOf_of_isPartialSnapshot h) h3
    have hmap0 : s.tableItems.map idOf =
        (clearRows o ids propertyQuantity 0 s.tableItems s).1.map idOf :=
      forall₂_map_eq (fun _ _ h => idOf_of_isClearedRow hvalid h) h0
    rw [processDeletions_clearing o s ids propertyQuantity forceRowDeletion hfull]
    refine ⟨?_, ?_, ?_, ?_⟩
    · exact uniqueIds_of_map_eq hmap0.symm htable
    · refine uniqueIds_of_sublist ?_ htable
      show (List.map idOf (clearRows o ids propertyQuantity 0 s.tableItems s).2.deletedRows).Sublist
        _
      rw [h2, ← hmap]
      exact (List.filter_sublist _).map _
    · intro d hd hf
      change d ∈ (clearRows o ids propertyQuantity 0 s.tableItems s).2.deletedRows at hd
      rw [h2] at hd
      obtain ⟨row0, -, t, i, rfl⟩ := forall₂_mem_right h3 hd
      rw [isFull_deletedRowOf] at hf
      exact absurd hf (by decide)
    · intro d hd
      change d ∈ (clearRows o ids propertyQuantity 0 s.tableItems s).2.deletedRows at hd
      rw [h2] at hd
      obtain ⟨row0, -, t, i, rfl⟩ := forall₂_mem_right h3 hd
      exact ⟨_, by simp [getKey_deletedRowOf],
        clearRowAttributes_subset _ (hvalid.2 i) row0 propertyQuantity⟩

theorem deleteTableRows_inv (o : Oracle) (hvalid : o.Valid) (s : Store) (d : DeleteData)
    (htable : UniqueIds s.tableItems) : StoreInv (deleteTableRows o s d) := by
  unfold deleteTableRows
  split_ifs
  · exact processDeletions_inv o hvalid _ _ _ _ htable rfl
  · exact processDeletions_inv o hvalid _ _ _ _ htable rfl

theorem addTableItems_inv (items : List Row) (hids : UniqueIds items) :
    StoreInv (addTableItems initialStore items) := by
  have hmap : (addTableItems initialStore items).tableItems.map idOf = items.map idOf := by
    simp only [addTableItems, resetDeletionStatistics, List.map_map]
    apply List.map_congr_left
    intro item _
    simp [idOf, getKey_setKey]
  refine ⟨uniqueIds_of_map_eq hmap hids, ?_, ?_, ?_⟩
  · exact ⟨List.nodup_nil, by simp [addTableItems, resetDeletionStatistics, initialStore]⟩
  · intro d hd
    simp [addTableItems, resetDeletionStatistics, initialStore] at hd
  · intro d hd
    simp [addTableItems, resetDeletionStatistics, initialStore] at hd

theorem getElem_not_mem_eraseIdx {α : Type} (l : List α) (i : Nat) (h : i < l.length)
    (hl : l.Nodup) : l[i] ∉ l.eraseIdx i := by
  induction l generalizing i with
  | nil => simp at h
  | cons a t ih =>
    cases i with
    | zero => simpa using (List.nodup_cons.1 hl).1
    | succ j =>
      have hj : j < t.length := by simpa using h
      simp only [List.eraseIdx_cons_succ, List.getElem_cons_succ, List.mem_cons, not_or]
      refine ⟨?_, ih j hj (List.nodup_cons.1 hl).2⟩
      intro heq
      exact (List.nodup_cons.1 hl).1 (heq ▸ List.getElem_mem _)

theorem map_eraseIdx {α β : Type} (f : α → β) (l : List α) (i : Nat) :
    (l.eraseIdx i).map f = (l.map f).eraseIdx i := by
  induction l generalizing i with
  | nil => rfl
  | cons a t ih =>
    cases i with
    | zero => rfl
    | succ j => simp [ih]

theorem map_set_same {α β : Type} (f : α → β) (l : List α) (j : Nat) (x : α)
    (h : ∀ hj : j < l.length, f x = f l[j]) : (l.set j x).map f = l.map f := by
  induction l generalizing j with
  | nil => rfl
  | cons a t ih =>
    cases j with
    | zero =>
      have := h (by simp)
      simp [this]
    | succ k =>
      simp only [List.set_cons_succ, List.map_cons]
      rw [ih k (fun hk => by simpa using h (by simpa using hk))]

theorem getKey_restoreAttributes (d : Row) (attrs : List String) (row : Row) (x : String)
    (hx : x ∉ attrs) : getKey (restoreAttributes d attrs row) x = getKey row x := by
  unfold restoreAttributes
  induction attrs generalizing row with
  | nil => rfl
  | cons a rest ih =>
    have hxa : a ≠ x := fun h => hx (h ▸ List.mem_cons_self _ _)
    have hxr : x ∉ rest := fun h => hx (List.mem_cons_of_mem _ h)
    rw [List.foldl_cons, ih _ hxr]
    split_ifs
    · exact getKey_setKey_ne _ _ _ _ hxa
    · rfl

/-- The table written by `restoreRow` for the deleted record at position
`i`. -/
theorem restoreRow_found (s s1 : Store) (rowId : Value) (i : Nat)
    (hfind : findIndex (fun row => strictEq (getKey row "id") rowId) s.deletedRows = some i)
    (h : restoreRow s rowId = some s1) :
    s1.deletedRows = s.deletedRows.eraseIdx i ∧
    ((isFull (s.deletedRows.getD i []) = true ∧
        ∃ restored, s1.tableItems = s.tableItems ++ [restored] ∧
          idOf restored = idOf (s.deletedRows.getD i []) ∧ isActive restored = true) ∨
      (isFull (s.deletedRows.getD i []) = false ∧ s1.tableItems = s.tableItems) ∨
      (isFull (s.deletedRows.getD i []) = false ∧
        ∃ j attrs restored, j < s.tableItems.length ∧
          findIndex (fun row => strictEq (getKey row "id") rowId) s.tableItems = some j ∧
          getKey (s.deletedRows.getD i []) "deletedAttributes" = Value.arr attrs ∧
          restored = setKey (restoreAttributes (s.deletedRows.getD i []) attrs
            (s.tableItems.getD j [])) "status" (Value.str "restored") ∧
          s1.tableItems = s.tableItems.set j restored)) := by
  simp only [restoreRow, hfind] at h
  by_cases hfull : truthy (getKey (s.deletedRows.getD i []) "fullRowDeleted") = true
  · simp only [hfull, if_true, Option.map_some', Option.some.injEq] at h
    subst h
    refine ⟨rfl, Or.inl ⟨hfull, _, rfl, ?_, ?_⟩⟩
    · simp [idOf, getKey_setKey]
    · simp [isActive, getKey_setKey, strictEq]
  · have hfalse : isFull (s.deletedRows.getD i []) = false := by
      simpa [isFull] using hfull
    simp only [hfull, Bool.false_eq_true, if_false] at h
    cases hj : findIndex (fun row => strictEq (getKey row "id") rowId) s.tableItems with
    | none =>
      simp only [hj, Option.map_some', Option.some.injEq] at h
      subst h
      exact ⟨rfl, Or.inr (Or.inl ⟨hfalse, rfl⟩)⟩
    | some j =>
      simp only [hj] at h
      cases hattrs : getKey (s.deletedRows.getD i []) "deletedAttributes" with
      | arr attrs =>
        simp only [hattrs, attributeList, Option.map_some', Option.some.injEq] at h
        subst h
        obtain ⟨hjlt, -, -⟩ := findIndex_some _ _ _ hj
        exact ⟨rfl, Or.inr (Or.inr ⟨hfalse, j, attrs, _, hjlt, rfl, rfl, rfl, rfl⟩)⟩
      | undefined =>
        rw [hattrs] at h
        simp [attributeList] at h
      | null =>
        rw [hattrs] at h
        simp [attributeList] at h
      | bool b =>
        rw [hattrs] at h
        simp [attributeList] at h
      | num q =>
        rw [hattrs] at h
        simp [attributeList] at h
      | nan =>
        rw [hattrs] at h
        simp [attributeList] at h
      | str str =>
        rw [hattrs] at h
        simp [attributeList] at h

theorem storeInv_of_table_ids {s s1 : Store} (hinv : StoreInv s)
    (htable : s1.tableItems.map idOf = s.tableItems.map idOf)
    (hdeleted : (s1.deletedRows.map idOf).Sublist (s.deletedRows.map idOf))
    (hsub : ∀ d ∈ s1.deletedRows, d ∈ s.deletedRows) : StoreInv s1 := by
  refine ⟨uniqueIds_of_map_eq htable hinv.table, uniqueIds_of_sublist hdeleted hinv.deleted,
    ?_, ?_⟩
  · intro d hd hf
    rw [htable]
    exact hinv.apart d (hsub d hd) hf
  · intro d hd
    exact hinv.listed d (hsub d hd)

theorem storeInv_of_append {s s1 : Store} (hinv : StoreInv s) (d restored : Row)
    (hd : d ∈ s.deletedRows) (hfull : isFull d = true) (hid : idOf restored = idOf d)
    (htable : s1.tableItems = s.tableItems ++ [restored])
    (hdeleted : (s1.deletedRows.map idOf).Sublist (s.deletedRows.map idOf))
    (hsub : ∀ d1 ∈ s1.deletedRows, d1 ∈ s.deletedRows ∧ idOf d1 ≠ idOf d) : StoreInv s1 := by
  have hnot : idOf d ∉ s.tableItems.map idOf := hinv.apart d hd hfull
  have hnan : idOf d ≠ Value.nan := by
    intro h
    exact hinv.deleted.2 (h ▸ List.mem_map.2 ⟨d, hd, rfl⟩)
  refine ⟨?_, uniqueIds_of_sublist hdeleted hinv.deleted, ?_, ?_⟩
  · rw [htable]
    unfold UniqueIds
    rw [List.map_append, List.map_cons, List.map_nil, hid]
    refine ⟨?_, ?_⟩
    · rw [List.nodup_append]
      refine ⟨hinv.table.1, by simp, ?_⟩
      intro a ha hb
      rw [List.mem_singleton] at hb
      exact hnot (hb ▸ ha)
    · intro hmem
      rcases List.mem_append.1 hmem with h | h
      · exact hinv.table.2 h
      · rw [List.mem_singleton] at h
        exact hnan h.symm
  · intro d1 hd1 hf hmem
    rw [htable, List.map_append, List.map_cons, List.map_nil, hid] at hmem
    rcases List.mem_append.1 hmem with h | h
    · exact hinv.apart d1 (hsub d1 hd1).1 hf h
    · rw [List.mem_singleton] at h
      exact (hsub d1 hd1).2 h
  · intro d1 hd1
    exact hinv.listed d1 (hsub d1 hd1).1

theorem idOf_ne_of_mem_eraseIdx (l : List Row) (i : Nat) (hi : i < l.length)
    (hl : (l.map idOf).Nodup) (d1 : Row) (hd1 : d1 ∈ l.eraseIdx i) :
    idOf d1 ≠ idOf (l.getD i []) := by
  intro heq
  have h1 : idOf d1 ∈ (l.map idOf).eraseIdx i := by
    rw [← map_eraseIdx]
    exact List.mem_map.2 ⟨d1, hd1, rfl⟩
  have hi1 : i < (l.map idOf).length := by simpa using hi
  have h2 := getElem_not_mem_eraseIdx (l.map idOf) i hi1 hl
  rw [List.getD_eq_getElem _ _ hi] at heq
  rw [List.getElem_map] at h2
  exact h2 (heq ▸ h1)

/-- Action `restoreRow` keeps the invariant. -/
theorem restoreRow_inv (s s1 : Store) (rowId : Value) (hinv : StoreInv s)
    (h : restoreRow s rowId = some s1) : StoreInv s1 := by
  cases hfind : findIndex (fun row => strictEq (getKey row "id") rowId) s.deletedRows with
  | none =>
    rw [restoreRow_absent s rowId hfind, Option.some.injEq] at h
    exact h ▸ hinv
  | some i =>
    obtain ⟨hi, -, -⟩ := findIndex_some _ _ _ hfind
    have hdmem : s.deletedRows.getD i [] ∈ s.deletedRows := by
      rw [List.getD_eq_getElem _ _ hi]
      exact List.getElem_mem _
    obtain ⟨hdel, hcase⟩ := restoreRow_found s s1 rowId i hfind h
    have hsubl : (s1.deletedRows.map idOf).Sublist (s.deletedRows.map idOf) := by
      rw [hdel]
      exact (List.eraseIdx_sublist _ _).map _
    have hsub : ∀ d1 ∈ s1.deletedRows, d1 ∈ s.deletedRows := by
      intro d1 hd1
      rw [hdel] at hd1
      exact List.mem_of_mem_eraseIdx hd1
    rcases hcase with ⟨hfull, restored, htable, hid, -⟩ | ⟨-, htable⟩ |
      ⟨-, j, attrs, restored, hj, -, hattrs, hrestored, htable⟩
    · refine storeInv_of_append hinv _ restored hdmem hfull hid htable hsubl ?_
      intro d1 hd1
      refine ⟨hsub d1 hd1, ?_⟩
      rw [hdel] at hd1
      exact idOf_ne_of_mem_eraseIdx _ i hi hinv.deleted.1 d1 hd1
    · exact storeInv_of_table_ids hinv (by rw [htable]) hsubl hsub
    · refine storeInv_of_table_ids hinv ?_ hsubl hsub
      rw [htable]
      apply map_set_same
      intro hj1
      obtain ⟨l, hl, hex⟩ := hinv.listed _ hdmem
      have heq : attrs = l := by
        rw [hattrs] at hl
        exact Value.arr.inj hl
      subst heq
      have hnot : "id" ∉ attrs := fun hm => hex _ hm (by decide)
      rw [hrestored, idOf, getKey_setKey_ne _ _ _ _ (by decide),
        getKey_restoreAttributes _ _ _ _ hnot, List.getD_eq_getElem _ _ hj]
      rfl

theorem restoreRecord_cases (H : Host) (o : Oracle) (knn : KnnConfig)
    (config : RestoreConfig) (features : List String) (st st1 : RestoreState) (index : Nat)
    (d : Row) (h : restoreRecord H o knn config features st index d = some st1) :
    st1.store = st.store ∨
    ∃ (neighbors : List Neighbor) (restoredRow : Row),
      buildRestoredRow H config features (o.now index) d
        (cleanDecision H (getKey d "decision")) neighbors = some restoredRow ∧
      st1.store = commitRestoredRow st.store d restoredRow := by
  unfold restoreRecord at h
  by_cases hl : isRecognized (cleanDecision H (getKey d "decision")) = true
  · simp only [hl, if_true] at h
    by_cases hp : (sameLabelRows H st.store (cleanDecision H (getKey d "decision"))).length > 0
    · simp only [hp, if_true] at h
      cases hk : findKNN H knn
          (setKey d "decision" (valueOfInt (cleanDecision H (getKey d "decision"))))
          (sameLabelRows H st.store (cleanDecision H (getKey d "decision"))) features with
      | none => simp [hk] at h
      | some neighbors =>
        simp only [hk] at h
        by_cases hn : neighbors.length > 0
        · simp only [hn, if_true] at h
          cases hb : buildRestoredRow H config features (o.now index) d
              (cleanDecision H (getKey d "decision")) neighbors with
          | none => simp [hb] at h
          | some restoredRow =>
            simp only [hb, Option.some.injEq] at h
            subst h
            exact Or.inr ⟨neighbors, restoredRow, hb, rfl⟩
        · simp only [hn, if_false, Option.some.injEq] at h
          subst h
          exact Or.inl rfl
    · simp only [hp, if_false, Option.some.injEq] at h
      subst h
      exact Or.inl rfl
  · simp only [hl, Bool.false_eq_true, if_false, Option.some.injEq] at h
    subst h
    exact Or.inl rfl

theorem idOf_buildRestoredRow (H : Host) (config : RestoreConfig) (features : List String)
    (t : String) (d : Row) (decision : Option Int) (neighbors : List Neighbor)
    (restoredRow : Row) (hfeat : ∀ f ∈ features, f ∉ excludedKeys)
    (hlisted : ∃ l, getKey d "deletedAttributes" = Value.arr l ∧ ∀ a ∈ l, a ∉ excludedKeys)
    (h : buildRestoredRow H config features t d decision neighbors = some restoredRow) :
    idOf restoredRow = idOf d := by
  obtain ⟨l, hl, hex⟩ := hlisted
  have hbase : getKey (restoredRowBase t d decision) "id" = getKey d "id" :=
    getKey_restoredRowBase_other t d decision "id" (by decide)
  cases l with
  | nil =>
    rw [buildRestoredRow_of_no_attributes H config features t d decision neighbors hl,
      Option.some.injEq] at h
    subst h
    have hnot : "id" ∉ features := fun hm => hfeat _ hm (by decide)
    rw [idOf, getKey_foldl_impute H config neighbors (fun f => isMissing H (getKey d f))]
    simp only [hnot, false_and, if_false]
    exact hbase
  | cons a rest =>
    have hnot : "id" ∉ a :: rest := fun hm => hex _ hm (by decide)
    simp only [buildRestoredRow, hl, Option.some.injEq] at h
    subst h
    rw [idOf, getKey_foldl_imputeAll, if_neg hnot]
    exact hbase

theorem commitRestoredRow_inv (s : Store) (d restoredRow : Row) (hinv : StoreInv s)
    (hd : d ∈ s.deletedRows) (hid : idOf restoredRow = idOf d) :
    StoreInv (commitRestoredRow s d restoredRow) ∧
    ∀ d1 ∈ s.deletedRows, idOf d1 ≠ idOf d →
      d1 ∈ (commitRestoredRow s d restoredRow).deletedRows := by
  have hdel : (commitRestoredRow s d restoredRow).deletedRows =
      s.deletedRows.filter (fun row => !(strictEq (getKey row "id") (getKey d "id"))) := rfl
  have hsubl : ((commitRestoredRow s d restoredRow).deletedRows.map idOf).Sublist
      (s.deletedRows.map idOf) := by
    rw [hdel]
    exact (List.filter_sublist _).map _
  have hsub : ∀ d1 ∈ (commitRestoredRow s d restoredRow).deletedRows,
      d1 ∈ s.deletedRows ∧ idOf d1 ≠ idOf d := by
    intro d1 hd1
    rw [hdel] at hd1
    obtain ⟨h1, h2⟩ := List.mem_filter.1 hd1
    refine ⟨h1, ?_⟩
    intro heq
    have hnan : idOf d1 ≠ Value.nan := by
      intro hn
      exact hinv.deleted.2 (hn ▸ List.mem_map.2 ⟨d1, h1, rfl⟩)
    have : strictEq (getKey d1 "id") (getKey d "id") = true :=
      (strictEq_iff _ _).2 ⟨heq, hnan⟩
    rw [this] at h2
    simp at h2
  refine ⟨?_, ?_⟩
  · by_cases hfull : isFull d = true
    · have htable : (commitRestoredRow s d restoredRow).tableItems =
          s.tableItems ++ [restoredRow] := by
        have hf : truthy (getKey d "fullRowDeleted") = true := hfull
        simp only [commitRestoredRow, hf, if_true]
      exact storeInv_of_append hinv d restoredRow hd hfull hid htable hsubl hsub
    · have hf : ¬ truthy (getKey d "fullRowDeleted") = true := hfull
      refine storeInv_of_table_ids hinv ?_ hsubl (fun d1 hd1 => (hsub d1 hd1).1)
      cases hj : findIndex (fun item => strictEq (getKey item "id") (getKey d "id"))
          s.tableItems with
      | none => simp only [commitRestoredRow, hf, Bool.false_eq_true, if_false, hj]
      | some j =>
        simp only [commitRestoredRow, hf, Bool.false_eq_true, if_false, hj]
        apply map_set_same
        intro hj1
        obtain ⟨hjlt, hp, -⟩ := findIndex_some _ _ _ hj
        have := ((strictEq_iff _ _).1 hp).1
        rw [hid]
        exact this.symm
  · intro d1 hd1 hne
    rw [hdel]
    refine List.mem_filter.2 ⟨hd1, ?_⟩
    have : strictEq (getKey d1 "id") (getKey d "id") = false := by
      rw [Bool.eq_false_iff]
      intro h
      exact hne ((strictEq_iff _ _).1 h).1
    rw [this]
    rfl

theorem restoreLoop_inv (H : Host) (o : Oracle) (knn : KnnConfig) (config : RestoreConfig)
    (features : List String) (hfeat : ∀ f ∈ features, f ∉ excludedKeys) (rest : List Row) :
    ∀ (index : Nat) (st st1 : RestoreState), StoreInv st.store →
      (∀ d ∈ rest, d ∈ st.store.deletedRows) → (rest.map idOf).Nodup →
      restoreLoop H o knn config features index rest st = some st1 → StoreInv st1.store := by
  induction rest with
  | nil =>
    intro index st st1 hinv _ _ h
    simp only [restoreLoop, Option.some.injEq] at h
    exact h ▸ hinv
  | cons d rest ih =>
    intro index st st1 hinv hmem hnodup h
    simp only [restoreLoop] at h
    cases hrec : restoreRecord H o knn config features st index d with
    | none => simp [hrec] at h
    | some st2 =>
      rw [hrec, Option.some_bind] at h
      have hdmem : d ∈ st.store.deletedRows := hmem d (List.mem_cons_self _ _)
      have hnd := List.nodup_cons.1 hnodup
      rcases restoreRecord_cases H o knn config features st st2 index d hrec with
        hsame | ⟨neighbors, restoredRow, hbuild, hstore⟩
      · refine ih (index + 1) st2 st1 (hsame ▸ hinv) ?_ hnd.2 h
        intro d1 hd1
        rw [hsame]
        exact hmem d1 (List.mem_cons_of_mem _ hd1)
      · have hid := idOf_buildRestoredRow H config features (o.now index) d _ neighbors
          restoredRow hfeat (hinv.listed d hdmem) hbuild
        obtain ⟨hinv2, hkeep⟩ := commitRestoredRow_inv st.store d restoredRow hinv hdmem hid
        refine ih (index + 1) st2 st1 (hstore ▸ hinv2) ?_ hnd.2 h
        intro d1 hd1
        rw [hstore]
        refine hkeep d1 (hmem d1 (List.mem_cons_of_mem _ hd1)) ?_
        intro heq
        exact hnd.1 (heq ▸ List.mem_map.2 ⟨d1, hd1, rfl⟩)

theorem restoreFeatures_eligible (s : Store) : ∀ f ∈ restoreFeatures s, f ∉ excludedKeys :=
  fun f hf => ((mem_eligibleAttributes _ f).1 hf).2

theorem restoreData_inv (H : Host) (o : Oracle) (knn : KnnConfig) (config : RestoreConfig)
    (s : Store) (result : RestoreResult) (hinv : StoreInv s)
    (h : restoreData H o knn config s = some result) : StoreInv result.store := by
  unfold restoreData at h
  split_ifs at h
  · simp only [Option.some.injEq] at h
    subst h
    exact hinv
  · simp only [Option.map_eq_some'] at h
    obtain ⟨st1, hloop, rfl⟩ := h
    exact restoreLoop_inv H o (applyConfig knn config) config (restoreFeatures s)
      (restoreFeatures_eligible s) s.deletedRows 0 _ st1 hinv (fun d hd => hd)
      hinv.deleted.1 hloop

theorem reachable_inv (H : Host) (s : Store) (h : Reachable H s) : StoreInv s := by
  induction h with
  | load items hids => exact addTableItems_inv items hids
  | delete o hvalid s d _ ih => exact deleteTableRows_inv o hvalid s d ih.table
  | restoreOne s s1 rowId _ hrow ih => exact restoreRow_inv s s1 rowId ih hrow
  | restoreAll o knn config s result _ hdata ih =>
    exact restoreData_inv H o knn config s result ih hdata

/-- C4, amended: in every state reachable from a loaded table with unique ids
by `deleteTableRows`, `restoreRow` and `restoreData`, a record that is in the
deleted partition with `fullRowDeleted` set has no record with its id in
`tableItems`, hence none in the active view; both partitions have unique
ids. (A partially deleted record stays in the table, with status `removed`,
next to its snapshot in the deleted partition.) -/
theorem reachable_full_deleted_apart (H : Host) (s : Store) (h : Reachable H s) :
    (∀ d ∈ s.deletedRows, truthy (getKey d "fullRowDeleted") = true →
      (∀ row ∈ s.tableItems, getKey row "id" ≠ getKey d "id") ∧
      ∀ row ∈ getActiveRows s, getKey row "id" ≠ getKey d "id") ∧
    UniqueIds s.tableItems ∧ UniqueIds s.deletedRows := by
  have hinv := reachable_inv H s h
  refine ⟨?_, hinv.table, hinv.deleted⟩
  intro d hd hfull
  have hnot := hinv.apart d hd hfull
  have key : ∀ row ∈ s.tableItems, getKey row "id" ≠ getKey d "id" := by
    intro row hrow heq
    exact hnot (List.mem_map.2 ⟨row, hrow, heq⟩)
  exact ⟨key, fun row hrow => key row (List.mem_filter.1 hrow).1⟩

/-- C4, amended, at the example: the store after the full deletion of the
record 1 of the example table. -/
theorem reachable_full_deleted_apart_witness :
    (∀ d ∈ exampleFullBatch.deletedRows, truthy (getKey d "fullRowDeleted") = true →
      (∀ row ∈ exampleFullBatch.tableItems, getKey row "id" ≠ getKey d "id") ∧
      ∀ row ∈ getActiveRows exampleFullBatch, getKey row "id" ≠ getKey d "id") ∧
    UniqueIds exampleFullBatch.tableItems ∧ UniqueIds exampleFullBatch.deletedRows :=
  reachable_full_deleted_apart exampleHost exampleFullBatch
    (Reachable.delete exampleOracle exampleOracle_valid _ _
      (Reachable.load exampleTable (by decide)))

/-! ## Deleting and restoring every record -/

theorem countP_eraseIdx {α : Type} (p : α → Bool) (l : List α) (i : Nat) (h : i < l.length) :
    (l.eraseIdx i).countP p + (if p l[i] then 1 else 0) = l.countP p := by
  induction l generalizing i with
  | nil => simp at h
  | cons a t ih =>
    cases i with
    | zero =>
      simp only [List.eraseIdx_cons_zero, List.getElem_cons_zero, List.countP_cons]
    | succ j =>
      have hj : j < t.length := by simpa using h
      have := ih j hj
      simp only [List.eraseIdx_cons_succ, List.getElem_cons_succ, List.countP_cons]
      omega

theorem countP_set_same {α : Type} (p : α → Bool) (l : List α) (j : Nat) (x : α)
    (h : ∀ hj : j < l.length, p x = p l[j]) : (l.set j x).countP p = l.countP p := by
  induction l generalizing j with
  | nil => rfl
  | cons a t ih =>
    cases j with
    | zero =>
      have := h (by simp)
      simp only [List.getElem_cons_zero] at this
      simp only [List.set_cons_zero, List.countP_cons, this]
    | succ k =>
      simp only [List.set_cons_succ, List.countP_cons]
      rw [ih k (fun hk => by simpa using h (by simpa using hk))]

theorem isActive_restored (row : Row) :
    isActive (setKey row "status" (Value.str "restored")) = true := by
  simp [isActive, getKey_setKey, strictEq]

/-- A `restoreRow` that finds its record keeps the sum of the number of active
rows and the number of records deleted as whole rows. -/
theorem restoreRow_measure (s s1 : Store) (rowId : Value) (i : Nat) (hinv : StoreInv s)
    (hact : PartialActive s)
    (hfind : findIndex (fun row => strictEq (getKey row "id") rowId) s.deletedRows = some i)
    (h : restoreRow s rowId = some s1) :
    PartialActive s1 ∧
    s1.tableItems.countP isActive + s1.deletedRows.countP isFull =
      s.tableItems.countP isActive + s.deletedRows.countP isFull := by
  obtain ⟨hi, hp, -⟩ := findIndex_some _ _ _ hfind
  have hdmem : s.deletedRows.getD i [] ∈ s.deletedRows := by
    rw [List.getD_eq_getElem _ _ hi]
    exact List.getElem_mem _
  have hdid : idOf (s.deletedRows.getD i []) = rowId := by
    rw [List.getD_eq_getElem _ _ hi]
    exact ((strictEq_iff _ _).1 hp).1
  obtain ⟨hdel, hcase⟩ := restoreRow_found s s1 rowId i hfind h
  have hcount := countP_eraseIdx isFull s.deletedRows i hi
  rw [← List.getD_eq_getElem _ [] hi] at hcount
  have hsub : ∀ d1 ∈ s1.deletedRows, d1 ∈ s.deletedRows := by
    intro d1 hd1
    rw [hdel] at hd1
    exact List.mem_of_mem_eraseIdx hd1
  rcases hcase with ⟨hfull, restored, htable, hid, hactive⟩ | ⟨hfull, htable⟩ |
    ⟨hfull, j, attrs, restored, hj, hfj, hattrs, hrestored, htable⟩
  · refine ⟨?_, ?_⟩
    · intro d1 hd1 hf1 row hrow heq
      rw [htable] at hrow
      rcases List.mem_append.1 hrow with hr | hr
      · exact hact d1 (hsub d1 hd1) hf1 row hr heq
      · rw [List.mem_singleton] at hr
        subst hr
        rw [hdel] at hd1
        exact absurd (heq.symm.trans hid)
          (idOf_ne_of_mem_eraseIdx _ i hi hinv.deleted.1 d1 hd1)
    · rw [htable, hdel, List.countP_append]
      simp only [hfull, if_true] at hcount
      simp only [List.countP_cons, List.countP_nil, hactive, if_true]
      omega
  · refine ⟨?_, ?_⟩
    · intro d1 hd1 hf1 row hrow heq
      rw [htable] at hrow
      exact hact d1 (hsub d1 hd1) hf1 row hrow heq
    · rw [htable, hdel]
      simp only [hfull, Bool.false_eq_true, if_false] at hcount
      omega
  · have hrestoredActive : isActive restored = true := by
      rw [hrestored]
      exact isActive_restored _
    refine ⟨?_, ?_⟩
    · intro d1 hd1 hf1 row hrow heq
      rw [htable] at hrow
      rcases List.mem_or_eq_of_mem_set hrow with hr | hr
      · exact hact d1 (hsub d1 hd1) hf1 row hr heq
      · rw [hr]
        exact hrestoredActive
    · have hsame : (s.tableItems.set j restored).countP isActive =
          s.tableItems.countP isActive := by
        apply countP_set_same
        intro hj1
        rw [hrestoredActive]
        obtain ⟨_, hpj, -⟩ := findIndex_some _ _ _ hfj
        have hidj : idOf s.tableItems[j] = idOf (s.deletedRows.getD i []) := by
          rw [hdid]
          exact ((strictEq_iff _ _).1 hpj).1
        exact (hact _ hdmem hfull _ (List.getElem_mem _) hidj).symm
      rw [htable, hdel, hsame]
      simp only [hfull, Bool.false_eq_true, if_false] at hcount
      omega

theorem attributesRecorded_of_inv {s : Store} (hinv : StoreInv s) : AttributesRecorded s := by
  intro d hd
  obtain ⟨l, hl, -⟩ := hinv.listed d hd
  exact ⟨l, hl⟩

/-- Restoring, in order, every id of the deleted partition empties it and
turns each record deleted as a whole row into one more active row. -/
theorem restoreRows_all (l : List Row) :
    ∀ s : Store, StoreInv s → PartialActive s → s.deletedRows = l →
      ∃ s2, restoreRows s (l.map idOf) = some s2 ∧ s2.deletedRows = [] ∧
        s2.tableItems.countP isActive =
          s.tableItems.countP isActive + s.deletedRows.countP isFull := by
  induction l with
  | nil =>
    intro s _ _ hl
    exact ⟨s, rfl, hl, by simp [hl]⟩
  | cons d t ih =>
    intro s hinv hact hl
    have hnan : idOf d ≠ Value.nan := by
      intro h
      exact hinv.deleted.2 (by rw [hl, ← h]; exact List.mem_map.2 ⟨d, List.mem_cons_self _ _, rfl⟩)
    have hfind : findIndex (fun row => strictEq (getKey row "id") (idOf d)) s.deletedRows =
        some 0 := by
      have hself : strictEq (getKey d "id") (idOf d) = true := (strictEq_iff _ _).2 ⟨rfl, hnan⟩
      rw [hl]
      simp only [findIndex, hself, if_true]
    obtain ⟨s1, h1, h2, -⟩ :=
      restoreRow_present s (idOf d) 0 (attributesRecorded_of_inv hinv) hfind
    have hinv1 := restoreRow_inv s s1 (idOf d) hinv h1
    obtain ⟨hact1, hmeasure⟩ := restoreRow_measure s s1 (idOf d) 0 hinv hact hfind h1
    have hl1 : s1.deletedRows = t := by
      rw [h2, hl]
      rfl
    obtain ⟨s2, k1, k2, k3⟩ := ih s1 hinv1 hact1 hl1
    refine ⟨s2, ?_, k2, ?_⟩
    · simp only [List.map_cons, restoreRows, h1, Option.some_bind]
      exact k1
    · rw [k3]
      exact hmeasure

theorem countP_filter_removed (ids : List Value) (rows : List Row)
    (hact : ∀ row ∈ rows, includes ids (getKey row "id") = true → isActive row = true) :
    (rows.filter (fun row => !(includes ids (getKey row "id")))).countP isActive +
        (rows.filter (fun row => includes ids (getKey row "id"))).length =
      rows.countP isActive := by
  induction rows with
  | nil => rfl
  | cons row rest ih =>
    have ih1 := ih (fun r hr => hact r (List.mem_cons_of_mem _ hr))
    by_cases hin : includes ids (getKey row "id") = true
    · have ha := hact row (List.mem_cons_self _ _) hin
      simp only [List.filter_cons, hin, Bool.not_true, Bool.false_eq_true, if_false, if_true,
        List.length_cons, List.countP_cons, ha]
      omega
    · have hin1 : includes ids (getKey row "id") = false := by simpa using hin
      simp only [List.filter_cons, hin1, Bool.not_false, if_true, Bool.false_eq_true, if_false,
        List.countP_cons]
      omega

theorem countP_cleared (o : Oracle) (ids : List Value) (propertyQuantity : Int)
    {rows rows1 : List Row} (h : List.Forall₂ (IsClearedRow o ids propertyQuantity) rows rows1)
    (hact : ∀ row ∈ rows, includes ids (getKey row "id") = true → isActive row = true) :
    rows1.countP isActive = rows.countP isActive := by
  induction h with
  | nil => rfl
  | @cons row row1 rest rest1 hrow _ ih =>
    have ih1 := ih (fun r hr => hact r (List.mem_cons_of_mem _ hr))
    have hsame : isActive row1 = isActive row := by
      unfold IsClearedRow at hrow
      by_cases hin : includes ids (getKey row "id") = true
      · rw [if_pos hin] at hrow
        obtain ⟨i, rfl⟩ := hrow
        rw [isActive_clearRowAttributes, hact row (List.mem_cons_self _ _) hin]
      · rw [if_neg hin] at hrow
        rw [hrow]
    simp only [List.countP_cons, hsame, ih1]

/-- The deletion of a batch keeps the sum of the number of active rows and the
number of records deleted as whole rows, when every targeted row is active. -/
theorem processDeletions_measure (o : Oracle) (hvalid : o.Valid) (s : Store)
    (ids : List Value) (propertyQuantity : Int) (forceRowDeletion : Bool)
    (hempty : s.deletedRows = [])
    (hact : ∀ row ∈ s.tableItems, includes ids (getKey row "id") = true →
      isActive row = true) :
    PartialActive (processDeletions o s ids propertyQuantity forceRowDeletion) ∧
    (processDeletions o s ids propertyQuantity forceRowDeletion).tableItems.countP isActive +
        (processDeletions o s ids propertyQuantity forceRowDeletion).deletedRows.countP isFull =
      s.tableItems.countP isActive := by
  by_cases hfull : (forceRowDeletion ||
      decide (propertyQuantity > ATTRIBUTE_DELETION_THRESHOLD)) = true
  · obtain ⟨h1, marked, h2, h3, -⟩ := deleteFullRows_spec o ids s.tableItems s
    rw [hempty, List.nil_append] at h2
    have hallfull : ∀ d ∈ marked, isFull d = true := by
      intro d hd
      obtain ⟨row0, -, hsnap⟩ := forall₂_mem_right h3 hd
      simp [isFull, hsnap.1, truthy]
    rw [processDeletions_removing o s ids propertyQuantity forceRowDeletion hfull]
    refine ⟨?_, ?_⟩
    · intro d hd hf
      change d ∈ (deleteFullRows o ids s.tableItems s).2.deletedRows at hd
      rw [h2] at hd
      rw [hallfull d hd] at hf
      exact absurd hf (by decide)
    · show List.countP isActive (deleteFullRows o ids s.tableItems s).1 +
        List.countP isFull (deleteFullRows o ids s.tableItems s).2.deletedRows = _
      rw [h1, h2, List.countP_eq_length.2 hallfull, ← h3.length_eq]
      exact countP_filter_removed ids s.tableItems hact
  · obtain ⟨h0, marked, h2, h3, -⟩ := clearRows_spec o ids propertyQuantity 0 s.tableItems s
    rw [hempty, List.nil_append] at h2
    have hnonefull : ∀ d ∈ marked, isFull d = false := by
      intro d hd
      obtain ⟨row0, -, t, i, rfl⟩ := forall₂_mem_right h3 hd
      exact isFull_deletedRowOf _ _ _ _
    rw [processDeletions_clearing o s ids propertyQuantity forceRowDeletion hfull]
    refine ⟨?_, ?_⟩
    · intro d hd _ row1 hrow1 heq
      change d ∈ (clearRows o ids propertyQuantity 0 s.tableItems s).2.deletedRows at hd
      change row1 ∈ (clearRows o ids propertyQuantity 0 s.tableItems s).1 at hrow1
      rw [h2] at hd
      obtain ⟨row0, hrow0, hsnap⟩ := forall₂_mem_right h3 hd
      obtain ⟨row, -, hcleared⟩ := forall₂_mem_right h0 hrow1
      have hid : getKey row "id" = getKey row0 "id" := by
        have e1 := idOf_of_isClearedRow hvalid hcleared
        have e2 := idOf_of_isPartialSnapshot hsnap
        unfold idOf at e1 e2 heq
        rw [e1, heq, e2]
      have hin : includes ids (getKey row "id") = true := by
        rw [hid]
        exact (List.mem_filter.1 hrow0).2
      unfold IsClearedRow at hcleared
      rw [if_pos hin] at hcleared
      obtain ⟨i, rfl⟩ := hcleared
      exact isActive_clearRowAttributes _ _ _
    · show List.countP isActive (clearRows o ids propertyQuantity 0 s.tableItems s).1 +
        List.countP isFull (clearRows o ids propertyQuantity 0 s.tableItems s).2.deletedRows = _
      rw [h2, countP_cleared o ids propertyQuantity h0 hact]
      have : List.countP isFull marked = 0 := by
        rw [List.countP_eq_zero]
        intro d hd
        rw [hnonefull d hd]
        decide
      rw [this]
      rfl

theorem active_of_randomIndices (o : Oracle) (hsample : ∀ l n, IsSample (o.sampleRows l n) l n)
    (s : Store) (rowQuantity : Int) (hids : (s.tableItems.map idOf).Nodup) :
    ∀ row ∈ s.tableItems, includes (randomIndices o s rowQuantity) (getKey row "id") = true →
      isActive row = true := by
  intro row hrow hin
  rw [includes_iff] at hin
  obtain ⟨i, hi, heq⟩ := List.mem_map.1 hin
  obtain ⟨hlt, hactive⟩ := mem_validIndices s i ((hsample _ _).1.subset hi)
  have hmem : s.tableItems.getD i [] ∈ s.tableItems := by
    rw [List.getD_eq_getElem _ _ hlt]
    exact List.getElem_mem _
  have hsame : s.tableItems.getD i [] = row :=
    List.inj_on_of_nodup_map hids hmem hrow heq
  rw [← hsame]
  exact (List.mem_filter.1 hactive).2

theorem active_of_validIds (s : Store) (rows : List Value)
    (hids : (s.tableItems.map idOf).Nodup) :
    ∀ row ∈ s.tableItems,
      includes (rows.filter (fun id =>
        s.tableItems.any (fun item =>
          strictEq (getKey item "id") id &&
            !(strictEq (getKey item "status") (Value.str "deleted")))))
        (getKey row "id") = true →
      isActive row = true := by
  intro row hrow hin
  rw [includes_iff] at hin
  obtain ⟨-, hany⟩ := List.mem_filter.1 hin
  rw [List.any_eq_true] at hany
  obtain ⟨item, hitem, hp⟩ := hany
  rw [Bool.and_eq_true] at hp
  have hsame : item = row :=
    List.inj_on_of_nodup_map hids hitem hrow ((strictEq_iff _ _).1 hp.1).1
  rw [← hsame]
  exact hp.2

theorem deleteTableRows_measure (o : Oracle) (hvalid : o.Valid) (s : Store) (d : DeleteData)
    (hids : UniqueIds s.tableItems) :
    PartialActive (deleteTableRows o s d) ∧
    (deleteTableRows o s d).tableItems.countP isActive +
        (deleteTableRows o s d).deletedRows.countP isFull =
      s.tableItems.countP isActive := by
  unfold deleteTableRows
  split_ifs
  · exact processDeletions_measure o hvalid _ _ _ _ rfl
      (active_of_randomIndices o hvalid.1 _ d.rowQuantity hids.1)
  · exact processDeletions_measure o hvalid _ _ _ _ rfl
      (active_of_validIds _ d.rows hids.1)

/-- C5: on a table with unique ids (pairwise distinct, none `NaN`), for every
deletion request (random or explicit, partial or full) and every outcome of
the sampler, `deleteTableRows` followed by one `restoreRow` for every id of
the resulting deleted partition does not throw, leaves the deleted partition
empty, and leaves as many active records as there were before the
deletion. -/
theorem delete_then_restore_all (o : Oracle) (hvalid : o.Valid) (s : Store) (d : DeleteData)
    (hids : UniqueIds s.tableItems) :
    ∃ s2, restoreRows (deleteTableRows o s d)
        ((deleteTableRows o s d).deletedRows.map (fun row => getKey row "id")) = some s2 ∧
      s2.deletedRows = [] ∧
      (getActiveRows s2).length = (getActiveRows s).length := by
  have hinv := deleteTableRows_inv o hvalid s d hids
  obtain ⟨hact, hmeasure⟩ := deleteTableRows_measure o hvalid s d hids
  obtain ⟨s2, h1, h2, h3⟩ :=
    restoreRows_all (deleteTableRows o s d).deletedRows (deleteTableRows o s d) hinv hact rfl
  refine ⟨s2, h1, h2, ?_⟩
  rw [getActiveRows_eq, getActiveRows_eq, ← List.countP_eq_length_filter,
    ← List.countP_eq_length_filter, h3]
  exact hmeasure

/-- C5 at the example: the random request for two rows on the example
store. -/
theorem delete_then_restore_all_witness :
    UniqueIds exampleStore.tableItems ∧
    ∃ s2, restoreRows (deleteTableRows exampleOracle exampleStore exampleRandomRequest)
        ((deleteTableRows exampleOracle exampleStore exampleRandomRequest).deletedRows.map
          (fun row => getKey row "id")) = some s2 ∧
      s2.deletedRows = [] ∧
      (getActiveRows s2).length = (getActiveRows exampleStore).length :=
  ⟨by decide,
    delete_then_restore_all exampleOracle exampleOracle_valid exampleStore exampleRandomRequest
      (by decide)⟩

/-! ## The sizes of the folds -/

theorem fold_size_cases (n i : Nat) (hi : i < folds) :
    testEnd n i - testStart n i = n / 10 ∨ testEnd n i - testStart n i = (n + 9) / 10 := by
  simp only [folds] at hi
  simp only [testStart, testEnd, folds]
  interval_cases i <;> omega

/-- C28: for every sequence of `n` records, each of the ten test slices
`[floor(i*n/10), floor((i+1)*n/10))` holds `floor(n/10)` or `ceil(n/10)`
records, the latter being at most one more than the former, so that the
sizes of any two folds differ by at most one. -/
theorem fold_sizes_differ_by_at_most_one {α : Type} (shuffled : List α) :
    (shuffled.length + 9) / 10 ≤ shuffled.length / 10 + 1 ∧
    (∀ i, i < folds →
      (testData shuffled i).length = testEnd shuffled.length i - testStart shuffled.length i ∧
      ((testData shuffled i).length = shuffled.length / 10 ∨
        (testData shuffled i).length = (shuffled.length + 9) / 10)) ∧
    ∀ i j, i < folds → j < folds →
      (testData shuffled i).length ≤ (testData shuffled j).length + 1 := by
  refine ⟨by omega, fun i hi => ⟨length_testData shuffled i hi, ?_⟩, fun i j hi hj => ?_⟩
  · rw [length_testData shuffled i hi]
    exact fold_size_cases _ i hi
  · rw [length_testData shuffled i hi, length_testData shuffled j hj]
    have h1 := fold_size_cases shuffled.length i hi
    have h2 := fold_size_cases shuffled.length j hj
    omega

/-- C29: the test slice of every one of the ten folds is non-empty exactly
when the evaluation sequence holds at least ten records, and the normalized
test set `normTest` of a fold has as many records as its test slice; so the
divisor `normTest.length` of the accuracy of a fold is never zero for
`n >= 10`, whereas for every `n < 10` the slice of some fold is empty. -/
theorem folds_nonempty_iff_ten_records (H : Host) (shuffled : List Row) (method : String)
    (features : List String) :
    ((∀ i, i < folds →
      (normalizeData H (trainData shuffled i) (testData shuffled i) method
        features).test.length ≠ 0) ↔ 10 ≤ shuffled.length) ∧
    ((∃ i, i < folds ∧ testData shuffled i = []) ↔ shuffled.length < 10) := by
  have hlen : ∀ i, (normalizeData H (trainData shuffled i) (testData shuffled i) method
      features).test.length = (testData shuffled i).length := by
    intro i
    simp [normalizeData]
  have hpos : 10 ≤ shuffled.length → ∀ i, i < folds → (testData shuffled i).length ≠ 0 := by
    intro h i hi
    rw [length_testData shuffled i hi]
    simp only [folds] at hi
    simp only [testStart, testEnd, folds]
    interval_cases i <;> omega
  have hzero : shuffled.length < 10 → (testData shuffled 0).length = 0 := by
    intro h
    rw [length_testData shuffled 0 (by decide)]
    simp only [testStart, testEnd, folds]
    omega
  constructor
  · constructor
    · intro h
      by_contra hn
      have h0 := h 0 (by decide)
      rw [hlen] at h0
      exact h0 (hzero (by omega))
    · intro h i hi
      rw [hlen]
      exact hpos h i hi
  · constructor
    · rintro ⟨i, hi, he⟩
      by_contra hn
      exact hpos (by omega) i hi (by rw [he]; rfl)
    · intro h
      exact ⟨0, by decide, List.length_eq_zero.mp (hzero h)⟩

/-! ## The median -/

theorem median_perm_aux {l1 l2 : List ℚ} (h : l1.Perm l2) :
    l1.insertionSort (fun a b => a ≤ b) = l2.insertionSort (fun a b => a ≤ b) := by
  have h1 : (l1.insertionSort (fun a b => a ≤ b)).Perm (l2.insertionSort (fun a b => a ≤ b)) :=
    ((List.perm_insertionSort _ l1).trans h).trans (List.perm_insertionSort _ l2).symm
  exact List.eq_of_perm_of_sorted (r := fun (a b : ℚ) => a ≤ b) h1
    (List.sorted_insertionSort _ l1) (List.sorted_insertionSort _ l2)

theorem getD_mem_bounds (values sorted : List ℚ) (hp : sorted.Perm values) (i : Nat)
    (hi : i < sorted.length) :
    sorted[i]? = some (sorted.getD i 0) ∧ minOf values ≤ sorted.getD i 0 ∧
      sorted.getD i 0 ≤ maxOf values := by
  have h1 : sorted[i]? = some (sorted.get ⟨i, hi⟩) := List.getElem?_eq_getElem hi
  have h2 : sorted.getD i 0 = sorted.get ⟨i, hi⟩ := by
    rw [List.getD_eq_getElem?_getD, h1]
    rfl
  have h3 : sorted.get ⟨i, hi⟩ ∈ values := hp.subset (List.get_mem _ _ _)
  rw [h2]
  exact ⟨h1, minOf_le _ _ h3, le_maxOf _ _ h3⟩

/-- C27: for every non-empty list of numbers, with `sorted` its ascending
rearrangement, `median` returns `sorted[floor(n/2)]` when the length `n` is
odd and the average of `sorted[n/2 - 1]` and `sorted[n/2]` when it is even;
the result is the same for every permutation of the input and lies between
the minimum and the maximum of the list. -/
theorem median_spec (values : List ℚ) (h : values ≠ []) :
    ∃ sorted : List ℚ, sorted.Perm values ∧ sorted.Sorted (fun a b => a ≤ b) ∧
      (values.length % 2 = 1 →
        ∃ a, sorted[values.length / 2]? = some a ∧ median values = Value.num a) ∧
      (values.length % 2 = 0 →
        ∃ a b, sorted[values.length / 2 - 1]? = some a ∧
          sorted[values.length / 2]? = some b ∧ median values = Value.num ((a + b) / 2)) ∧
      (∀ other : List ℚ, other.Perm values → median other = median values) ∧
      ∃ m, median values = Value.num m ∧ minOf values ≤ m ∧ m ≤ maxOf values := by
  have hp := List.perm_insertionSort (fun (a b : ℚ) => a ≤ b) values
  have hlen := List.length_insertionSort (fun (a b : ℚ) => a ≤ b) values
  have hpos : 0 < values.length := List.length_pos.2 h
  have hmid : values.length / 2 < (values.insertionSort (fun a b => a ≤ b)).length := by
    rw [hlen]
    omega
  have hmid1 : values.length / 2 - 1 < (values.insertionSort (fun a b => a ≤ b)).length := by
    rw [hlen]
    omega
  obtain ⟨g1, g2, g3⟩ := getD_mem_bounds values _ hp _ hmid
  obtain ⟨k1, k2, k3⟩ := getD_mem_bounds values _ hp _ hmid1
  have hodd : values.length % 2 = 1 →
      median values = Value.num ((values.insertionSort (fun a b => a ≤ b)).getD
        (values.length / 2) 0) := by
    intro h1
    simp only [median, hlen]
    rw [if_neg (by omega), if_pos (by omega)]
  have heven : values.length % 2 = 0 →
      median values = Value.num (((values.insertionSort (fun a b => a ≤ b)).getD
        (values.length / 2 - 1) 0 + (values.insertionSort (fun a b => a ≤ b)).getD
        (values.length / 2) 0) / 2) := by
    intro h1
    simp only [median, hlen]
    rw [if_neg (by omega), if_neg (by omega)]
  refine ⟨values.insertionSort (fun a b => a ≤ b), hp, List.sorted_insertionSort _ values,
    fun h1 => ⟨_, g1, hodd h1⟩, fun h1 => ⟨_, _, k1, g1, heven h1⟩, ?_, ?_⟩
  · intro other ho
    simp only [median, median_perm_aux ho]
  · rcases Nat.mod_two_eq_zero_or_one values.length with h1 | h1
    · refine ⟨_, heven h1, ?_, ?_⟩
      · linarith
      · linarith
    · exact ⟨_, hodd h1, g2, g3⟩

/-- C27 at the list `[3, 1, 2]`, whose median is `2`. -/
theorem median_spec_witness :
    ([3, 1, 2] : List ℚ) ≠ [] ∧
    ∃ sorted : List ℚ, sorted.Perm [3, 1, 2] ∧ sorted.Sorted (fun a b => a ≤ b) ∧
      (([3, 1, 2] : List ℚ).length % 2 = 1 →
        ∃ a, sorted[([3, 1, 2] : List ℚ).length / 2]? = some a ∧
          median [3, 1, 2] = Value.num a) ∧
      (([3, 1, 2] : List ℚ).length % 2 = 0 →
        ∃ a b, sorted[([3, 1, 2] : List ℚ).length / 2 - 1]? = some a ∧
          sorted[([3, 1, 2] : List ℚ).length / 2]? = some b ∧
          median [3, 1, 2] = Value.num ((a + b) / 2)) ∧
      (∀ other : List ℚ, other.Perm [3, 1, 2] → median other = median [3, 1, 2]) ∧
      ∃ m, median [3, 1, 2] = Value.num m ∧ minOf [3, 1, 2] ≤ m ∧ m ≤ maxOf [3, 1, 2] :=
  ⟨by decide, median_spec [3, 1, 2] (by decide)⟩

/-- The medians of a list of odd and of a list of even length. -/
theorem median_example :
    median [3, 1, 2] = Value.num 2 ∧ median [4, 1, 3, 2] = Value.num (5 / 2) := by
  decide!

/-! ## The distance functions -/

theorem accumulate_foldl {α : Type} (H : Host) (x y : Row) (features : List String)
    (step : α → ℚ → ℚ → α) (P : α → Prop) (hstep : ∀ s a b, P s → P (step s a b))
    (init : α × Nat) (hinit : P init.1) :
    P (features.foldl
      (fun acc f =>
        match toNumber H (getKey x f), toNumber H (getKey y f) with
        | some a, some b => (step acc.1 a b, acc.2 + 1)
        | _, _ => acc) init).1 ∧
    (features.foldl
      (fun acc f =>
        match toNumber H (getKey x f), toNumber H (getKey y f) with
        | some a, some b => (step acc.1 a b, acc.2 + 1)
        | _, _ => acc) init).2 = init.2 + features.countP (bothNumbers H x y) := by
  induction features generalizing init with
  | nil => exact ⟨hinit, rfl⟩
  | cons f l ih =>
    rw [List.foldl_cons]
    cases hx : toNumber H (getKey x f) with
    | none =>
      have hb : bothNumbers H x y f = false := by simp [bothNumbers, isNaN, hx]
      obtain ⟨h1, h2⟩ := ih init hinit
      simp only [List.countP_cons, hb]
      exact ⟨h1, by rw [h2]; simp⟩
    | some a =>
      cases hy : toNumber H (getKey y f) with
      | none =>
        have hb : bothNumbers H x y f = false := by simp [bothNumbers, isNaN, hy]
        obtain ⟨h1, h2⟩ := ih init hinit
        simp only [List.countP_cons, hb]
        exact ⟨h1, by rw [h2]; simp⟩
      | some b =>
        have hb : bothNumbers H x y f = true := by simp [bothNumbers, isNaN, hx, hy]
        obtain ⟨h1, h2⟩ := ih (step init.1 a b, init.2 + 1) (hstep _ _ _ hinit)
        simp only [List.countP_cons, hb]
        exact ⟨h1, by rw [h2]; simp; omega⟩

theorem accumulate_spec {α : Type} (H : Host) (x y : Row) (features : List String)
    (step : α → ℚ → ℚ → α) (init : α) (P : α → Prop) (hinit : P init)
    (hstep : ∀ s a b, P s → P (step s a b)) :
    P (accumulate H x y features step init).1 ∧
    (accumulate H x y features step init).2 = features.countP (bothNumbers H x y) := by
  have h := accumulate_foldl H x y features step P hstep (init, 0) hinit
  rw [Nat.zero_add] at h
  exact h

theorem countP_bothNumbers_eq_zero (H : Host) (x y : Row) (features : List String) :
    features.countP (bothNumbers H x y) = 0 ↔
      ∀ f ∈ features, ¬ (isNaN H (getKey x f) = false ∧ isNaN H (getKey y f) = false) := by
  rw [List.countP_eq_zero]
  simp [bothNumbers]

theorem euclidean_cases (H : Host) (x y : Row) (features : List String)
    (hsqrt : ∀ q : ℚ, 0 ≤ q → 0 ≤ H.sqrt q) :
    (euclidean H x y features = Dist.inf ↔ features.countP (bothNumbers H x y) = 0) ∧
    ∀ q, euclidean H x y features = Dist.fin q → 0 ≤ q := by
  obtain ⟨h1, h2⟩ := accumulate_spec H x y features (fun sum a b => sum + (a - b) ^ 2) (0 : ℚ)
    (fun s => 0 ≤ s) le_rfl (fun s a b hs => add_nonneg hs (sq_nonneg _))
  unfold euclidean
  simp only [h2]
  by_cases hc : features.countP (bothNumbers H x y) > 0
  · rw [if_pos hc]
    refine ⟨⟨fun h => (by cases h), fun h => by omega⟩, ?_⟩
    intro q hq
    cases hq
    exact hsqrt _ (div_nonneg h1 (Nat.cast_nonneg _))
  · rw [if_neg hc]
    exact ⟨⟨fun _ => by omega, fun _ => rfl⟩, fun q hq => by cases hq⟩

theorem manhattan_cases (H : Host) (x y : Row) (features : List String) :
    (manhattan H x y features = Dist.inf ↔ features.countP (bothNumbers H x y) = 0) ∧
    ∀ q, manhattan H x y features = Dist.fin q → 0 ≤ q := by
  obtain ⟨h1, h2⟩ := accumulate_spec H x y features (fun sum a b => sum + |a - b|) (0 : ℚ)
    (fun s => 0 ≤ s) le_rfl (fun s a b hs => add_nonneg hs (abs_nonneg _))
  unfold manhattan
  simp only [h2]
  by_cases hc : features.countP (bothNumbers H x y) > 0
  · rw [if_pos hc]
    refine ⟨⟨fun h => (by cases h), fun h => by omega⟩, ?_⟩
    intro q hq
    cases hq
    exact div_nonneg h1 (Nat.cast_nonneg _)
  · rw [if_neg hc]
    exact ⟨⟨fun _ => by omega, fun _ => rfl⟩, fun q hq => by cases hq⟩

theorem cosine_eq (H : Host) (x y : Row) (features : List String) :
    cosine H x y features =
      if (cosineSums H x y features).2 = 0 then Dist.inf
      else Dist.fin (1 - (cosineSums H x y features).1.1 /
        (H.sqrt (cosineSums H x y features).1.2.1 * H.sqrt (cosineSums H x y features).1.2.2 +
          1 / 10000000000)) :=
  rfl

theorem cosine_cases (H : Host) (x y : Row) (features : List String) :
    (cosine H x y features = Dist.inf ↔ features.countP (bothNumbers H x y) = 0) ∧
    ((∀ q : ℚ, 0 ≤ q → 0 ≤ H.sqrt q) →
      (cosineSums H x y features).1.1 ≤
        H.sqrt (cosineSums H x y features).1.2.1 * H.sqrt (cosineSums H x y features).1.2.2 →
      ∀ q, cosine H x y features = Dist.fin q → 0 < q) := by
  obtain ⟨h1, h2⟩ := accumulate_spec H x y features
    (fun (t : ℚ × ℚ × ℚ) a b => (t.1 + a * b, t.2.1 + a ^ 2, t.2.2 + b ^ 2)) (0, 0, 0)
    (fun t => 0 ≤ t.2.1 ∧ 0 ≤ t.2.2) ⟨le_rfl, le_rfl⟩
    (fun s a b hs => ⟨add_nonneg hs.1 (sq_nonneg _), add_nonneg hs.2 (sq_nonneg _)⟩)
  rw [cosine_eq]
  have h3 : (cosineSums H x y features).2 = features.countP (bothNumbers H x y) := h2
  have h4 : 0 ≤ (cosineSums H x y features).1.2.1 ∧ 0 ≤ (cosineSums H x y features).1.2.2 := h1
  rw [h3]
  by_cases hc : features.countP (bothNumbers H x y) = 0
  · rw [if_pos hc]
    exact ⟨⟨fun _ => hc, fun _ => rfl⟩, fun _ _ q hq => by cases hq⟩
  · rw [if_neg hc]
    refine ⟨⟨fun h => (by cases h), fun h => absurd h hc⟩, ?_⟩
    intro hsqrt hdot q hq
    cases hq
    have h5 : 0 ≤ H.sqrt (cosineSums H x y features).1.2.1 *
        H.sqrt (cosineSums H x y features).1.2.2 :=
      mul_nonneg (hsqrt _ h4.1) (hsqrt _ h4.2)
    have h0 : (0 : ℚ) < 1 / 10000000000 := by norm_num
    have h6 : (0 : ℚ) < H.sqrt (cosineSums H x y features).1.2.1 *
        H.sqrt (cosineSums H x y features).1.2.2 + 1 / 10000000000 := by
      linarith
    have h7 : (cosineSums H x y features).1.1 /
        (H.sqrt (cosineSums H x y features).1.2.1 * H.sqrt (cosineSums H x y features).1.2.2 +
          1 / 10000000000) < 1 := by
      rw [div_lt_one h6]
      linarith
    linarith

/-- C21: for every pair of records and every feature list, over a host
whose square root is non-negative on non-negative numbers, each of the
Euclidean, Manhattan and Cosine distance functions returns `Infinity`
exactly when no feature of the list is non-`NaN` in both records, and
every other result of the Euclidean and Manhattan functions is a
non-negative number; the same holds for Cosine when the sums of its loop
satisfy `dot <= sqrt(normX) * sqrt(normY)`. -/
theorem distanceMetrics_infinite_or_nonnegative (H : Host) (x y : Row)
    (features : List String) (hsqrt : ∀ q : ℚ, 0 ≤ q → 0 ≤ H.sqrt q) :
    (∀ metric ∈ [euclidean H, manhattan H, cosine H],
      (metric x y features = Dist.inf ↔
        ∀ f ∈ features, ¬ (isNaN H (getKey x f) = false ∧ isNaN H (getKey y f) = false))) ∧
    (∀ q, euclidean H x y features = Dist.fin q → 0 ≤ q) ∧
    (∀ q, manhattan H x y features = Dist.fin q → 0 ≤ q) ∧
    ((cosineSums H x y features).1.1 ≤
        H.sqrt (cosineSums H x y features).1.2.1 * H.sqrt (cosineSums H x y features).1.2.2 →
      ∀ q, cosine H x y features = Dist.fin q → 0 ≤ q) := by
  have he := euclidean_cases H x y features hsqrt
  have hm := manhattan_cases H x y features
  have hc := cosine_cases H x y features
  refine ⟨?_, he.2, hm.2, fun hdot q hq => le_of_lt (hc.2 hsqrt hdot q hq)⟩
  intro metric hmem
  rw [← countP_bothNumbers_eq_zero]
  simp only [List.mem_cons, List.mem_singleton, List.not_mem_nil, or_false] at hmem
  rcases hmem with rfl | rfl | rfl
  · exact he.1
  · exact hm.1
  · exact hc.1

/-- C21 at the one-feature record compared with itself, where the square
root of the example host is exact (`sqrt 0 = 0`, `sqrt 1 = 1`). -/
theorem distanceMetrics_infinite_or_nonnegative_witness :
    (∀ q : ℚ, 0 ≤ q → 0 ≤ exampleHost.sqrt q) ∧
    (cosineSums exampleHost exampleUnitRow exampleUnitRow ["radius"]).1.1 ≤
      exampleHost.sqrt (cosineSums exampleHost exampleUnitRow exampleUnitRow ["radius"]).1.2.1 *
        exampleHost.sqrt
          (cosineSums exampleHost exampleUnitRow exampleUnitRow ["radius"]).1.2.2 ∧
    (∀ metric ∈ [euclidean exampleHost, manhattan exampleHost, cosine exampleHost],
      (metric exampleUnitRow exampleUnitRow ["radius"] = Dist.inf ↔
        ∀ f ∈ ["radius"], ¬ (isNaN exampleHost (getKey exampleUnitRow f) = false ∧
          isNaN exampleHost (getKey exampleUnitRow f) = false))) ∧
    (∀ q, euclidean exampleHost exampleUnitRow exampleUnitRow ["radius"] = Dist.fin q → 0 ≤ q) ∧
    (∀ q, manhattan exampleHost exampleUnitRow exampleUnitRow ["radius"] = Dist.fin q → 0 ≤ q) ∧
    ∀ q, cosine exampleHost exampleUnitRow exampleUnitRow ["radius"] = Dist.fin q → 0 ≤ q :=
  have hsqrt : ∀ q : ℚ, 0 ≤ q → 0 ≤ exampleHost.sqrt q := fun _ h => h
  have hdot : (cosineSums exampleHost exampleUnitRow exampleUnitRow ["radius"]).1.1 ≤
      exampleHost.sqrt (cosineSums exampleHost exampleUnitRow exampleUnitRow ["radius"]).1.2.1 *
        exampleHost.sqrt
          (cosineSums exampleHost exampleUnitRow exampleUnitRow ["radius"]).1.2.2 := by
    decide!
  have h := distanceMetrics_infinite_or_nonnegative exampleHost exampleUnitRow exampleUnitRow
    ["radius"] hsqrt
  ⟨hsqrt, hdot, h.1, h.2.1, h.2.2.1, h.2.2.2 hdot⟩

/-- The three distances of the one-feature record to itself, and to a record
without the feature. -/
theorem distance_examples :
    euclidean exampleHost exampleUnitRow exampleUnitRow ["radius"] = Dist.fin 0 ∧
    manhattan exampleHost exampleUnitRow exampleUnitRow ["radius"] = Dist.fin 0 ∧
    cosine exampleHost exampleUnitRow exampleUnitRow ["radius"] =
      Dist.fin (1 - 1 / (1 + 1 / 10000000000)) ∧
    euclidean exampleHost exampleUnitRow [] ["radius"] = Dist.inf ∧
    manhattan exampleHost exampleUnitRow [] ["radius"] = Dist.inf ∧
    cosine exampleHost exampleUnitRow [] ["radius"] = Dist.inf := by
  decide!

/-! ## The order of the nearest neighbours -/

theorem distLe_refl (d : Dist) : Dist.le d d = true := by
  cases d <;> simp [Dist.le]

theorem distLe_total (d e : Dist) : Dist.le d e = true ∨ Dist.le e d = true := by
  cases d with
  | fin a =>
    cases e with
    | fin b => simpa [Dist.le] using le_total a b
    | inf => simp [Dist.le]
  | inf => cases e <;> simp [Dist.le]

theorem distLe_trans {d e f : Dist} (h1 : Dist.le d e = true) (h2 : Dist.le e f = true) :
    Dist.le d f = true := by
  cases d <;> cases e <;> cases f <;> simp_all [Dist.le]
  exact le_trans h1 h2

theorem sortByDistance_sorted (l : List Neighbor) :
    (sortByDistance l).Pairwise (fun a b => Dist.le a.distance b.distance = true) := by
  haveI : IsTotal Neighbor (fun a b => Dist.le a.distance b.distance = true) :=
    ⟨fun a b => distLe_total a.distance b.distance⟩
  haveI : IsTrans Neighbor (fun a b => Dist.le a.distance b.distance = true) :=
    ⟨fun _ _ _ h1 h2 => distLe_trans h1 h2⟩
  exact List.sorted_insertionSort _ l

theorem filter_orderedInsert_distance (c : Dist) (a : Neighbor) (l : List Neighbor) :
    (List.orderedInsert (fun a b => Dist.le a.distance b.distance = true) a l).filter
        (fun n => decide (n.distance = c)) =
      if a.distance = c then a :: l.filter (fun n => decide (n.distance = c))
      else l.filter (fun n => decide (n.distance = c)) := by
  induction l with
  | nil => by_cases h : a.distance = c <;> simp [h]
  | cons b l ih =>
    rw [List.orderedInsert]
    by_cases hr : Dist.le a.distance b.distance = true
    · rw [if_pos hr]
      by_cases h : a.distance = c <;> simp [List.filter_cons, h]
    · rw [if_neg hr, List.filter_cons, ih]
      by_cases h : a.distance = c
      · have hb : ¬ b.distance = c := by
          intro hb
          apply hr
          rw [h, hb]
          exact distLe_refl c
        simp [List.filter_cons, h, hb]
      · simp [List.filter_cons, h]

theorem filter_sortByDistance (c : Dist) (l : List Neighbor) :
    (sortByDistance l).filter (fun n => decide (n.distance = c)) =
      l.filter (fun n => decide (n.distance = c)) := by
  induction l with
  | nil => rfl
  | cons a l ih =>
    unfold sortByDistance at ih ⊢
    rw [List.insertionSort, filter_orderedInsert_distance, ih]
    by_cases h : a.distance = c <;> simp [List.filter_cons, h]

theorem map_snd_zip_map {α β : Type} (f : α → β) (l : List α) :
    (List.zip l (l.map f)).map Prod.snd = l.map f := by
  induction l with
  | nil => rfl
  | cons a l ih => simp [ih]

/-- The list `distances` of `findKNN` before sorting, with its distances. -/
theorem findKNN_distances (H : Host) (knn : KnnConfig) (target : Row) (data : List Row)
    (features : List String) (metric : Row → Row → List String → Dist)
    (hmetric : distanceMetrics H knn.distanceMetric = some metric) :
    ∃ distances : List Neighbor,
      distances.map (fun n => n.row) = data ∧
      distances.map (fun n => n.distance) =
        (normalizeData H data [target] knn.normalization features).train.map
          (fun r => metric
            ((normalizeData H data [target] knn.normalization features).test.headD []) r
            features) ∧
      findKNN H knn target data features = some (sliceTo (sortByDistance distances) knn.k) := by
  refine ⟨(List.zip data (normalizeData H data [target] knn.normalization features).train).map
    (fun p => ({ row := p.1
                 distance := metric
                   ((normalizeData H data [target] knn.normalization features).test.headD [])
                   p.2 features
                 decision := cleanDecision H (getKey p.1 "decision") } : Neighbor)), ?_, ?_, ?_⟩
  · rw [List.map_map]
    exact map_fst_zip_map _ data
  · have h := map_snd_zip_map
      (normalizeRow H (featureStats H data knn.normalization) features) data
    have h2 : (normalizeData H data [target] knn.normalization features).train =
        data.map (normalizeRow H (featureStats H data knn.normalization) features) := rfl
    rw [List.map_map]
    conv_rhs => rw [h2, ← h, List.map_map]
    rfl
  · simp only [findKNN, hmetric]

theorem sliceTo_append_drop {α : Type} (l : List α) (k : Int) (hk : 0 ≤ k) :
    sliceTo l k = l.take k.toNat ∧ sliceTo l k ++ l.drop k.toNat = l := by
  have h : sliceTo l k = l.take k.toNat := by
    unfold sliceTo
    rw [if_neg (by omega)]
  exact ⟨h, by rw [h, List.take_append_drop]⟩

/-- C22: for every target, candidate pool and integer `k >= 0`, under a
configuration naming one of the three metrics, `findKNN` returns
`min(k, |pool|)` neighbours; each carries a record of the pool itself (not its
normalized copy), and the records returned are taken from distinct positions
of the pool (their list is a sub-permutation of the pool). -/
theorem findKNN_returns_k_pool_records (H : Host) (knn : KnnConfig) (target : Row)
    (data : List Row) (features : List String) (metric : Row → Row → List String → Dist)
    (hmetric : distanceMetrics H knn.distanceMetric = some metric) (hk : 0 ≤ knn.k) :
    ∃ neighbors, findKNN H knn target data features = some neighbors ∧
      neighbors.length = min knn.k.toNat data.length ∧
      (∀ n ∈ neighbors, n.row ∈ data) ∧
      (neighbors.map (fun n => n.row)).Subperm data := by
  obtain ⟨distances, h1, -, h2⟩ := findKNN_distances H knn target data features metric hmetric
  have hlen : distances.length = data.length := by
    rw [← h1, List.length_map]
  have hsub : ((sliceTo (sortByDistance distances) knn.k).map (fun n => n.row)).Subperm data := by
    have hs := ((sliceTo_sublist (sortByDistance distances) knn.k).map (fun n => n.row)).subperm
    have hp := (sortByDistance_perm distances).map (fun n => n.row)
    rw [h1] at hp
    exact hs.trans hp.subperm
  refine ⟨_, h2, ?_, ?_, hsub⟩
  · rw [(sliceTo_append_drop _ _ hk).1, List.length_take,
      (sortByDistance_perm distances).length_eq, hlen]
  · intro n hn
    exact hsub.subset (List.mem_map.2 ⟨n, hn, rfl⟩)

/-- C22 at the example table with the initial configuration (`k = 3`,
Euclidean). -/
theorem findKNN_returns_k_pool_records_witness :
    distanceMetrics exampleHost defaultKnnConfig.distanceMetric = some (euclidean exampleHost) ∧
    0 ≤ defaultKnnConfig.k ∧
    ∃ neighbors,
      findKNN exampleHost defaultKnnConfig exampleFirstRow exampleTable exampleFeatures =
        some neighbors ∧
      neighbors.length = min defaultKnnConfig.k.toNat exampleTable.length ∧
      (∀ n ∈ neighbors, n.row ∈ exampleTable) ∧
      (neighbors.map (fun n => n.row)).Subperm exampleTable :=
  ⟨rfl, by decide,
    findKNN_returns_k_pool_records exampleHost defaultKnnConfig exampleFirstRow exampleTable
      exampleFeatures (euclidean exampleHost) rfl (by decide)⟩

/-- C23: for every target, candidate pool and integer `k >= 0`, under a
configuration naming one of the three metrics, let `distances` pair each
record of the pool, in pool order, with its distance to the normalized
target. The result of `findKNN` is the first `k` entries `neighbors` of a
rearrangement `neighbors ++ rest` of `distances` that is ascending by
distance and keeps, for every distance `c`, the entries at distance `c` in
their pool order; so the distances of the result are non-decreasing,
the entries of the result at one distance are an initial part of the entries
of the pool at that distance, and every entry not returned is at least as far
as every entry returned. -/
theorem findKNN_first_k_of_stable_sort (H : Host) (knn : KnnConfig) (target : Row)
    (data : List Row) (features : List String) (metric : Row → Row → List String → Dist)
    (hmetric : distanceMetrics H knn.distanceMetric = some metric) (hk : 0 ≤ knn.k) :
    ∃ distances neighbors rest : List Neighbor,
      findKNN H knn target data features = some neighbors ∧
      distances.map (fun n => n.row) = data ∧
      distances.map (fun n => n.distance) =
        (normalizeData H data [target] knn.normalization features).train.map
          (fun r => metric
            ((normalizeData H data [target] knn.normalization features).test.headD []) r
            features) ∧
      neighbors.length = min knn.k.toNat data.length ∧
      (neighbors ++ rest).Perm distances ∧
      (neighbors ++ rest).Pairwise (fun a b => Dist.le a.distance b.distance = true) ∧
      (∀ c : Dist, (neighbors ++ rest).filter (fun n => decide (n.distance = c)) =
        distances.filter (fun n => decide (n.distance = c))) ∧
      neighbors.Pairwise (fun a b => Dist.le a.distance b.distance = true) ∧
      (∀ c : Dist, ∃ later, neighbors.filter (fun n => decide (n.distance = c)) ++ later =
        distances.filter (fun n => decide (n.distance = c))) ∧
      ∀ a ∈ neighbors, ∀ b ∈ rest, Dist.le a.distance b.distance = true := by
  obtain ⟨distances, h1, h2, h3⟩ :=
    findKNN_distances H knn target data features metric hmetric
  obtain ⟨h4, h5⟩ := sliceTo_append_drop (sortByDistance distances) knn.k hk
  have hlen : distances.length = data.length := by
    rw [← h1, List.length_map]
  have hsorted := sortByDistance_sorted distances
  rw [← h5] at hsorted
  have hstable : ∀ c : Dist,
      (sliceTo (sortByDistance distances) knn.k ++
          (sortByDistance distances).drop knn.k.toNat).filter
        (fun n => decide (n.distance = c)) =
        distances.filter (fun n => decide (n.distance = c)) := by
    intro c
    rw [h5]
    exact filter_sortByDistance c distances
  refine ⟨distances, sliceTo (sortByDistance distances) knn.k,
    (sortByDistance distances).drop knn.k.toNat, h3, h1, h2, ?_, ?_, hsorted, hstable,
    (List.pairwise_append.1 hsorted).1, ?_, (List.pairwise_append.1 hsorted).2.2⟩
  · rw [h4, List.length_take, (sortByDistance_perm distances).length_eq, hlen]
  · rw [h5]
    exact sortByDistance_perm distances
  · intro c
    refine ⟨((sortByDistance distances).drop knn.k.toNat).filter
      (fun n => decide (n.distance = c)), ?_⟩
    rw [← List.filter_append]
    exact hstable c

/-- C23 at the example table with the initial configuration (`k = 3`,
Euclidean). -/
theorem findKNN_first_k_of_stable_sort_witness :
    distanceMetrics exampleHost defaultKnnConfig.distanceMetric = some (euclidean exampleHost) ∧
    0 ≤ defaultKnnConfig.k ∧
    ∃ distances neighbors rest : List Neighbor,
      findKNN exampleHost defaultKnnConfig exampleFirstRow exampleTable exampleFeatures =
        some neighbors ∧
      distances.map (fun n => n.row) = exampleTable ∧
      distances.map (fun n => n.distance) =
        (normalizeData exampleHost exampleTable [exampleFirstRow] defaultKnnConfig.normalization
          exampleFeatures).train.map
          (fun r => euclidean exampleHost
            ((normalizeData exampleHost exampleTable [exampleFirstRow]
              defaultKnnConfig.normalization exampleFeatures).test.headD []) r
            exampleFeatures) ∧
      neighbors.length = min defaultKnnConfig.k.toNat exampleTable.length ∧
      (neighbors ++ rest).Perm distances ∧
      (neighbors ++ rest).Pairwise (fun a b => Dist.le a.distance b.distance = true) ∧
      (∀ c : Dist, (neighbors ++ rest).filter (fun n => decide (n.distance = c)) =
        distances.filter (fun n => decide (n.distance = c))) ∧
      neighbors.Pairwise (fun a b => Dist.le a.distance b.distance = true) ∧
      (∀ c : Dist, ∃ later, neighbors.filter (fun n => decide (n.distance = c)) ++ later =
        distances.filter (fun n => decide (n.distance = c))) ∧
      ∀ a ∈ neighbors, ∀ b ∈ rest, Dist.le a.distance b.distance = true :=
  ⟨rfl, by decide,
    findKNN_first_k_of_stable_sort exampleHost defaultKnnConfig exampleFirstRow exampleTable
      exampleFeatures (euclidean exampleHost) rfl (by decide)⟩

/-- The two nearest neighbours of the first record of the table with a tie:
the record itself at distance `0`, then the earlier of the two records at
distance `1`. -/
theorem findKNN_tie_example :
    (findKNN exampleHost { defaultKnnConfig with k := 2 } (exampleTieTable.getD 0 [])
        exampleTieTable ["radius"]).map
      (fun l => l.map (fun n => (getKey n.row "id", n.distance))) =
      some [(Value.num 1, Dist.fin 0), (Value.num 2, Dist.fin 1)] := by
  decide!

/-! ## The mode -/

theorem freqOf_setFreq (freq : List (Option Int × Nat)) (v w : Option Int) (n : Nat) :
    freqOf (setFreq freq v n) w = if v = w then n else freqOf freq w := by
  induction freq with
  | nil => simp [setFreq, freqOf]
  | cons p rest ih =>
    obtain ⟨k, c⟩ := p
    by_cases hk : k = v
    · subst hk
      by_cases hw : k = w <;> simp [setFreq, freqOf, hw]
    · by_cases hw : k = w
      · subst hw
        have : ¬ v = k := fun h => hk h.symm
        simp [setFreq, freqOf, hk, this]
      · simp [setFreq, freqOf, hk, hw, ih]

theorem modeInv_step (st : ModeState) (done : List (Option Int)) (v : Option Int)
    (h : ModeInv st done) : ModeInv (modeStep st v) (done ++ [v]) := by
  have hf : ∀ w, freqOf (setFreq st.freq v (freqOf st.freq v + 1)) w = (done ++ [v]).count w := by
    intro w
    rw [freqOf_setFreq, List.count_append, h.freq, h.freq]
    by_cases hw : v = w
    · subst hw
      simp
    · simp [hw, List.count_cons]
  have hv : (done ++ [v]).count v = done.count v + 1 := by simp
  have hw : ∀ w, (done ++ [v]).count w ≤ done.count w + 1 := by
    intro w
    rw [List.count_append]
    have := List.count_le_length w [v]
    simp only [List.length_singleton] at this
    omega
  have hne : ∀ w, w ≠ v → (done ++ [v]).count w = done.count w := by
    intro w hwv
    rw [List.count_append]
    have : ¬ (v == w) = true := by simpa using fun h => hwv h.symm
    simp [List.count_cons, this]
  unfold modeStep
  simp only [hf v]
  by_cases hgt : (done ++ [v]).count v > st.max
  · rw [if_pos hgt]
    refine ⟨hf, ?_, fun he => absurd he (by simp), fun _ => ?_⟩
    · intro w
      by_cases hwv : w = v
      · rw [hwv]
      · rw [hne w hwv]
        have := h.bound w
        show done.count w ≤ (done ++ [v]).count v
        omega
    · refine ⟨v, done, [], rfl, rfl, rfl, ?_⟩
      intro w
      have := h.bound w
      show done.count w < (done ++ [v]).count v
      omega
  · rw [if_neg hgt]
    have hmax : done ≠ [] := by
      intro he
      have := (h.empty he).1
      omega
    obtain ⟨m, before, after, h1, h2, h3, h4⟩ := h.first hmax
    refine ⟨hf, ?_, fun he => absurd he (by simp), fun _ => ?_⟩
    · intro w
      by_cases hwv : w = v
      · rw [hwv]
        show (done ++ [v]).count v ≤ st.max
        omega
      · rw [hne w hwv]
        exact h.bound w
    · exact ⟨m, before, after ++ [v], h1, by rw [h2]; simp, h3, h4⟩

theorem modeInv_foldl (values : List (Option Int)) (st : ModeState) (done : List (Option Int))
    (h : ModeInv st done) : ModeInv (values.foldl modeStep st) (done ++ values) := by
  induction values generalizing st done with
  | nil => simpa using h
  | cons v rest ih =>
    have := ih (modeStep st v) (done ++ [v]) (modeInv_step st done v h)
    simpa using this

theorem modeInv_mode (values : List (Option Int)) :
    ModeInv (values.foldl modeStep { freq := [], max := 0, mode := none }) values := by
  have h0 : ModeInv { freq := [], max := 0, mode := none } [] :=
    ⟨fun v => rfl, fun v => by simp, fun _ => ⟨rfl, rfl⟩, fun h => absurd rfl h⟩
  simpa using modeInv_foldl values _ [] h0

/-- C24 (amended): for every non-empty list of labels, `mode` returns a label
whose number of occurrences in the list is maximal, namely the label whose
running count is the first to reach that maximal number: the list splits at
an occurrence of the result, where the count of the result reaches the
maximum, and before which no label has reached it. -/
theorem mode_first_to_reach_maximum (values : List (Option Int)) (h : values ≠ []) :
    ∃ m before after, mode values = some m ∧ values = before ++ m :: after ∧
      (∀ v, values.count v ≤ values.count m) ∧
      (before ++ [m]).count m = values.count m ∧
      ∀ v, before.count v < values.count m := by
  have hinv := modeInv_mode values
  obtain ⟨m, before, after, h1, h2, h3, h4⟩ := hinv.first h
  have h5 : values.count m =
      (values.foldl modeStep { freq := [], max := 0, mode := none }).max := by
    have h6 : values.count m = (before ++ [m]).count m + after.count m := by
      conv_lhs => rw [h2]
      have : before ++ m :: after = (before ++ [m]) ++ after := by simp
      rw [this, List.count_append]
    have h7 := hinv.bound m
    omega
  refine ⟨m, before, after, h1, h2, ?_, ?_, ?_⟩
  · intro v
    rw [h5]
    exact hinv.bound v
  · rw [h5]
    exact h3
  · intro v
    rw [h5]
    exact h4 v

/-- C24 at the list `[2, 4, 4]`. -/
theorem mode_first_to_reach_maximum_witness :
    ([some 2, some 4, some 4] : List (Option Int)) ≠ [] ∧
    ∃ m before after, mode [some 2, some 4, some 4] = some m ∧
      [some 2, some 4, some 4] = before ++ m :: after ∧
      (∀ v, ([some 2, some 4, some 4] : List (Option Int)).count v ≤
        ([some 2, some 4, some 4] : List (Option Int)).count m) ∧
      (before ++ [m]).count m = ([some 2, some 4, some 4] : List (Option Int)).count m ∧
      ∀ v, before.count v < ([some 2, some 4, some 4] : List (Option Int)).count m :=
  ⟨by decide, mode_first_to_reach_maximum [some 2, some 4, some 4] (by decide)⟩

/-- C24 as stated fails on the labels `[2, 4, 4, 2]`: the labels `2` and `4`
both occur twice, which is the maximal count, and `2` is encountered first,
yet `mode` returns `4`, whose count reaches two first. -/
theorem mode_tie_not_first_encountered :
    ([some 2, some 4, some 4, some 2] : List (Option Int)).count (some 2) = 2 ∧
    ([some 2, some 4, some 4, some 2] : List (Option Int)).count (some 4) = 2 ∧
    (∀ v, ([some 2, some 4, some 4, some 2] : List (Option Int)).count v ≤ 2) ∧
    ([some 2, some 4, some 4, some 2] : List (Option Int)).head? = some (some 2) ∧
    mode [some 2, some 4, some 4, some 2] = some (some 4) ∧
    aggregateDecisions "Mode" [some 2, some 4, some 4, some 2] = some (Value.num 4) := by
  refine ⟨by decide, by decide, ?_, rfl, by decide, by decide⟩
  intro v
  have h := List.count_le_length v ([some 2, some 4, some 4, some 2] : List (Option Int))
  by_cases h2 : v = some 2
  · subst h2
    decide
  · by_cases h4 : v = some 4
    · subst h4
      decide
    · have h2b : ¬ (some 2 : Option Int) = v := fun h => h2 h.symm
      have h4b : ¬ (some 4 : Option Int) = v := fun h => h4 h.symm
      simp [List.count_cons, h2b, h4b]

/-- The aggregations `Mode` and `Weighted`, and every aggregation other than
`Mean` and `Median`, return the result of `mode`. -/
theorem aggregateDecisions_mode (aggregation : String) (decisions : List (Option Int))
    (h1 : aggregation ≠ "Mean") (h2 : aggregation ≠ "Median") :
    aggregateDecisions aggregation decisions =
      match mode decisions with
      | some label => some (valueOfInt label)
      | none => some Value.null := by
  unfold aggregateDecisions
  rw [if_neg h1, if_neg h2]

/-! ## The counters after a restoration by nearest neighbours -/

theorem restoreRecord_deletionStatistics (H : Host) (o : Oracle) (knn : KnnConfig)
    (config : RestoreConfig) (features : List String) (st st1 : RestoreState) (index : Nat)
    (d : Row) (h : restoreRecord H o knn config features st index d = some st1) :
    st1.store.deletionStatistics = st.store.deletionStatistics := by
  rcases restoreRecord_cases H o knn config features st st1 index d h with
    hsame | ⟨_, restoredRow, -, hstore⟩
  · rw [hsame]
  · rw [hstore]
    rfl

theorem restoreLoop_deletionStatistics (H : Host) (o : Oracle) (knn : KnnConfig)
    (config : RestoreConfig) (features : List String) (rest : List Row) :
    ∀ (index : Nat) (st st1 : RestoreState),
      restoreLoop H o knn config features index rest st = some st1 →
      st1.store.deletionStatistics = st.store.deletionStatistics := by
  induction rest with
  | nil =>
    intro index st st1 h
    simp only [restoreLoop, Option.some.injEq] at h
    rw [h]
  | cons d rest ih =>
    intro index st st1 h
    simp only [restoreLoop] at h
    cases hrec : restoreRecord H o knn config features st index d with
    | none => simp [hrec] at h
    | some st2 =>
      rw [hrec, Option.some_bind] at h
      rw [ih (index + 1) st2 st1 h]
      exact restoreRecord_deletionStatistics H o knn config features st st2 index d hrec

/-- Function `restoreData` never writes `deletionStatistics`. -/
theorem restoreData_deletionStatistics (H : Host) (o : Oracle) (knn : KnnConfig)
    (config : RestoreConfig) (s : Store) (result : RestoreResult)
    (h : restoreData H o knn config s = some result) :
    result.store.deletionStatistics = s.deletionStatistics := by
  unfold restoreData at h
  split_ifs at h
  · simp only [Option.some.injEq] at h
    subst h
    rfl
  · simp only [Option.map_eq_some'] at h
    obtain ⟨st1, hloop, rfl⟩ := h
    exact restoreLoop_deletionStatistics H o (applyConfig knn config) config
      (restoreFeatures s) s.deletedRows 0 _ st1 hloop

/-- C25, the code at the failing input: the record 1 of the example table is
deleted as a full row, so that the deleted partition holds one record and
the counters `(totalDeleted, partialDeletions, fullDeletions)` are
`(1, 0, 1)`. `restoreData` restores the record (it returns 1 and empties the
deleted partition) but leaves the counters at `(1, 0, 1)`, whereas
`restoreRow` on the same state brings them to `(0, 0, 0)`. -/
theorem restoreData_leaves_counters :
    (exampleFullBatch.deletedRows.length, exampleFullBatch.deletionStatistics.totalDeleted,
      exampleFullBatch.deletionStatistics.partialDeletions,
      exampleFullBatch.deletionStatistics.fullDeletions) = (1, 1, 0, 1) ∧
    (restoreData exampleHost exampleOracle defaultKnnConfig exampleNoConfig
      exampleFullBatch).map (fun r => (r.restored, r.store.deletedRows.length,
        r.store.deletionStatistics.totalDeleted, r.store.deletionStatistics.partialDeletions,
        r.store.deletionStatistics.fullDeletions)) = some (1, 0, 1, 0, 1) ∧
    (restoreRow exampleFullBatch (Value.num 1)).map (fun s => (s.deletedRows.length,
        s.deletionStatistics.totalDeleted, s.deletionStatistics.partialDeletions,
        s.deletionStatistics.fullDeletions)) = some (0, 0, 0, 0) := by
  decide!

/-! ## Explicit deletion -/

theorem includes_validIds (s : Store) (rows : List Value) (hids : UniqueIds s.tableItems) :
    ∀ row ∈ s.tableItems,
      includes (rows.filter (fun id =>
        s.tableItems.any (fun item =>
          strictEq (getKey item "id") id &&
            !(strictEq (getKey item "status") (Value.str "deleted")))))
        (getKey row "id") = isSelected rows row := by
  intro row hrow
  rw [Bool.eq_iff_iff]
  constructor
  · intro h
    have hact := active_of_validIds s rows hids.1 row hrow h
    rw [includes_iff] at h
    rw [isSelected, Bool.and_eq_true, includes_iff]
    exact ⟨(List.mem_filter.1 h).1, hact⟩
  · intro h
    rw [isSelected, Bool.and_eq_true, includes_iff] at h
    rw [includes_iff]
    refine List.mem_filter.2 ⟨h.1, ?_⟩
    rw [List.any_eq_true]
    refine ⟨row, hrow, ?_⟩
    rw [Bool.and_eq_true]
    refine ⟨(strictEq_iff _ _).2 ⟨rfl, ?_⟩, h.2⟩
    intro hnan
    exact hids.2 (List.mem_map.2 ⟨row, hrow, hnan⟩)

theorem forall₂_imp_mem {α β : Type} {R S : α → β → Prop} {l1 : List α} {l2 : List β}
    (h : List.Forall₂ R l1 l2) (himp : ∀ a ∈ l1, ∀ b, R a b → S a b) :
    List.Forall₂ S l1 l2 := by
  induction h with
  | nil => exact List.Forall₂.nil
  | cons hab _ ih =>
    exact List.Forall₂.cons (himp _ (List.mem_cons_self _ _) _ hab)
      (ih (fun a ha b hr => himp a (List.mem_cons_of_mem _ ha) b hr))

theorem forall₂_filter_not {α : Type} {R : α → α → Prop} (p : α → Bool) {l1 l2 : List α}
    (h : List.Forall₂ R l1 l2)
    (hr : ∀ a b, R a b → (p a = true ∧ p b = true) ∨ b = a) :
    l2.filter (fun a => !p a) = l1.filter (fun a => !p a) := by
  induction h with
  | nil => rfl
  | cons hab _ ih =>
    rcases hr _ _ hab with ⟨h1, h2⟩ | h1
    · simp [List.filter_cons, h1, h2, ih]
    · simp [List.filter_cons, h1, ih]

/-- C26: on a table with unique ids (pairwise distinct, none `NaN`), for
every explicit request and every outcome of the sampler,
`handleSelectedDeletion` appends to the deleted partition one snapshot for
every record whose id is in the requested list and that is active, in table
order, and nothing else; requested ids without an active record contribute
nothing. The records that are not selected are the same, in the same order,
in the table before and after; in the full-deletion branch the table after
is exactly this list, in the partial branch every selected record stays at
its position with some attributes cleared. -/
theorem handleSelectedDeletion_selected_active (o : Oracle) (hvalid : o.Valid) (s : Store)
    (d : DeleteData) (hids : UniqueIds s.tableItems) :
    (∃ marked : List Row,
      (handleSelectedDeletion o s d).deletedRows = s.deletedRows ++ marked ∧
      List.Forall₂
        (fun row snapshot => idOf snapshot = idOf row ∧
          (IsFullSnapshot row snapshot ∨ IsPartialSnapshot o d.propertyQuantity row snapshot))
        (s.tableItems.filter (isSelected d.rows)) marked) ∧
    (handleSelectedDeletion o s d).tableItems.filter (fun row => !isSelected d.rows row) =
      s.tableItems.filter (fun row => !isSelected d.rows row) ∧
    ((d.forceRowDeletion || decide (d.propertyQuantity > ATTRIBUTE_DELETION_THRESHOLD)) = true →
      (handleSelectedDeletion o s d).tableItems =
        s.tableItems.filter (fun row => !isSelected d.rows row)) ∧
    (¬ (d.forceRowDeletion || decide (d.propertyQuantity > ATTRIBUTE_DELETION_THRESHOLD)) = true →
      List.Forall₂
        (fun row row1 =>
          if isSelected d.rows row then
            ∃ i, row1 = (clearRowAttributes (o.sampleAttributes i) row d.propertyQuantity).1
          else row1 = row)
        s.tableItems (handleSelectedDeletion o s d).tableItems) := by
  have hsel := includes_validIds s d.rows hids
  have hsel1 : s.tableItems.filter (fun row => includes (d.rows.filter (fun id =>
      s.tableItems.any (fun item =>
        strictEq (getKey item "id") id &&
          !(strictEq (getKey item "status") (Value.str "deleted"))))) (getKey row "id")) =
      s.tableItems.filter (isSelected d.rows) :=
    List.filter_congr hsel
  have hsel2 : s.tableItems.filter (fun row => !(includes (d.rows.filter (fun id =>
      s.tableItems.any (fun item =>
        strictEq (getKey item "id") id &&
          !(strictEq (getKey item "status") (Value.str "deleted"))))) (getKey row "id"))) =
      s.tableItems.filter (fun row => !isSelected d.rows row) :=
    List.filter_congr (fun row hrow => by rw [hsel row hrow])
  by_cases hfull :
      (d.forceRowDeletion || decide (d.propertyQuantity > ATTRIBUTE_DELETION_THRESHOLD)) = true
  · have hproc := processDeletions_removing o s (d.rows.filter (fun id =>
      s.tableItems.any (fun item =>
        strictEq (getKey item "id") id &&
          !(strictEq (getKey item "status") (Value.str "deleted"))))) d.propertyQuantity
      d.forceRowDeletion hfull
    obtain ⟨h1, marked, h2, h3, -⟩ := deleteFullRows_spec o (d.rows.filter (fun id =>
      s.tableItems.any (fun item =>
        strictEq (getKey item "id") id &&
          !(strictEq (getKey item "status") (Value.str "deleted"))))) s.tableItems s
    rw [hsel1] at h3
    rw [hsel2] at h1
    have htable : (handleSelectedDeletion o s d).tableItems =
        s.tableItems.filter (fun row => !isSelected d.rows row) := by
      unfold handleSelectedDeletion
      rw [hproc]
      exact h1
    refine ⟨⟨marked, ?_, ?_⟩, ?_, fun _ => htable, fun h => absurd hfull h⟩
    · unfold handleSelectedDeletion
      rw [hproc]
      exact h2
    · exact List.Forall₂.imp (fun _ _ hs => ⟨(idOf_of_isFullSnapshot hs).symm, Or.inl hs⟩) h3
    · rw [htable, List.filter_filter]
      simp
  · have hproc := processDeletions_clearing o s (d.rows.filter (fun id =>
      s.tableItems.any (fun item =>
        strictEq (getKey item "id") id &&
          !(strictEq (getKey item "status") (Value.str "deleted"))))) d.propertyQuantity
      d.forceRowDeletion hfull
    obtain ⟨h1, marked, h2, h3, -⟩ := clearRows_spec o (d.rows.filter (fun id =>
      s.tableItems.any (fun item =>
        strictEq (getKey item "id") id &&
          !(strictEq (getKey item "status") (Value.str "deleted"))))) d.propertyQuantity 0
      s.tableItems s
    rw [hsel1] at h3
    have hcleared : List.Forall₂
        (fun row row1 =>
          if isSelected d.rows row then
            ∃ i, row1 = (clearRowAttributes (o.sampleAttributes i) row d.propertyQuantity).1
          else row1 = row)
        s.tableItems (handleSelectedDeletion o s d).tableItems := by
      unfold handleSelectedDeletion
      rw [hproc]
      refine forall₂_imp_mem h1 ?_
      intro row hrow row1 hr
      unfold IsClearedRow at hr
      rw [hsel row hrow] at hr
      exact hr
    refine ⟨⟨marked, ?_, ?_⟩, ?_, fun h => absurd h hfull, fun _ => hcleared⟩
    · unfold handleSelectedDeletion
      rw [hproc]
      exact h2
    · exact List.Forall₂.imp (fun _ _ hs => ⟨(idOf_of_isPartialSnapshot hs).symm, Or.inr hs⟩) h3
    · refine forall₂_filter_not (isSelected d.rows) hcleared ?_
      intro row row1 hr
      by_cases hs : isSelected d.rows row = true
      · left
        rw [if_pos hs] at hr
        obtain ⟨i, rfl⟩ := hr
        refine ⟨hs, ?_⟩
        rw [isSelected, Bool.and_eq_true] at hs ⊢
        rw [idOf_clearRowAttributes _ (hvalid.2 i) row d.propertyQuantity]
        exact ⟨hs.1, isActive_clearRowAttributes _ row d.propertyQuantity⟩
      · right
        rw [if_neg hs] at hr
        exact hr

/-- C26 at the example table with the request for the ids 1 and 99. -/
theorem handleSelectedDeletion_selected_active_witness :
    exampleOracle.Valid ∧ UniqueIds exampleStore.tableItems ∧
    (∃ marked : List Row,
      (handleSelectedDeletion exampleOracle exampleStore exampleMixedSelection).deletedRows =
        exampleStore.deletedRows ++ marked ∧
      List.Forall₂
        (fun row snapshot => idOf snapshot = idOf row ∧
          (IsFullSnapshot row snapshot ∨
            IsPartialSnapshot exampleOracle exampleMixedSelection.propertyQuantity row snapshot))
        (exampleStore.tableItems.filter (isSelected exampleMixedSelection.rows)) marked) ∧
    (handleSelectedDeletion exampleOracle exampleStore exampleMixedSelection).tableItems.filter
        (fun row => !isSelected exampleMixedSelection.rows row) =
      exampleStore.tableItems.filter (fun row => !isSelected exampleMixedSelection.rows row) ∧
    ((exampleMixedSelection.forceRowDeletion ||
        decide (exampleMixedSelection.propertyQuantity > ATTRIBUTE_DELETION_THRESHOLD)) = true →
      (handleSelectedDeletion exampleOracle exampleStore exampleMixedSelection).tableItems =
        exampleStore.tableItems.filter
          (fun row => !isSelected exampleMixedSelection.rows row)) ∧
    (¬ (exampleMixedSelection.forceRowDeletion ||
        decide (exampleMixedSelection.propertyQuantity > ATTRIBUTE_DELETION_THRESHOLD)) = true →
      List.Forall₂
        (fun row row1 =>
          if isSelected exampleMixedSelection.rows row then
            ∃ i, row1 = (clearRowAttributes (exampleOracle.sampleAttributes i) row
              exampleMixedSelection.propertyQuantity).1
          else row1 = row)
        exampleStore.tableItems
        (handleSelectedDeletion exampleOracle exampleStore exampleMixedSelection).tableItems) :=
  ⟨exampleOracle_valid, by decide,
    handleSelectedDeletion_selected_active exampleOracle exampleOracle_valid exampleStore
      exampleMixedSelection (by decide)⟩

/-- The request for the ids 1 and 99 on the example table deletes the record
1 and leaves the records 2 and 3; the id 99 is dropped. -/
theorem handleSelectedDeletion_example :
    (handleSelectedDeletion exampleOracle exampleStore exampleMixedSelection).tableItems.map
      idOf = [Value.num 2, Value.num 3] ∧
    (handleSelectedDeletion exampleOracle exampleStore exampleMixedSelection).deletedRows.map
      idOf = [Value.num 1] := by
  decide

end AnalizaDanych
